import Mathlib

/-!
# Bacon number: hash index, graph builder and breadth-first path finder

A shallow embedding of `main.c` (mertturkmenoglu/bacon-number).

Conventions of the embedding.

* A C string is the list of its bytes before the terminating NUL (`Str`); `char` is signed, so
  `(int) str[i]` is `charCode` of the byte.
* `long` is a 64-bit two's complement integer: arithmetic on it is done in `Int` and wrapped by
  `wrapLong`.  The `int` counters (`num`, `count`, loop indices) are unbounded: they count objects
  that exist in memory.
* Dynamically allocated `Movie` and `Actor` objects live in two heaps (`movieHeap`, `actorHeap`);
  a pointer to one of them is its index, `NULL` is `none`.
* A chain of `next` pointers (a bucket's `MapEntry` chain, the queue's `QueueNode` chain) is the
  list of its nodes.  The `actor_count` / `movie_count` fields are the lengths of the `actors` /
  `movies` arrays.  A buffer that was allocated and not yet written is the empty string.
* The buffers for names have `MAX_INPUT` bytes.  In `build_hash_tables` a `strcpy` of a name of
  `MAX_INPUT` or more bytes into such a buffer yields `Res.fault`.  The one `strcpy` of
  `find_distance` copies the name of a movie that has a cast; in a memory that
  `build_hash_tables` produced such a name was copied into a filmography slot before, so it
  fits, and the copy is taken to fit.
* `find_distance` writes neither a filmography nor a cast, so its two `for` loops run over the
  value these arrays have when the loop is entered.
* Dereferencing `NULL`, indexing outside an array and dividing by zero yield `Res.fault`.
  The two `while` loops of `find_distance` whose termination depends on the state take a budget;
  `Res.timeout` says that the budget was used up.
-/

namespace BaconNumber

/-- A C string: its bytes up to the terminating NUL. -/
abbrev Str := List Nat

/-- The bytes of a string literal (UTF-8). -/
def cstr (s : String) : Str :=
  (s.toList.flatMap String.utf8EncodeChar).map UInt8.toNat

/-- Result of running a piece of the program. -/
inductive Res (α : Type) where
  | ok : α → Res α
  | fault : Res α
  | timeout : Res α
deriving DecidableEq, Repr

/-- Pointer dereference `heap[p]`. -/
def deref {α : Type} (heap : List α) (p : Nat) : Res α :=
  match heap[p]? with
  | some a => .ok a
  | none => .fault

/-- `struct Movie`. -/
structure Movie where
  name : Str
  actors : List Str
  is_visited : Int
deriving DecidableEq, Repr

/-- `struct Actor`; `parent` points into the actor heap. -/
structure Actor where
  name : Str
  movies : List Str
  is_visited : Int
  parent_movie_name : Str
  parent : Option Nat
deriving DecidableEq, Repr

/-- `struct MapEntry` without its `next` link; `value` points into a heap. -/
structure MapEntry where
  key : Int
  value : Nat
deriving DecidableEq, Repr

/-- `struct HashTable`: one cell of the table array, `head` is the chain of the cell. -/
structure HashTable where
  table_size : Int
  count : Int
  head : List MapEntry
deriving DecidableEq, Repr

/-- `struct QueueNode` without its `next` link. -/
structure QueueNode where
  value : Str
deriving DecidableEq, Repr

/-- `struct Queue`: `front` is the chain starting at the front node, `rear` the last node. -/
structure Queue where
  front : List QueueNode
  rear : Option QueueNode
deriving DecidableEq, Repr

/-- The memory the program works on: the two table arrays and the two heaps. -/
structure Graph where
  movies : List HashTable
  actors : List HashTable
  movieHeap : List Movie
  actorHeap : List Actor
deriving DecidableEq, Repr

/-- A line written to standard output by `find_distance`. -/
inductive Line where
  | notFound : Line
  | hop : Str → Str → Str → Line
deriving DecidableEq, Repr

/-- Wrap-around of a 64-bit signed `long`. -/
def wrapLong (x : Int) : Int := (x + 2 ^ 63) % 2 ^ 64 - 2 ^ 63

/-- The value of `(int) c` for a byte `c` held in a (signed) `char`. -/
def charCode (c : Nat) : Int := if c < 128 then (c : Int) else (c : Int) - 256

/-- The `for` loop of `hash`, from the current `hash_value` and `p_pow`. -/
def hashLoop : Str → Int → Int → Int
  | [], hash_value, _ => hash_value
  | c :: rest, hash_value, p_pow =>
      hashLoop rest
        ((wrapLong (hash_value + wrapLong (charCode c * p_pow))).tmod 10000000009)
        ((wrapLong (p_pow * 31)).tmod 10000000009)

/-- `long hash(char *str)`. -/
def hash (str : Str) : Int := hashLoop str 0 1

/-- `create_hash_table`: `m` cells, each with `table_size = m`, `head = NULL`, `count = 0`. -/
def create_hash_table (m : Nat) : Res (List HashTable) :=
  if m = 0 then .fault
  else .ok (List.replicate m { table_size := (m : Int), count := 0, head := [] })

/-- `create_movie`: one allocated, unwritten cast slot. -/
def create_movie (name : Str) : Movie :=
  { name := name, actors := [[]], is_visited := 0 }

/-- `create_actor`: one allocated, unwritten filmography slot, no parent. -/
def create_actor (name : Str) : Actor :=
  { name := name, movies := [[]], is_visited := 0, parent_movie_name := [], parent := none }

/-- The statement `if (key < 0) key = -key;` of `insert` and `search`. -/
def absKey (key : Int) : Int := if key < 0 then wrapLong (-key) else key

/-- The cell `ht[i]` for the `long` index `i = key % ht->table_size`. -/
def cellAt (ht : List HashTable) (key : Int) : Res (Int × HashTable) :=
  match ht[0]? with
  | none => .fault
  | some h0 =>
      if h0.table_size = 0 then .fault
      else
        let i := key.tmod h0.table_size
        if i < 0 then .fault
        else
          match ht[i.toNat]? with
          | none => .fault
          | some cell => .ok (i, cell)

/-- `insert`: prepend a new entry to the chain of cell `|key| % table_size`. -/
def insert (ht : List HashTable) (key : Int) (value : Nat) : Res (List HashTable) :=
  let key := absKey key
  match cellAt ht key with
  | .ok (i, cell) =>
      let entry : MapEntry := { key := key, value := value }
      if cell.head = [] then
        .ok (ht.set i.toNat { cell with head := [entry], count := 1 })
      else
        .ok (ht.set i.toNat { cell with head := entry :: cell.head, count := cell.count + 1 })
  | .fault => .fault
  | .timeout => .timeout

/-- `search`: the first entry of the chain of cell `|key| % table_size` whose key is `|key|`,
or `NULL`. -/
def search (ht : List HashTable) (key : Int) : Res (Option MapEntry) :=
  let key := absKey key
  match cellAt ht key with
  | .ok (_, cell) => .ok (cell.head.find? (fun curr => decide (curr.key = key)))
  | .fault => .fault
  | .timeout => .timeout

/-- `MAX_INPUT`: the size in bytes of every buffer that `create_movie`, `create_actor` and
`build_hash_tables` allocate for a cast name, for a movie name of a filmography and for a
parent movie name. -/
def MAX_INPUT : Nat := 255

/-- The `while (current != NULL)` loop of `build_hash_tables` that copies the cast tokens into
`movie->actors`, growing the array by one slot whenever `j >= actor_count - 1`.  The `strcpy`
writes the bytes of the token and the terminating zero into a slot of `MAX_INPUT` bytes: a
token of `MAX_INPUT` or more bytes overflows the slot, which is a fault. -/
def castLoop : List Str → Nat → List Str → Res (List Str)
  | [], _, actors => .ok actors
  | current :: rest, j, actors =>
      if j - 1 < actors.length then
        if current.length < MAX_INPUT then
          let actors := actors.set (j - 1) current
          let actors := if (j : Int) ≥ (actors.length : Int) - 1 then actors ++ [[]] else actors
          castLoop rest (j + 1) actors
        else .fault
      else .fault

/-- The `for` loop of `build_hash_tables` over the cast of `movie`: an actor found by the hash
of the cast name gets the movie name appended to its filmography, otherwise a new actor is
created and inserted.  In both branches the movie name is copied by `strcpy` into a new slot of
`MAX_INPUT` bytes: a movie name of `MAX_INPUT` or more bytes overflows it, which is a fault. -/
def actorLoop (movie : Movie) : List Str → Graph → Res Graph
  | [], g => .ok g
  | a :: rest, g =>
      match search g.actors (hash a) with
      | .ok (some result) =>
          match deref g.actorHeap result.value with
          | .ok actor =>
              if movie.name.length < MAX_INPUT then
                let actor1 : Actor := { actor with movies := actor.movies ++ [movie.name] }
                actorLoop movie rest { g with actorHeap := g.actorHeap.set result.value actor1 }
              else .fault
          | .fault => .fault
          | .timeout => .timeout
      | .ok none =>
          let actor := create_actor a
          match insert g.actors (hash actor.name) g.actorHeap.length with
          | .ok tbl =>
              if movie.name.length < MAX_INPUT then
                let actor1 : Actor :=
                  { actor with movies := actor.movies.set (actor.movies.length - 1) movie.name }
                actorLoop movie rest { g with actors := tbl, actorHeap := g.actorHeap ++ [actor1] }
              else .fault
          | .fault => .fault
          | .timeout => .timeout
      | .fault => .fault
      | .timeout => .timeout

/-- One iteration of the outer loop of `build_hash_tables`, for a line with at least one token. -/
def buildLine (name : Str) (cast : List Str) (g : Graph) : Res Graph :=
  let movie := create_movie name
  match castLoop cast 1 movie.actors with
  | .ok actors =>
      let movie := { movie with actors := actors.take (actors.length - 1) }
      match insert g.movies (hash movie.name) g.movieHeap.length with
      | .ok tbl =>
          actorLoop movie movie.actors
            { g with movies := tbl, movieHeap := g.movieHeap ++ [movie] }
      | .fault => .fault
      | .timeout => .timeout
  | .fault => .fault
  | .timeout => .timeout

/-- `build_hash_tables`; every line is given by its tokens (the result of `parse_line`), a line
without tokens is skipped. -/
def build_hash_tables : List (List Str) → Graph → Res Graph
  | [], g => .ok g
  | [] :: lines, g => build_hash_tables lines g
  | (name :: cast) :: lines, g =>
      match buildLine name cast g with
      | .ok g1 => build_hash_tables lines g1
      | .fault => .fault
      | .timeout => .timeout

/-- The graph built by `main`: two tables of `m` cells filled by `build_hash_tables`. -/
def freshGraph (m : Nat) (lines : List (List Str)) : Res Graph :=
  match create_hash_table m, create_hash_table m with
  | .ok movies, .ok actors =>
      build_hash_tables lines { movies := movies, actors := actors, movieHeap := [], actorHeap := [] }
  | _, _ => .fault

/-- `create_queue`. -/
def create_queue : Queue := { front := [], rear := none }

/-- `enqueue`. -/
def enqueue (q : Queue) (value : Str) : Queue :=
  let temp : QueueNode := { value := value }
  match q.rear with
  | none => { front := [temp], rear := some temp }
  | some _ => { front := q.front ++ [temp], rear := some temp }

/-- `dequeue`: the removed node (or `NULL`) and the queue afterwards. -/
def dequeue (q : Queue) : Option QueueNode × Queue :=
  match q.front with
  | [] => (none, q)
  | temp :: rest => (some temp, { front := rest, rear := if rest = [] then none else q.rear })

/-- The backtracking `while (curr_actor != NULL)` loop of `find_distance`: returns `num` and the
lines printed. -/
def backtrack (g : Graph) : Nat → Option Nat → Option Nat → Int → List Line → Res (Int × List Line)
  | _, none, _, num, out => .ok (num, out)
  | 0, some _, _, _, _ => .timeout
  | fuel + 1, some c, next_actor, num, out =>
      match deref g.actorHeap c with
      | .ok ca =>
          match next_actor with
          | some n =>
              match deref g.actorHeap n with
              | .ok na =>
                  backtrack g fuel ca.parent na.parent (num + 1)
                    (out ++ [Line.hop ca.name na.name ca.parent_movie_name])
              | .fault => .fault
              | .timeout => .timeout
          | none => backtrack g fuel ca.parent none (num + 1) out
      | .fault => .fault
      | .timeout => .timeout

/-- The inner `for` loop of `find_distance` over the cast of the movie being expanded. -/
def castScan (curr_actor : Nat) (curr_movie : Movie) : List Str → Graph → Queue → Res (Graph × Queue)
  | [], g, q => .ok (g, q)
  | a :: rest, g, q =>
      match search g.actors (hash a) with
      | .ok (some e) =>
          match deref g.actorHeap e.value with
          | .ok tmp_actor =>
              if tmp_actor.is_visited = 0 then
                let child : Actor :=
                  { tmp_actor with parent := some curr_actor, parent_movie_name := curr_movie.name }
                let g1 : Graph :=
                  if tmp_actor.parent = none then
                    { g with actorHeap := g.actorHeap.set e.value child }
                  else g
                castScan curr_actor curr_movie rest g1 (enqueue q tmp_actor.name)
              else castScan curr_actor curr_movie rest g q
          | .fault => .fault
          | .timeout => .timeout
      | .ok none => .fault
      | .fault => .fault
      | .timeout => .timeout

/-- The outer `for` loop of `find_distance` over the filmography of the actor being expanded. -/
def movieScan (curr_actor : Nat) : List Str → Graph → Queue → Res (Graph × Queue)
  | [], g, q => .ok (g, q)
  | name :: rest, g, q =>
      match search g.movies (hash name) with
      | .ok (some e) =>
          match deref g.movieHeap e.value with
          | .ok curr_movie =>
              if curr_movie.is_visited = 0 then
                let visited : Movie := { curr_movie with is_visited := 1 }
                match castScan curr_actor visited visited.actors
                    { g with movieHeap := g.movieHeap.set e.value visited } q with
                | .ok (g1, q1) => movieScan curr_actor rest g1 q1
                | .fault => .fault
                | .timeout => .timeout
              else movieScan curr_actor rest g q
          | .fault => .fault
          | .timeout => .timeout
      | .ok none => .fault
      | .fault => .fault
      | .timeout => .timeout

/-- The body of `if (strcmp(v, end) == 0)`: walk the parent links from the actor of `v`, print
the hops and return `num - 1`. -/
def foundEnd (walk : Nat) (v : Str) (g : Graph) : Res (Int × List Line × Graph) :=
  match search g.actors (hash v) with
  | .ok (some e) =>
      match deref g.actorHeap e.value with
      | .ok curr_actor =>
          match backtrack g walk (some e.value) curr_actor.parent 0 [] with
          | .ok (num, out) => .ok (num - 1, out, g)
          | .fault => .fault
          | .timeout => .timeout
      | .fault => .fault
      | .timeout => .timeout
  | .ok none => .fault
  | .fault => .fault
  | .timeout => .timeout

/-- The `while (q->front != NULL)` loop of `find_distance`; `walk` is the budget of the
backtracking loop. -/
def bfsLoop (end_ : Str) (walk : Nat) : Nat → Graph → Queue → Res (Int × List Line × Graph)
  | fuel, g, q =>
      if q.front = [] then .ok (-1, [], g)
      else
        match fuel with
        | 0 => .timeout
        | fuel + 1 =>
            match dequeue q with
            | (none, _) => .fault
            | (some node, q1) =>
                let v := node.value
                if v = end_ then foundEnd walk v g
                else
                  match search g.actors (hash v) with
                  | .ok (some e) =>
                      match deref g.actorHeap e.value with
                      | .ok curr_actor =>
                          match movieScan e.value curr_actor.movies g q1 with
                          | .ok (g1, q2) => bfsLoop end_ walk fuel g1 q2
                          | .fault => .fault
                          | .timeout => .timeout
                      | .fault => .fault
                      | .timeout => .timeout
                  | .ok none => .fault
                  | .fault => .fault
                  | .timeout => .timeout

/-- `find_distance`: the returned `int`, the lines printed and the memory afterwards.  `fuel`
bounds the iterations of the search loop and of the backtracking loop. -/
def find_distance (fuel : Nat) (start end_ : Str) (g : Graph) : Res (Int × List Line × Graph) :=
  match search g.actors (hash start) with
  | .ok none => .ok (-1, [Line.notFound], g)
  | .ok (some _) =>
      match search g.actors (hash end_) with
      | .ok none => .ok (-1, [Line.notFound], g)
      | .ok (some _) =>
          let q := enqueue create_queue start
          match search g.actors (hash start) with
          | .ok (some tmp_map_entry) =>
              match deref g.actorHeap tmp_map_entry.value with
              | .ok s =>
                  let s1 : Actor := { s with is_visited := 1 }
                  bfsLoop end_ fuel fuel
                    { g with actorHeap := g.actorHeap.set tmp_map_entry.value s1 } q
              | .fault => .fault
              | .timeout => .timeout
          | .ok none => .fault
          | .fault => .fault
          | .timeout => .timeout
      | .fault => .fault
      | .timeout => .timeout
  | .fault => .fault
  | .timeout => .timeout

/-- `find_bacon_number`. -/
def find_bacon_number (fuel : Nat) (start : Str) (g : Graph) : Res (Int × List Line × Graph) :=
  find_distance fuel start (cstr "Bacon, Kevin") g

/-- The exact (unwrapped) results of the arithmetic operations performed by the loop of `hash`
before they are stored in a `long`: the product, the sum and the next power of every iteration. -/
def hashValues : Str → Int → Int → List Int
  | [], _, _ => []
  | c :: rest, hash_value, p_pow =>
      [charCode c * p_pow, hash_value + wrapLong (charCode c * p_pow), p_pow * 31] ++
        hashValues rest
          ((wrapLong (hash_value + wrapLong (charCode c * p_pow))).tmod 10000000009)
          ((wrapLong (p_pow * 31)).tmod 10000000009)

/-- The reference polynomial hash of the specification: the sum of `s[i] * 31 ^ i` over the byte
positions `i`, modulo 10000000009. -/
def hashRef (s : Str) : Int :=
  (∑ i ∈ Finset.range s.length, ((s.getD i 0 : Nat) : Int) * 31 ^ i) % 10000000009

/-- A table array as `create_hash_table` makes it and `insert` keeps it: at least one cell, and
every cell records the number of cells as its `table_size`. -/
def TableOk (ht : List HashTable) : Prop :=
  0 < ht.length ∧ ∀ c ∈ ht, c.table_size = (ht.length : Int)

/-- The records of the chain scenario: `M1/A/B` and `M2/B/C`. -/
def chainLines : List (List Str) :=
  [[cstr "M1", cstr "A", cstr "B"], [cstr "M2", cstr "B", cstr "C"]]

/-- The records of the Apollo 13 scenario. -/
def apolloLines : List (List Str) :=
  [[cstr "Apollo 13", cstr "Tom Hanks", cstr "Kevin Bacon"], [cstr "Forrest Gump", cstr "Tom Hanks"]]

/-- The graph that `freshGraph 2 chainLines` builds. -/
def chainGraph : Graph :=
  { movies := [{ table_size := 2, count := 1, head := [{ key := 1596, value := 0 }] },
               { table_size := 2, count := 1, head := [{ key := 1627, value := 1 }] }]
    actors := [{ table_size := 2, count := 1, head := [{ key := 66, value := 1 }] },
               { table_size := 2, count := 2,
                 head := [{ key := 67, value := 2 }, { key := 65, value := 0 }] }]
    movieHeap := [{ name := cstr "M1", actors := [cstr "A", cstr "B"], is_visited := 0 },
                  { name := cstr "M2", actors := [cstr "B", cstr "C"], is_visited := 0 }]
    actorHeap := [{ name := cstr "A", movies := [cstr "M1"], is_visited := 0,
                    parent_movie_name := [], parent := none },
                  { name := cstr "B", movies := [cstr "M1", cstr "M2"], is_visited := 0,
                    parent_movie_name := [], parent := none },
                  { name := cstr "C", movies := [cstr "M2"], is_visited := 0,
                    parent_movie_name := [], parent := none }] }

/-- The graph that `freshGraph 2 apolloLines` builds. -/
def apolloGraph : Graph :=
  { movies := [{ table_size := 2, count := 1, head := [{ key := 7241982004, value := 0 }] },
               { table_size := 2, count := 1, head := [{ key := 833501489, value := 1 }] }]
    actors := [{ table_size := 2, count := 0, head := [] },
               { table_size := 2, count := 2,
                 head := [{ key := 4076342801, value := 1 }, { key := 6788912239, value := 0 }] }]
    movieHeap := [{ name := cstr "Apollo 13", actors := [cstr "Tom Hanks", cstr "Kevin Bacon"],
                    is_visited := 0 },
                  { name := cstr "Forrest Gump", actors := [cstr "Tom Hanks"], is_visited := 0 }]
    actorHeap := [{ name := cstr "Tom Hanks", movies := [cstr "Apollo 13", cstr "Forrest Gump"],
                    is_visited := 0, parent_movie_name := [], parent := none },
                  { name := cstr "Kevin Bacon", movies := [cstr "Apollo 13"], is_visited := 0,
                    parent_movie_name := [], parent := none }] }

/-- The returned value and the printed lines of a run of `find_distance`. -/
def answer : Res (Int × List Line × Graph) → Option (Int × List Line)
  | .ok (n, out, _) => some (n, out)
  | .fault => none
  | .timeout => none

/-- The key under which `insert` stores, and `search` looks for, a name: `|hash(name)|`. -/
def hashKey (s : Str) : Int := absKey (hash s)

/-- The records of the input: movie name and cast of every line that has a token. -/
def records : List (List Str) → List (Str × List Str)
  | [] => []
  | [] :: lines => records lines
  | (name :: cast) :: lines => (name, cast) :: records lines

/-- The pairs (cast name, movie name) in the order in which `build_hash_tables` meets them. -/
def occurrences (recs : List (Str × List Str)) : List (Str × Str) :=
  recs.flatMap (fun r => r.2.map (fun a => (a, r.1)))

/-- The records are within the capacity of the buffers of `build_hash_tables`: every cast name
has fewer than `MAX_INPUT` bytes, and so has the movie name of every record with a cast (the
names that are copied into a buffer of `MAX_INPUT` bytes, terminating zero included). -/
def RecordsFit (recs : List (Str × List Str)) : Prop :=
  ∀ r ∈ recs, (∀ c ∈ r.2, c.length < MAX_INPUT) ∧ (r.2 ≠ [] → r.1.length < MAX_INPUT)

/-- The actor a freshly built graph holds for the names with the key of `s`: it is named after
the first occurrence with that key and its filmography lists the movie of every occurrence with
that key. -/
def builtActor (os : List (Str × Str)) (s : Str) (o : Str × Str) : Actor :=
  { name := o.1
    movies := (os.filter (fun o1 => decide (hashKey o1.1 = hashKey s))).map Prod.snd
    is_visited := 0
    parent_movie_name := []
    parent := none }

/-- What the actor table and the actor heap hold after the occurrences `os` were processed. -/
def ActorsSpec (os : List (Str × Str)) (tbl : List HashTable) (heap : List Actor) : Prop :=
  ∀ s : Str,
    match os.find? (fun o => decide (hashKey o.1 = hashKey s)) with
    | none => search tbl (hash s) = .ok none
    | some o => ∃ i, search tbl (hash s) = .ok (some { key := hashKey s, value := i }) ∧
        heap[i]? = some (builtActor os s o)

/-- What the movie table and the movie heap hold after the records `recs` were processed, `rev`
being the records from the newest to the oldest. -/
def MoviesSpec (rev : List (Str × List Str)) (tbl : List HashTable) (heap : List Movie) : Prop :=
  ∀ s : Str,
    match rev.find? (fun r => decide (hashKey r.1 = hashKey s)) with
    | none => search tbl (hash s) = .ok none
    | some r => ∃ i, search tbl (hash s) = .ok (some { key := hashKey s, value := i }) ∧
        heap[i]? = some { name := r.1, actors := r.2, is_visited := 0 }

/-- The state of a graph built from the records `recs` with tables of `m` cells. -/
structure Built (m : Nat) (recs : List (Str × List Str)) (g : Graph) : Prop where
  movies_ok : TableOk g.movies
  movies_len : g.movies.length = m
  actors_ok : TableOk g.actors
  actors_len : g.actors.length = m
  actors_spec : ActorsSpec (occurrences recs) g.actors g.actorHeap
  movies_spec : MoviesSpec recs.reverse g.movies g.movieHeap

/-- Two names co-star: some record has both of them in its cast. -/
def Costar (recs : List (Str × List Str)) (a b : Str) : Prop :=
  ∃ r ∈ recs, a ∈ r.2 ∧ b ∈ r.2

/-- `Chain recs a b n`: `b` is reached from `a` by a chain of `n` co-starring edges. -/
inductive Chain (recs : List (Str × List Str)) (a : Str) : Str → Nat → Prop where
  | refl : Chain recs a a 0
  | step {b c : Str} {n : Nat} : Chain recs a b n → Costar recs b c → Chain recs a c (n + 1)

/-- `IsDist recs a b n`: the minimum number of co-starring edges over all chains from `a` to `b`
is `n`. -/
def IsDist (recs : List (Str × List Str)) (a b : Str) (n : Nat) : Prop :=
  Chain recs a b n ∧ ∀ k, Chain recs a b k → n ≤ k

/-- `TracePath recs x out z`: the printed lines `out` are hops `(x, x₁, m₀), (x₁, x₂, m₁), …`
that lead from `x` to `z`, and the two actors of every hop are in the cast of the record named
by the hop's movie. -/
inductive TracePath (recs : List (Str × List Str)) : Str → List Line → Str → Prop where
  | nil (x : Str) : TracePath recs x [] x
  | cons {x y z M : Str} {cast : List Str} {out : List Line} :
      (M, cast) ∈ recs → x ∈ cast → y ∈ cast → TracePath recs y out z →
      TracePath recs x (Line.hop x y M :: out) z

/-- The cast of the first record named `M`. -/
def castOf (recs : List (Str × List Str)) (M : Str) : List Str :=
  match recs.find? (fun r => decide (r.1 = M)) with
  | some r => r.2
  | none => []

/-- The movie names of the occurrences of the name `a`, in record order. -/
def filmo (recs : List (Str × List Str)) (a : Str) : List Str :=
  ((occurrences recs).filter (fun o => decide (o.1 = a))).map Prod.snd

/-- The traversal state of `find_distance` by names: the visited movies, the parent and parent
movie of the discovered actors, and the queued names. -/
structure Search where
  vis : Str → Bool
  par : Str → Option (Str × Str)
  queue : List Str

/-- The effect of `castScan` on the traversal state, for the movie `M` expanded from `v`. -/
def aCast (start v M : Str) : List Str → Search → Search
  | [], σ => σ
  | t :: rest, σ =>
      if t = start then aCast start v M rest σ
      else
        aCast start v M rest
          { vis := σ.vis
            par := if σ.par t = none then Function.update σ.par t (some (v, M)) else σ.par
            queue := σ.queue ++ [t] }

/-- The effect of `movieScan` on the traversal state, for the actor `v` being expanded. -/
def aMovies (recs : List (Str × List Str)) (start v : Str) : List Str → Search → Search
  | [], σ => σ
  | M :: rest, σ =>
      if σ.vis M = true then aMovies recs start v rest σ
      else
        aMovies recs start v rest
          (aCast start v M (castOf recs M)
            { vis := Function.update σ.vis M true, par := σ.par, queue := σ.queue })

/-- The name `t` was discovered: it is the source or has a parent. -/
def Disc (start : Str) (σ : Search) (t : Str) : Prop := t = start ∨ σ.par t ≠ none

/-- The name `a` needs no expansion any more: it was discovered and all its movies are
visited. -/
def Proc (recs : List (Str × List Str)) (start : Str) (σ : Search) (a : Str) : Prop :=
  Disc start σ a ∧ ∀ M ∈ filmo recs a, σ.vis M = true

/-- The number of cast slots of the records whose movie is not visited yet. -/
def unvisitedSize (recs : List (Str × List Str)) (σ : Search) : Nat :=
  ((recs.filter (fun r => !σ.vis r.1)).map (fun r => r.2.length)).sum

/-- The invariant of the search loop: `d` is the level being expanded, `A` the part of the queue
enqueued while the previous level was expanded, `B` the part enqueued since. -/
structure Inv (recs : List (Str × List Str)) (start end_ : Str) (σ : Search) (d : Nat)
    (A B : List Str) : Prop where
  par_start : σ.par start = none
  queue_eq : σ.queue = A ++ B
  par_ok : ∀ t p M, σ.par t = some (p, M) → Disc start σ p ∧
    (∃ cast, (M, cast) ∈ recs ∧ t ∈ cast ∧ p ∈ cast) ∧
    ∃ n, IsDist recs start p n ∧ IsDist recs start t (n + 1)
  vis_ok : ∀ M cast, σ.vis M = true → (M, cast) ∈ recs → ∀ t ∈ cast, Disc start σ t
  todo : ∀ u, Disc start σ u → ¬ Proc recs start σ u →
    (IsDist recs start u d ∧ u ∈ A) ∨ (IsDist recs start u (d + 1) ∧ u ∈ B)
  inA : ∀ u ∈ A, Disc start σ u ∧ (Proc recs start σ u ∨ IsDist recs start u d)
  inB : ∀ u ∈ B, Disc start σ u
  done : ∀ a n, IsDist recs start a n → n < d → Proc recs start σ a
  end_queued : Disc start σ end_ → end_ ∈ σ.queue

/-- The name `a` occurs in the cast of a record. -/
def Present (recs : List (Str × List Str)) (a : Str) : Prop := ∃ r ∈ recs, a ∈ r.2

/-- The heap object a table holds for a name (0 when the search finds nothing). -/
def ptrOf (tbl : List HashTable) (s : Str) : Nat :=
  match search tbl (hash s) with
  | .ok (some e) => e.value
  | _ => 0

/-- The `Actor` object of the name `a` when the traversal from `start` is in state `σ`. -/
def actorCell (recs : List (Str × List Str)) (tbl : List HashTable) (start : Str) (σ : Search)
    (a : Str) : Actor :=
  { name := a
    movies := filmo recs a
    is_visited := if a = start then 1 else 0
    parent_movie_name :=
      match σ.par a with
      | some pm => pm.2
      | none => []
    parent :=
      match σ.par a with
      | some pm => some (ptrOf tbl pm.1)
      | none => none }

/-- The `Movie` object of the record `r` when the traversal is in state `σ`. -/
def movieCell (σ : Search) (r : Str × List Str) : Movie :=
  { name := r.1, actors := r.2, is_visited := if σ.vis r.1 = true then 1 else 0 }

/-- The memory `g` and the queue `q` represent the traversal state `σ` of a search from `start`
over the records `recs`. -/
structure Rel (recs : List (Str × List Str)) (start : Str) (g : Graph) (q : Queue) (σ : Search) :
    Prop where
  actor_found : ∀ a, Present recs a →
    search g.actors (hash a) = .ok (some { key := hashKey a, value := ptrOf g.actors a })
  actor_cell : ∀ a, Present recs a →
    g.actorHeap[ptrOf g.actors a]? = some (actorCell recs g.actors start σ a)
  actor_inj : ∀ a b, Present recs a → Present recs b →
    ptrOf g.actors a = ptrOf g.actors b → a = b
  movie_found : ∀ r ∈ recs,
    search g.movies (hash r.1) = .ok (some { key := hashKey r.1, value := ptrOf g.movies r.1 })
  movie_cell : ∀ r ∈ recs, g.movieHeap[ptrOf g.movies r.1]? = some (movieCell σ r)
  movie_inj : ∀ r1 ∈ recs, ∀ r2 ∈ recs, ptrOf g.movies r1.1 = ptrOf g.movies r2.1 → r1.1 = r2.1
  queue_front : q.front.map QueueNode.value = σ.queue
  queue_rear : q.rear = none ↔ q.front = []

/-- What a completed run of `find_distance` must have produced: the distance with a trace of
that many hops from `end_` back to `start` when a chain exists, and -1 when none does. -/
def Outcome (recs : List (Str × List Str)) (start end_ : Str) (res : Int) (out : List Line) :
    Prop :=
  (∃ n : Nat, res = (n : Int) ∧ IsDist recs start end_ n ∧ TracePath recs end_ out start ∧
      out.length = n) ∨
    (res = -1 ∧ out = [] ∧ ∀ n, ¬ Chain recs start end_ n)

/-- The budget that lets the search loop run to its end: one more than the number of cast
slots of the records. -/
def loopBudget (recs : List (Str × List Str)) : Nat :=
  1 + ((recs.map (fun r => r.2.length)).sum)

/-- No two distinct cast names of the records have the same hash key. -/
def ActorKeysDistinct (recs : List (Str × List Str)) : Prop :=
  ∀ a b, Present recs a → Present recs b → hashKey a = hashKey b → a = b

/-- No two distinct movie names of the records have the same hash key. -/
def MovieKeysDistinct (recs : List (Str × List Str)) : Prop :=
  ∀ r1 ∈ recs, ∀ r2 ∈ recs, hashKey r1.1 = hashKey r2.1 → r1.1 = r2.1

/-- Records in which `A` plays alone: `M1/A` and `M2/B/C`. -/
def isolatedLines : List (List Str) :=
  [[cstr "M1", cstr "A"], [cstr "M2", cstr "B", cstr "C"]]

/-- One record, `M1/ab/Y`; the name `Bc` is in no cast and has the hash of `ab`. -/
def collisionLines : List (List Str) :=
  [[cstr "M1", cstr "ab", cstr "Y"]]

/-- Two records with the cast names `ab` and `Bc`, which have the same hash: `M1/ab/X` and
`M2/Bc/Y`. -/
def sameKeyLines : List (List Str) :=
  [[cstr "M1", cstr "ab", cstr "X"], [cstr "M2", cstr "Bc", cstr "Y"]]

/-- Two records with the same movie name: `M/A/B` and `M/B/C`. -/
def sameMovieLines : List (List Str) :=
  [[cstr "M", cstr "A", cstr "B"], [cstr "M", cstr "B", cstr "C"]]

/-- A `long` key whose absolute value is representable: `-key` does not overflow. -/
def AbsRepresentable (key : Int) : Prop := -2 ^ 63 < key ∧ key < 2 ^ 63

/-- A sequence of calls of `insert`, one per (key, value) pair, in order. -/
def insertAll : List (Int × Nat) → List HashTable → Res (List HashTable)
  | [], ht => .ok ht
  | (key, value) :: rest, ht =>
      match insert ht key value with
      | .ok ht1 => insertAll rest ht1
      | .fault => .fault
      | .timeout => .timeout

/-- All entries of a table: the chains of its cells, one after the other. -/
def allEntries (ht : List HashTable) : List MapEntry := ht.flatMap (fun cell => cell.head)

/-- The names of a list that are the first of the list with their key, in the order of the
list. -/
def keyFirsts (l : List Str) : List Str :=
  l.foldl (fun acc a =>
    if acc.any (fun b => decide (hashKey b = hashKey a)) then acc else acc ++ [a]) []

/-- The index entries of entities created one after the other with the names `names`: the
entity created as number `i` is stored at address `i` under the key of its name. -/
def entriesOf (names : List Str) : List MapEntry :=
  names.enum.map (fun p => { key := hashKey p.2, value := p.1 })

/-- The entities a graph built from the records `recs` holds: one movie per record, one actor
per key of a cast name, and one index entry per entity. -/
structure Census (recs : List (Str × List Str)) (g : Graph) : Prop where
  movie_heap : g.movieHeap =
    recs.map (fun r => ({ name := r.1, actors := r.2, is_visited := 0 } : Movie))
  movie_entries : (allEntries g.movies).Perm (entriesOf (recs.map Prod.fst))
  actor_names : g.actorHeap.map Actor.name = keyFirsts ((occurrences recs).map Prod.fst)
  actor_entries : (allEntries g.actors).Perm (entriesOf (g.actorHeap.map Actor.name))

/-- `Evolves g g1`: the memory `g1` comes from `g` by the writes of `find_distance`: the tables,
the names, the casts and the filmographies are unchanged, a visited flag that is set stays set,
and the parent link and parent movie of an actor that is visited or has a parent are unchanged. -/
structure Evolves (g g1 : Graph) : Prop where
  movies_eq : g1.movies = g.movies
  actors_eq : g1.actors = g.actors
  movie_cell : ∀ (j : Nat) (mv : Movie), g.movieHeap[j]? = some mv →
    ∃ mv1, g1.movieHeap[j]? = some mv1 ∧ mv1.name = mv.name ∧ mv1.actors = mv.actors ∧
      (mv.is_visited ≠ 0 → mv1.is_visited ≠ 0)
  actor_cell : ∀ (i : Nat) (a : Actor), g.actorHeap[i]? = some a →
    ∃ a1, g1.actorHeap[i]? = some a1 ∧ a1.name = a.name ∧ a1.movies = a.movies ∧
      (a.is_visited ≠ 0 → a1.is_visited ≠ 0) ∧
      ((a.is_visited ≠ 0 ∨ a.parent ≠ none) →
        a1.parent = a.parent ∧ a1.parent_movie_name = a.parent_movie_name)

/-- The movie of the name `M` is marked visited in `g`. -/
def MovieVisited (g : Graph) (M : Str) : Prop :=
  ∃ e mv, search g.movies (hash M) = .ok (some e) ∧ g.movieHeap[e.value]? = some mv ∧
    mv.is_visited ≠ 0

/-- The memory with which `find_distance("A", …)` enters its search loop on `chainGraph`: the
actor `A`, at address 0, is marked visited. -/
def chainStart : Graph :=
  { chainGraph with
    actorHeap := chainGraph.actorHeap.set 0
      { name := cstr "A", movies := [cstr "M1"], is_visited := 1, parent_movie_name := [],
        parent := none } }

/-- The actor at address `i` is marked visited or has a parent link. -/
def Seen (g : Graph) (i : Nat) : Prop :=
  ∃ a, g.actorHeap[i]? = some a ∧ (a.is_visited ≠ 0 ∨ a.parent ≠ none)

/-- The movie name `M` is found in the movie index, at a valid address, and every name of the
cast of that movie is found in the actor index. -/
def MovieOk (g : Graph) (M : Str) : Prop :=
  ∃ e mv, search g.movies (hash M) = .ok (some e) ∧ g.movieHeap[e.value]? = some mv ∧
    ∀ c ∈ mv.actors, ∃ e3, search g.actors (hash c) = .ok (some e3)

/-- The state of a memory that `find_distance` relies on and keeps: every entry of the actor
index leads to an actor that is found again under its own name and whose movies are found;
every parent link leads to an actor that is marked visited or has a parent itself; and the
parent links form no cycle: some rank decreases along every link. -/
structure Sound (g : Graph) : Prop where
  actors_ok : TableOk g.actors
  lookup : ∀ (s : Str) (e : MapEntry), search g.actors (hash s) = .ok (some e) →
    ∃ a, g.actorHeap[e.value]? = some a ∧ search g.actors (hash a.name) = .ok (some e) ∧
      ∀ M ∈ a.movies, MovieOk g M
  parent_seen : ∀ (i : Nat) (a : Actor) (p : Nat), g.actorHeap[i]? = some a →
    a.parent = some p → Seen g p
  ranked : ∃ rank : Nat → Nat, ∀ (i : Nat) (a : Actor) (p : Nat), g.actorHeap[i]? = some a →
    a.parent = some p → rank p < rank i

/-- Every queued name is found in the actor index and its actor is marked visited or has a
parent link. -/
def QueueOk (g : Graph) (q : Queue) : Prop :=
  ∀ node ∈ q.front, ∃ e, search g.actors (hash node.value) = .ok (some e) ∧ Seen g e.value

/-- The number of cast entries of the movies that are not marked visited. -/
def pendingCasts (heap : List Movie) : Nat :=
  ((heap.filter (fun mv => decide (mv.is_visited = 0))).map (fun mv => mv.actors.length)).sum

/-- The memories reached from the graph built from `lines`, with tables of `m` cells, by any
finite number of calls of `find_distance` that returned. -/
inductive Reachable (m : Nat) (lines : List (List Str)) : Graph → Prop where
  | built {g : Graph} : freshGraph m lines = .ok g → Reachable m lines g
  | call {g g1 : Graph} {fuel : Nat} {a b : Str} {r : Int} {out : List Line} :
      Reachable m lines g → find_distance fuel a b g = .ok (r, out, g1) → Reachable m lines g1

/-- One operation of a client of the queue: `enqueue(q, value)` or `dequeue(q)`. -/
inductive QueueOp where
  | enq (value : Str)
  | deq
deriving DecidableEq, Repr

/-- A sequence of calls of `enqueue` and `dequeue` on a queue: the pointers that the `dequeue`
calls return (`none` is `NULL`), in order, and the queue afterwards. -/
def runQueue : List QueueOp → Queue → List (Option QueueNode) × Queue
  | [], q => ([], q)
  | QueueOp.enq value :: ops, q => runQueue ops (enqueue q value)
  | QueueOp.deq :: ops, q =>
      ((dequeue q).1 :: (runQueue ops (dequeue q).2).1, (runQueue ops (dequeue q).2).2)

/-- The FIFO of the specification, on the list of the values not yet dequeued (oldest first):
an enqueue appends to the tail, a dequeue removes and returns the head, or returns the empty
sentinel when nothing is pending. -/
def fifoRun : List QueueOp → List Str → List (Option Str) × List Str
  | [], pending => ([], pending)
  | QueueOp.enq value :: ops, pending => fifoRun ops (pending ++ [value])
  | QueueOp.deq :: ops, [] => (none :: (fifoRun ops []).1, (fifoRun ops []).2)
  | QueueOp.deq :: ops, value :: pending =>
      (some value :: (fifoRun ops pending).1, (fifoRun ops pending).2)

/-- The values enqueued by a sequence of operations, in order. -/
def enqueuedValues : List QueueOp → List Str
  | [] => []
  | QueueOp.enq value :: ops => value :: enqueuedValues ops
  | QueueOp.deq :: ops => enqueuedValues ops

/-- The queue `q` holds the nodes of the pending values, oldest at the front, and `rear` is
the node of the newest one (`NULL` when nothing is pending). -/
def QueueRep (q : Queue) (pending : List Str) : Prop :=
  q.front = pending.map QueueNode.mk ∧ q.rear = pending.getLast?.map QueueNode.mk

/-- `DiscoveredFrom g i cu M`: the actor at address `i` is a cast member of a movie named `M`
that is marked visited and is listed in the filmography of the actor at address `cu`: the
actor at `i` was met while the movie `M` was scanned in the expansion of the actor at `cu`. -/
def DiscoveredFrom (g : Graph) (i cu : Nat) (M : Str) : Prop :=
  ∃ ca M1 e2 mv c e, g.actorHeap[cu]? = some ca ∧ M1 ∈ ca.movies ∧
    search g.movies (hash M1) = .ok (some e2) ∧ g.movieHeap[e2.value]? = some mv ∧
    mv.name = M ∧ mv.is_visited ≠ 0 ∧ c ∈ mv.actors ∧
    search g.actors (hash c) = .ok (some e) ∧ e.value = i

/-- `Linked g0 g`: every actor of `g` has the visited flag it has in `g0`, and either the
parent link and parent movie it has in `g0`, or it was unvisited and without parent in `g0`
and its parent link and parent movie are those of a discovery. -/
def Linked (g0 g : Graph) : Prop :=
  ∀ (i : Nat) (x : Actor), g.actorHeap[i]? = some x →
    ∃ x0, g0.actorHeap[i]? = some x0 ∧ x.is_visited = x0.is_visited ∧
      ((x.parent = x0.parent ∧ x.parent_movie_name = x0.parent_movie_name) ∨
       (x0.is_visited = 0 ∧ x0.parent = none ∧
        ∃ cu, x.parent = some cu ∧ DiscoveredFrom g i cu x.parent_movie_name))

/-! # Properties -/

/-! ## Arithmetic of `hash` -/

theorem wrapLong_id {x : Int} (h1 : -2 ^ 63 ≤ x) (h2 : x < 2 ^ 63) : wrapLong x = x := by
  unfold wrapLong
  omega

theorem tmod_abs_lt (x : Int) :
    -10000000009 < x.tmod 10000000009 ∧ x.tmod 10000000009 < 10000000009 := by
  refine ⟨?_, Int.tmod_lt_of_pos x (by norm_num)⟩
  rcases le_or_lt 0 x with h | h
  · have := Int.tmod_nonneg 10000000009 h
    omega
  · have h1 : x.tmod 10000000009 = -((-x).tmod 10000000009) := by
      rw [Int.tmod_def, Int.tmod_def, Int.neg_tdiv]
      ring
    have h2 := Int.tmod_lt_of_pos (-x) (show (0 : Int) < 10000000009 by norm_num)
    omega

theorem hashLoop_abs_lt (s : Str) : ∀ (hv pp : Int), -10000000009 < hv → hv < 10000000009 →
    -10000000009 < hashLoop s hv pp ∧ hashLoop s hv pp < 10000000009 := by
  induction s with
  | nil => intro hv pp h1 h2; exact ⟨h1, h2⟩
  | cons c rest ih =>
      intro hv pp _ _
      simp only [hashLoop]
      exact ih _ _ (tmod_abs_lt _).1 (tmod_abs_lt _).2

theorem hash_abs_lt (s : Str) : -10000000009 < hash s ∧ hash s < 10000000009 :=
  hashLoop_abs_lt s 0 1 (by norm_num) (by norm_num)

theorem absKey_hash (s : Str) : absKey (hash s) = |hash s| := by
  have h := hash_abs_lt s
  unfold absKey
  split
  · rw [wrapLong_id (by omega) (by omega), abs_of_neg (by assumption)]
  · rw [abs_of_nonneg (by omega)]

theorem absKey_hash_nonneg (s : Str) : 0 ≤ absKey (hash s) := by
  rw [absKey_hash]; exact abs_nonneg _

theorem polySum_cons (c : Nat) (rest : Str) :
    (∑ i ∈ Finset.range (c :: rest).length, (((c :: rest).getD i 0 : Nat) : Int) * 31 ^ i) =
      (c : Int) + 31 * ∑ i ∈ Finset.range rest.length, ((rest.getD i 0 : Nat) : Int) * 31 ^ i := by
  rw [List.length_cons, Finset.sum_range_succ', Finset.mul_sum]
  simp only [List.getD_cons_succ, List.getD_cons_zero, pow_zero, mul_one]
  rw [add_comm]
  congr 1
  apply Finset.sum_congr rfl
  intro i _
  ring

theorem hashLoop_spec (s : Str) : ∀ (hv pp : Int), (∀ c ∈ s, 1 ≤ c ∧ c ≤ 127) →
    0 ≤ hv → hv < 10000000009 → 0 ≤ pp → pp < 10000000009 →
    hashLoop s hv pp =
        (hv + pp * ∑ i ∈ Finset.range s.length, ((s.getD i 0 : Nat) : Int) * 31 ^ i) % 10000000009 ∧
      ∀ x ∈ hashValues s hv pp, -2 ^ 63 ≤ x ∧ x < 2 ^ 63 := by
  induction s with
  | nil =>
      intro hv pp _ h1 h2 _ _
      simp only [hashLoop, hashValues, List.length_nil, Finset.range_zero, Finset.sum_empty,
        mul_zero, add_zero, List.not_mem_nil, false_implies, implies_true, and_true]
      rw [Int.emod_eq_of_lt h1 h2]
  | cons c rest ih =>
      intro hv pp hs h1 h2 h3 h4
      have hc := hs c (List.mem_cons_self _ _)
      have hcc : charCode c = (c : Int) := by
        unfold charCode
        rw [if_pos (by omega)]
      have hp0 : 0 ≤ (c : Int) * pp := mul_nonneg (by omega) h3
      have hp1 : (c : Int) * pp ≤ 127 * pp :=
        mul_le_mul_of_nonneg_right (by omega) h3
      have hw1 : wrapLong ((c : Int) * pp) = (c : Int) * pp :=
        wrapLong_id (by omega) (by omega)
      have hw2 : wrapLong (hv + (c : Int) * pp) = hv + (c : Int) * pp :=
        wrapLong_id (by omega) (by omega)
      have hw3 : wrapLong (pp * 31) = pp * 31 := wrapLong_id (by omega) (by omega)
      have ht1 : (hv + (c : Int) * pp).tmod 10000000009 = (hv + (c : Int) * pp) % 10000000009 :=
        Int.tmod_eq_emod (by omega) (by norm_num)
      have ht2 : (pp * 31).tmod 10000000009 = (pp * 31) % 10000000009 :=
        Int.tmod_eq_emod (by omega) (by norm_num)
      have hrest : ∀ c' ∈ rest, 1 ≤ c' ∧ c' ≤ 127 := fun c' h => hs c' (List.mem_cons_of_mem _ h)
      have hm : (0 : Int) < 10000000009 := by norm_num
      obtain ⟨e1, e2⟩ := ih ((hv + (c : Int) * pp) % 10000000009) ((pp * 31) % 10000000009) hrest
        (Int.emod_nonneg _ (by omega)) (Int.emod_lt_of_pos _ hm)
        (Int.emod_nonneg _ (by omega)) (Int.emod_lt_of_pos _ hm)
      simp only [hashLoop, hashValues, hcc, hw1, hw2, hw3, ht1, ht2]
      constructor
      · rw [e1, polySum_cons]
        rw [Int.add_emod, Int.emod_emod, Int.mul_emod, Int.emod_emod, ← Int.mul_emod,
          ← Int.add_emod]
        congr 1
        ring
      · intro x hx
        simp only [List.cons_append, List.nil_append, List.mem_cons] at hx
        rcases hx with rfl | rfl | rfl | hx
        · constructor <;> omega
        · constructor <;> omega
        · constructor <;> omega
        · exact e2 x hx

/-! ## Table lookups -/

theorem cellAt_ok {ht : List HashTable} (h : TableOk ht) {key : Int} (hk : 0 ≤ key) :
    ∃ cell, ht[(key % (ht.length : Int)).toNat]? = some cell ∧
      cellAt ht key = .ok (key % (ht.length : Int), cell) := by
  obtain ⟨hlen, hsz⟩ := h
  have hpos : (0 : Int) < (ht.length : Int) := by exact_mod_cast hlen
  obtain ⟨h0, e0⟩ : ∃ h0, ht[0]? = some h0 := ⟨ht[0], List.getElem?_eq_getElem hlen⟩
  have hmem : h0 ∈ ht := by
    obtain ⟨hl, rfl⟩ := List.getElem?_eq_some.1 e0
    exact List.getElem_mem hl
  have hts : h0.table_size = (ht.length : Int) := hsz h0 hmem
  have hi0 : 0 ≤ key % (ht.length : Int) := Int.emod_nonneg _ (by omega)
  have hi1 : key % (ht.length : Int) < (ht.length : Int) := Int.emod_lt_of_pos _ hpos
  have hlt : (key % (ht.length : Int)).toNat < ht.length := by omega
  refine ⟨ht[(key % (ht.length : Int)).toNat], List.getElem?_eq_getElem hlt, ?_⟩
  unfold cellAt
  rw [e0]
  simp only [hts]
  rw [if_neg (by omega), Int.tmod_eq_emod hk (by omega), if_neg (by omega),
    List.getElem?_eq_getElem hlt]

theorem search_total {ht : List HashTable} (h : TableOk ht) (s : Str) :
    ∃ r, search ht (hash s) = .ok r := by
  obtain ⟨cell, _, e⟩ := cellAt_ok h (absKey_hash_nonneg s)
  refine ⟨cell.head.find? (fun curr => decide (curr.key = absKey (hash s))), ?_⟩
  simp only [search, e]

/-! ## The presence check of `find_distance` -/

theorem find_distance_of_start_none {g : Graph} {start : Str} (end_ : Str) (fuel : Nat)
    (h : search g.actors (hash start) = .ok none) :
    find_distance fuel start end_ g = .ok (-1, [Line.notFound], g) := by
  simp only [find_distance, h]

theorem find_distance_of_end_none {g : Graph} {start end_ : Str} (fuel : Nat) {e : MapEntry}
    (h1 : search g.actors (hash start) = .ok (some e))
    (h2 : search g.actors (hash end_) = .ok none) :
    find_distance fuel start end_ g = .ok (-1, [Line.notFound], g) := by
  simp only [find_distance, h1, h2]

theorem find_distance_of_absent {g : Graph} {start end_ : Str} (fuel : Nat)
    (hok : TableOk g.actors)
    (h : search g.actors (hash start) = .ok none ∨ search g.actors (hash end_) = .ok none) :
    find_distance fuel start end_ g = .ok (-1, [Line.notFound], g) := by
  obtain ⟨r, hr⟩ := search_total hok start
  cases r with
  | none => exact find_distance_of_start_none end_ fuel hr
  | some e =>
      rcases h with h | h
      · rw [hr] at h; cases h
      · exact find_distance_of_end_none fuel hr h

/-! ## More budget does not change a result -/

theorem backtrack_mono (g : Graph) : ∀ (fuel fuel' : Nat) (c n : Option Nat) (num : Int)
    (out : List Line), fuel ≤ fuel' → backtrack g fuel c n num out ≠ .timeout →
    backtrack g fuel' c n num out = backtrack g fuel c n num out := by
  intro fuel
  induction fuel with
  | zero =>
      intro fuel' c n num out _ h
      cases c with
      | none => simp only [backtrack]
      | some c => exact absurd (by simp only [backtrack]) h
  | succ k ih =>
      intro fuel' c n num out hle h
      cases c with
      | none => simp only [backtrack]
      | some c =>
          obtain ⟨k', rfl⟩ : ∃ k', fuel' = k' + 1 := ⟨fuel' - 1, by omega⟩
          have hk : k ≤ k' := by omega
          simp only [backtrack] at h ⊢
          cases hd : deref g.actorHeap c with
          | fault => rfl
          | timeout => rfl
          | ok ca =>
              rw [hd] at h
              cases n with
              | none => exact ih _ _ _ _ _ hk h
              | some n =>
                  simp only at h ⊢
                  cases hn : deref g.actorHeap n with
                  | fault => rfl
                  | timeout => rfl
                  | ok na =>
                      rw [hn] at h
                      exact ih _ _ _ _ _ hk h

theorem foundEnd_mono {walk walk' : Nat} (v : Str) (g : Graph) (hle : walk ≤ walk')
    (h : foundEnd walk v g ≠ .timeout) : foundEnd walk' v g = foundEnd walk v g := by
  unfold foundEnd at h ⊢
  cases hs : search g.actors (hash v) with
  | fault => rfl
  | timeout => rfl
  | ok r =>
      cases r with
      | none => rfl
      | some e =>
          rw [hs] at h
          simp only at h ⊢
          cases hd : deref g.actorHeap e.value with
          | fault => rfl
          | timeout => rfl
          | ok ca =>
              rw [hd] at h
              simp only at h ⊢
              have : backtrack g walk (some e.value) ca.parent 0 [] ≠ .timeout := by
                intro hc
                rw [hc] at h
                exact h rfl
              rw [backtrack_mono g walk walk' _ _ _ _ hle this]

theorem bfsLoop_mono (end_ : Str) {walk walk' : Nat} (hw : walk ≤ walk') :
    ∀ (fuel fuel' : Nat) (g : Graph) (q : Queue), fuel ≤ fuel' →
    bfsLoop end_ walk fuel g q ≠ .timeout →
    bfsLoop end_ walk' fuel' g q = bfsLoop end_ walk fuel g q := by
  intro fuel
  induction fuel with
  | zero =>
      intro fuel' g q _ h
      by_cases hq : q.front = []
      · cases fuel' <;> simp only [bfsLoop, hq, if_true]
      · exact absurd (by simp only [bfsLoop, hq, if_false]) h
  | succ k ih =>
      intro fuel' g q hle h
      obtain ⟨k', rfl⟩ : ∃ k', fuel' = k' + 1 := ⟨fuel' - 1, by omega⟩
      have hk : k ≤ k' := by omega
      by_cases hq : q.front = []
      · simp only [bfsLoop, hq, if_true]
      · simp only [bfsLoop, hq, if_false] at h ⊢
        rcases hdq : dequeue q with ⟨_ | node, q1⟩
        · rfl
        · rw [hdq] at h
          simp only at h ⊢
          by_cases hv : node.value = end_
          · simp only [hv, if_true] at h ⊢
            exact foundEnd_mono _ _ hw h
          · simp only [hv, if_false] at h ⊢
            cases hs : search g.actors (hash node.value) with
            | fault => rfl
            | timeout => rfl
            | ok r =>
                cases r with
                | none => rfl
                | some e =>
                    rw [hs] at h
                    simp only at h ⊢
                    cases hd : deref g.actorHeap e.value with
                    | fault => rfl
                    | timeout => rfl
                    | ok ca =>
                        rw [hd] at h
                        simp only at h ⊢
                        cases hm : movieScan e.value ca.movies g q1 with
                        | fault => rfl
                        | timeout => rfl
                        | ok r1 =>
                            rw [hm] at h
                            exact ih _ _ _ hk h

theorem find_distance_mono {fuel fuel' : Nat} (start end_ : Str) (g : Graph) (hle : fuel ≤ fuel')
    (h : find_distance fuel start end_ g ≠ .timeout) :
    find_distance fuel' start end_ g = find_distance fuel start end_ g := by
  unfold find_distance at h ⊢
  cases hs : search g.actors (hash start) with
  | fault => rfl
  | timeout => rfl
  | ok r =>
      cases r with
      | none => rfl
      | some e =>
          rw [hs] at h
          simp only at h ⊢
          cases he : search g.actors (hash end_) with
          | fault => rfl
          | timeout => rfl
          | ok r2 =>
              cases r2 with
              | none => rfl
              | some e2 =>
                  rw [he] at h
                  simp only at h ⊢
                  cases hd : deref g.actorHeap e.value with
                  | fault => rfl
                  | timeout => rfl
                  | ok s =>
                      rw [hd] at h
                      exact bfsLoop_mono end_ hle _ _ _ _ hle h

/-! ## Concrete scenarios -/

theorem answer_eq_some {r : Res (Int × List Line × Graph)} {n : Int} {out : List Line}
    (h : answer r = some (n, out)) : ∃ g, r = .ok (n, out, g) := by
  cases r with
  | fault => cases h
  | timeout => cases h
  | ok v =>
      obtain ⟨n1, out1, g⟩ := v
      simp only [answer, Option.some.injEq, Prod.mk.injEq] at h
      exact ⟨g, by rw [h.1, h.2]⟩

theorem freshGraph_chainLines : freshGraph 2 chainLines = .ok chainGraph := by decide!

theorem freshGraph_apolloLines : freshGraph 2 apolloLines = .ok apolloGraph := by decide!

/-- C3: when the search of the actor table for `hash(start)` or for `hash(end)` finds no entry,
`find_distance` returns -1 whatever the budget, prints the diagnostic message and no trace line,
and returns the memory it was given: no visited flag, parent or parent movie name is written. -/
theorem find_distance_notFound_atomic (g : Graph) (start end_ : Str) (fuel : Nat)
    (hok : TableOk g.actors)
    (h : search g.actors (hash start) = .ok none ∨ search g.actors (hash end_) = .ok none) :
    ∃ out, find_distance fuel start end_ g = .ok (-1, out, g) ∧
      ∀ a b m, Line.hop a b m ∉ out := by
  refine ⟨[Line.notFound], find_distance_of_absent fuel hok h, ?_⟩
  intro a b m hm
  simp only [List.mem_singleton] at hm
  cases hm

theorem find_distance_notFound_atomic_witness :
    TableOk chainGraph.actors ∧
      search chainGraph.actors (hash (cstr "A")) = .ok (some { key := 65, value := 0 }) ∧
      search chainGraph.actors (hash (cstr "Z")) = .ok none ∧
      ∃ out, find_distance 7 (cstr "A") (cstr "Z") chainGraph = .ok (-1, out, chainGraph) ∧
        ∀ a b m, Line.hop a b m ∉ out :=
  have hok : TableOk chainGraph.actors := ⟨by decide!, by decide!⟩
  ⟨hok, by decide!, by decide!,
    find_distance_notFound_atomic chainGraph (cstr "A") (cstr "Z") 7 hok (Or.inr (by decide!))⟩

/-- C7 as stated fails: on the graph built with table size 2 from `Apollo 13/Tom Hanks/Kevin Bacon`
and `Forrest Gump/Tom Hanks`, no budget makes `find_bacon_number("Tom Hanks")` return 1. -/
theorem apollo_bacon_number_not_one :
    ¬ ∃ (fuel : Nat) (g : Graph) (out : List Line) (g1 : Graph),
      freshGraph 2 apolloLines = .ok g ∧
        find_bacon_number fuel (cstr "Tom Hanks") g = .ok (1, out, g1) := by
  rintro ⟨fuel, g, out, g1, hg, hr⟩
  rw [freshGraph_apolloLines] at hg
  cases hg
  have h1 : search apolloGraph.actors (hash (cstr "Tom Hanks")) =
      .ok (some { key := 6788912239, value := 0 }) := by decide!
  have h2 : search apolloGraph.actors (hash (cstr "Bacon, Kevin")) = .ok none := by decide!
  have := find_distance_of_end_none fuel h1 h2
  unfold find_bacon_number at hr
  rw [this] at hr
  cases hr

/-- C7 amended: on that graph `find_bacon_number("Tom Hanks")` returns -1 for every budget, with
the not-found message and the memory unchanged, because the fixed target `Bacon, Kevin` is not in
the actor table; the distance from `Tom Hanks` to `Kevin Bacon` is 1. -/
theorem apollo_bacon_number :
    ∃ g, freshGraph 2 apolloLines = .ok g ∧
      (∀ fuel, find_bacon_number fuel (cstr "Tom Hanks") g = .ok (-1, [Line.notFound], g)) ∧
      ∀ fuel, 2 ≤ fuel → ∃ g1, find_distance fuel (cstr "Tom Hanks") (cstr "Kevin Bacon") g =
        .ok (1, [Line.hop (cstr "Kevin Bacon") (cstr "Tom Hanks") (cstr "Apollo 13")], g1) := by
  refine ⟨apolloGraph, freshGraph_apolloLines, ?_, ?_⟩
  · intro fuel
    have h1 : search apolloGraph.actors (hash (cstr "Tom Hanks")) =
        .ok (some { key := 6788912239, value := 0 }) := by decide!
    have h2 : search apolloGraph.actors (hash (cstr "Bacon, Kevin")) = .ok none := by decide!
    exact find_distance_of_end_none fuel h1 h2
  · intro fuel hf
    have h2 : answer (find_distance 2 (cstr "Tom Hanks") (cstr "Kevin Bacon") apolloGraph) =
        some (1, [Line.hop (cstr "Kevin Bacon") (cstr "Tom Hanks") (cstr "Apollo 13")]) := by
      decide!
    obtain ⟨g1, hg1⟩ := answer_eq_some h2
    refine ⟨g1, ?_⟩
    rw [find_distance_mono _ _ _ hf (by rw [hg1]; exact fun h => by cases h), hg1]

/-- C8: on the graph built with table size 2 from `M1/A/B` and `M2/B/C`, `find_distance("A", "C")`
returns 2 for every budget of at least 4, and prints the two hops from `C` back to `A`. -/
theorem chain_distance :
    ∃ g, freshGraph 2 chainLines = .ok g ∧
      ∀ fuel, 4 ≤ fuel → ∃ g1, find_distance fuel (cstr "A") (cstr "C") g =
        .ok (2, [Line.hop (cstr "C") (cstr "B") (cstr "M2"),
                 Line.hop (cstr "B") (cstr "A") (cstr "M1")], g1) := by
  refine ⟨chainGraph, freshGraph_chainLines, ?_⟩
  intro fuel hf
  have h3 : answer (find_distance 4 (cstr "A") (cstr "C") chainGraph) =
      some (2, [Line.hop (cstr "C") (cstr "B") (cstr "M2"),
                Line.hop (cstr "B") (cstr "A") (cstr "M1")]) := by
    decide!
  obtain ⟨g1, hg1⟩ := answer_eq_some h3
  refine ⟨g1, ?_⟩
  rw [find_distance_mono _ _ _ hf (by rw [hg1]; exact fun h => by cases h), hg1]

/-- C9: `find_bacon_number(s)` is `find_distance(s, "Bacon, Kevin")`: same returned value, same
printed lines, same resulting memory, for every memory, name and budget; the target is the
twelve bytes of the literal `Bacon, Kevin`. -/
theorem find_bacon_number_eq_find_distance (fuel : Nat) (s : Str) (g : Graph) :
    find_bacon_number fuel s g = find_distance fuel s (cstr "Bacon, Kevin") g ∧
      cstr "Bacon, Kevin" = [66, 97, 99, 111, 110, 44, 32, 75, 101, 118, 105, 110] :=
  ⟨rfl, by decide!⟩

/-- C10: for a string whose bytes all lie in 1..127, `hash` is the reference polynomial
`(Σ s[i] * 31 ^ i) mod 10000000009`, every product, sum and power the loop computes fits in a
signed 64-bit integer, and the result lies in `[0, 10000000009)`. -/
theorem hash_eq_hashRef (s : Str) (hs : ∀ c ∈ s, 1 ≤ c ∧ c ≤ 127) :
    hash s = hashRef s ∧ (∀ x ∈ hashValues s 0 1, -2 ^ 63 ≤ x ∧ x < 2 ^ 63) ∧
      0 ≤ hash s ∧ hash s < 10000000009 := by
  obtain ⟨e1, e2⟩ := hashLoop_spec s 0 1 hs (by norm_num) (by norm_num) (by norm_num)
    (by norm_num)
  have e : hash s = hashRef s := by
    unfold hash hashRef
    rw [e1]
    simp only [zero_add, one_mul]
  refine ⟨e, e2, ?_, ?_⟩
  · rw [e]
    exact Int.emod_nonneg _ (by norm_num)
  · rw [e]
    exact Int.emod_lt_of_pos _ (by norm_num)

theorem hash_eq_hashRef_witness :
    (∀ c ∈ cstr "Bacon, Kevin", 1 ≤ c ∧ c ≤ 127) ∧
      hash (cstr "Bacon, Kevin") = hashRef (cstr "Bacon, Kevin") ∧
      (∀ x ∈ hashValues (cstr "Bacon, Kevin") 0 1, -2 ^ 63 ≤ x ∧ x < 2 ^ 63) ∧
      0 ≤ hash (cstr "Bacon, Kevin") ∧ hash (cstr "Bacon, Kevin") < 10000000009 :=
  ⟨by decide!, hash_eq_hashRef (cstr "Bacon, Kevin") (by decide!)⟩

/-! ## `insert` and `search` on a well-formed table -/

theorem search_eq {ht : List HashTable} (h : TableOk ht) {key : Int} (hk : 0 ≤ absKey key) :
    ∃ cell, ht[(absKey key % (ht.length : Int)).toNat]? = some cell ∧
      search ht key = .ok (cell.head.find? (fun curr => decide (curr.key = absKey key))) := by
  obtain ⟨cell, e1, e2⟩ := cellAt_ok h hk
  exact ⟨cell, e1, by simp only [search, e2]⟩

theorem insert_eq {ht : List HashTable} (h : TableOk ht) {key : Int} (hk : 0 ≤ absKey key)
    (value : Nat) :
    ∃ cell cnt, ht[(absKey key % (ht.length : Int)).toNat]? = some cell ∧
      insert ht key value = .ok (ht.set (absKey key % (ht.length : Int)).toNat
        { table_size := cell.table_size, count := cnt,
          head := { key := absKey key, value := value } :: cell.head }) := by
  obtain ⟨cell, e1, e2⟩ := cellAt_ok h hk
  by_cases hh : cell.head = []
  · refine ⟨cell, 1, e1, ?_⟩
    simp only [insert, e2, hh, if_true]
  · refine ⟨cell, cell.count + 1, e1, ?_⟩
    simp only [insert, e2, hh, if_false]

theorem TableOk_set {ht : List HashTable} (h : TableOk ht) {i : Nat} {cell : HashTable}
    (hc : cell.table_size = (ht.length : Int)) : TableOk (ht.set i cell) := by
  obtain ⟨h1, h2⟩ := h
  refine ⟨by rw [List.length_set]; exact h1, ?_⟩
  intro c hcm
  rw [List.length_set]
  rcases List.mem_or_eq_of_mem_set hcm with hm | rfl
  · exact h2 c hm
  · exact hc

theorem insert_ok {ht : List HashTable} (h : TableOk ht) {key : Int} (hk : 0 ≤ absKey key)
    (value : Nat) :
    ∃ ht1, insert ht key value = .ok ht1 ∧ TableOk ht1 ∧ ht1.length = ht.length ∧
      ∀ key2, 0 ≤ absKey key2 →
        search ht1 key2 =
          if absKey key2 = absKey key then .ok (some { key := absKey key, value := value })
          else search ht key2 := by
  obtain ⟨cell, cnt, e1, e2⟩ := insert_eq h hk value
  have hcell : cell.table_size = (ht.length : Int) := by
    obtain ⟨hl, rfl⟩ := List.getElem?_eq_some.1 e1
    exact h.2 _ (List.getElem_mem hl)
  have hok1 : TableOk (ht.set (absKey key % (ht.length : Int)).toNat
      { table_size := cell.table_size, count := cnt,
        head := { key := absKey key, value := value } :: cell.head }) :=
    TableOk_set h hcell
  refine ⟨_, e2, hok1, List.length_set _ _ _, ?_⟩
  intro key2 hk2
  obtain ⟨c2, f1, f2⟩ := search_eq hok1 hk2
  obtain ⟨c3, g1, g2⟩ := search_eq h hk2
  rw [f2]
  rw [List.length_set, List.getElem?_set] at f1
  have hlt : (absKey key % (ht.length : Int)).toNat < ht.length :=
    (List.getElem?_eq_some.1 e1).1
  by_cases hkk : absKey key2 = absKey key
  · rw [if_pos hkk]
    rw [hkk, if_pos rfl, if_pos hlt] at f1
    cases f1
    simp only [List.find?_cons, hkk, decide_True]
  · rw [if_neg hkk, g2]
    by_cases hi : (absKey key % (ht.length : Int)).toNat = (absKey key2 % (ht.length : Int)).toNat
    · rw [if_pos hi, if_pos hlt] at f1
      cases f1
      rw [← hi, e1] at g1
      cases g1
      have : decide (absKey key = absKey key2) = false := by
        simp only [decide_eq_false_iff_not]
        exact fun hc => hkk hc.symm
      simp only [List.find?_cons, this]
    · rw [if_neg hi, g1] at f1
      cases f1
      rfl

/-! ## What `build_hash_tables` builds -/

theorem hashKey_nonneg (s : Str) : 0 ≤ hashKey s := absKey_hash_nonneg s

theorem search_congr (ht : List HashTable) {k1 k2 : Int} (h : absKey k1 = absKey k2) :
    search ht k1 = search ht k2 := by
  simp only [search, h]

theorem search_hash_congr (ht : List HashTable) {s t : Str} (h : hashKey s = hashKey t) :
    search ht (hash s) = search ht (hash t) :=
  search_congr ht h

theorem builtActor_congr (os : List (Str × Str)) {s t : Str} (h : hashKey s = hashKey t)
    (o : Str × Str) : builtActor os s o = builtActor os t o := by
  simp only [builtActor, h]

theorem find?_key_mem {α : Type} {l : List (Str × α)} {s : Str} {o : Str × α}
    (h : l.find? (fun o => decide (hashKey o.1 = hashKey s)) = some o) :
    o ∈ l ∧ hashKey o.1 = hashKey s := by
  have h1 := List.find?_some h
  exact ⟨List.mem_of_find?_eq_some h, by simpa using h1⟩

theorem ActorsSpec_found {os : List (Str × Str)} {tbl : List HashTable} {heap : List Actor}
    (h : ActorsSpec os tbl heap) (a M : Str) {o : Str × Str} {i : Nat}
    (hf : os.find? (fun o => decide (hashKey o.1 = hashKey a)) = some o)
    (hsr : search tbl (hash a) = .ok (some { key := hashKey a, value := i }))
    (hi : heap[i]? = some (builtActor os a o)) :
    ActorsSpec (os ++ [(a, M)]) tbl
      (heap.set i { builtActor os a o with movies := (builtActor os a o).movies ++ [M] }) := by
  intro s
  have hs := h s
  have hilt : i < heap.length := (List.getElem?_eq_some.1 hi).1
  by_cases hk : hashKey s = hashKey a
  · have hfind : (os ++ [(a, M)]).find? (fun o => decide (hashKey o.1 = hashKey s)) = some o := by
      rw [List.find?_append, hk, hf]; rfl
    rw [hfind]
    refine ⟨i, ?_, ?_⟩
    · rw [search_hash_congr tbl hk, hsr, hk]
    · rw [List.getElem?_set_self hilt]
      simp only [builtActor, hk, List.filter_append, List.map_append, List.filter_cons,
        List.filter_nil, decide_True, if_true, List.map_cons, List.map_nil]
  · have hne : decide (hashKey a = hashKey s) = false := by
      simp only [decide_eq_false_iff_not]
      exact fun hc => hk hc.symm
    have hfind : (os ++ [(a, M)]).find? (fun o => decide (hashKey o.1 = hashKey s)) =
        os.find? (fun o => decide (hashKey o.1 = hashKey s)) := by
      rw [List.find?_append]
      simp only [List.find?_cons, hne, List.find?_nil, Option.or_none]
    have hfilter : (os ++ [(a, M)]).filter (fun o => decide (hashKey o.1 = hashKey s)) =
        os.filter (fun o => decide (hashKey o.1 = hashKey s)) := by
      rw [List.filter_append]
      simp [List.filter_cons, hne]
    rw [hfind]
    cases hfs : os.find? (fun o => decide (hashKey o.1 = hashKey s)) with
    | none =>
        rw [hfs] at hs
        exact hs
    | some o2 =>
        rw [hfs] at hs
        obtain ⟨j, hj1, hj2⟩ := hs
        refine ⟨j, hj1, ?_⟩
        have hij : i ≠ j := by
          rintro rfl
          rw [hi] at hj2
          have hname : o.1 = o2.1 := by
            have := congrArg Actor.name (Option.some.inj hj2)
            simpa [builtActor] using this
          have k1 := (find?_key_mem hf).2
          have k2 := (find?_key_mem hfs).2
          rw [hname] at k1
          exact hk (k2.symm.trans k1)
        rw [List.getElem?_set_ne hij, hj2]
        simp only [builtActor, hfilter]

theorem ActorsSpec_new {os : List (Str × Str)} {tbl tbl1 : List HashTable} {heap : List Actor}
    (h : ActorsSpec os tbl heap) (a M : Str)
    (hf : os.find? (fun o => decide (hashKey o.1 = hashKey a)) = none)
    (hins : ∀ key2, 0 ≤ absKey key2 → search tbl1 key2 =
      if absKey key2 = absKey (hash a) then
        .ok (some { key := absKey (hash a), value := heap.length })
      else search tbl key2) :
    ActorsSpec (os ++ [(a, M)]) tbl1
      (heap ++ [{ name := a, movies := [M], is_visited := 0, parent_movie_name := [],
                  parent := none }]) := by
  intro s
  have hs := h s
  have hsearch := hins (hash s) (absKey_hash_nonneg s)
  by_cases hk : hashKey s = hashKey a
  · have hfind : (os ++ [(a, M)]).find? (fun o => decide (hashKey o.1 = hashKey s)) =
        some (a, M) := by
      rw [List.find?_append, hk, hf]
      simp only [List.find?_cons, decide_True, Option.none_or]
    rw [hfind]
    refine ⟨heap.length, ?_, ?_⟩
    · have hk1 : absKey (hash s) = absKey (hash a) := hk
      rw [hsearch, if_pos hk1, hk]; rfl
    · rw [List.getElem?_append_right (le_refl _)]
      have hnil : os.filter (fun o => decide (hashKey o.1 = hashKey a)) = [] := by
        rw [List.filter_eq_nil_iff]
        intro x hx
        have := List.find?_eq_none.1 hf x hx
        simpa using this
      simp only [Nat.sub_self, List.getElem?_cons_zero, builtActor, hk, List.filter_append, hnil,
        List.nil_append, List.filter_cons, decide_True, if_true, List.filter_nil, List.map_cons,
        List.map_nil]
  · have hne : decide (hashKey a = hashKey s) = false := by
      simp only [decide_eq_false_iff_not]
      exact fun hc => hk hc.symm
    have hfind : (os ++ [(a, M)]).find? (fun o => decide (hashKey o.1 = hashKey s)) =
        os.find? (fun o => decide (hashKey o.1 = hashKey s)) := by
      rw [List.find?_append]
      simp only [List.find?_cons, hne, List.find?_nil, Option.or_none]
    have hfilter : (os ++ [(a, M)]).filter (fun o => decide (hashKey o.1 = hashKey s)) =
        os.filter (fun o => decide (hashKey o.1 = hashKey s)) := by
      rw [List.filter_append]
      simp [List.filter_cons, hne]
    have hk1 : ¬ absKey (hash s) = absKey (hash a) := hk
    rw [hfind, hsearch, if_neg hk1]
    cases hfs : os.find? (fun o => decide (hashKey o.1 = hashKey s)) with
    | none =>
        rw [hfs] at hs
        exact hs
    | some o2 =>
        rw [hfs] at hs
        obtain ⟨j, hj1, hj2⟩ := hs
        refine ⟨j, hj1, ?_⟩
        rw [List.getElem?_append_left (List.getElem?_eq_some.1 hj2).1, hj2]
        simp only [builtActor, hfilter]

theorem actorLoop_spec (movie : Movie) : ∀ (cast : List Str) (os : List (Str × Str)) (g : Graph),
    (cast ≠ [] → movie.name.length < MAX_INPUT) →
    TableOk g.actors → ActorsSpec os g.actors g.actorHeap →
    ∃ g1, actorLoop movie cast g = .ok g1 ∧ g1.movies = g.movies ∧ g1.movieHeap = g.movieHeap ∧
      TableOk g1.actors ∧ g1.actors.length = g.actors.length ∧
      ActorsSpec (os ++ cast.map (fun a => (a, movie.name))) g1.actors g1.actorHeap := by
  intro cast
  induction cast with
  | nil =>
      intro os g _ hok hspec
      refine ⟨g, rfl, rfl, rfl, hok, rfl, ?_⟩
      simpa using hspec
  | cons a rest ih =>
      intro os g hfit hok hspec
      have hn : movie.name.length < MAX_INPUT := hfit (List.cons_ne_nil _ _)
      have hs := hspec a
      have happ : os ++ List.map (fun a => (a, movie.name)) (a :: rest) =
          (os ++ [(a, movie.name)]) ++ List.map (fun a => (a, movie.name)) rest := by
        simp
      cases hfa : os.find? (fun o => decide (hashKey o.1 = hashKey a)) with
      | none =>
          rw [hfa] at hs
          obtain ⟨tbl1, hins, hok1, hlen1, hsearch1⟩ :=
            insert_ok hok (absKey_hash_nonneg a) g.actorHeap.length
          have hspec1 := ActorsSpec_new hspec a movie.name hfa hsearch1
          obtain ⟨g1, e1, e2, e3, e4, e5, e6⟩ := ih (os ++ [(a, movie.name)])
            ⟨g.movies, tbl1, g.movieHeap, g.actorHeap ++
                [{ name := a, movies := [movie.name], is_visited := 0, parent_movie_name := [],
                   parent := none }]⟩ (fun _ => hn) hok1 hspec1
          refine ⟨g1, ?_, e2, e3, e4, e5.trans hlen1, by rw [happ]; exact e6⟩
          rw [← e1]
          simp only [actorLoop, hs, create_actor, hins, List.length_singleton, Nat.sub_self,
            List.set_cons_zero, hn, if_true]
      | some o =>
          rw [hfa] at hs
          obtain ⟨i, hi1, hi2⟩ := hs
          have hspec1 := ActorsSpec_found hspec a movie.name hfa hi1 hi2
          obtain ⟨g1, e1, e2, e3, e4, e5, e6⟩ := ih (os ++ [(a, movie.name)])
            ⟨g.movies, g.actors, g.movieHeap, g.actorHeap.set i
                { builtActor os a o with movies := (builtActor os a o).movies ++ [movie.name] }⟩
            (fun _ => hn) hok hspec1
          refine ⟨g1, ?_, e2, e3, e4, e5, by rw [happ]; exact e6⟩
          rw [← e1]
          simp only [actorLoop, hi1, deref, hi2, hn, if_true]

theorem castLoop_spec : ∀ (cast pre : List Str) (slot : Str),
    (∀ c ∈ cast, c.length < MAX_INPUT) →
    ∃ last, castLoop cast (pre.length + 1) (pre ++ [slot]) = .ok (pre ++ cast ++ [last]) := by
  intro cast
  induction cast with
  | nil =>
      intro pre slot _
      exact ⟨slot, by simp only [castLoop, List.append_nil]⟩
  | cons current rest ih =>
      intro pre slot hfit
      have hcur : current.length < MAX_INPUT := hfit current (List.mem_cons_self _ _)
      obtain ⟨last, hl⟩ := ih (pre ++ [current]) []
        (fun c hc => hfit c (List.mem_cons_of_mem _ hc))
      refine ⟨last, ?_⟩
      have hset : (pre ++ [slot]).set pre.length current = pre ++ [current] := by
        rw [List.set_append_right _ _ (le_refl _)]
        simp
      have hlen : (pre ++ [current]).length = pre.length + 1 := by simp
      rw [hlen] at hl
      simp only [castLoop, Nat.add_sub_cancel, List.length_append, List.length_singleton,
        Nat.lt_add_one, if_true, hset, hcur]
      rw [if_pos (by push_cast; omega), hl]
      simp

theorem MoviesSpec_insert {rev : List (Str × List Str)} {tbl tbl1 : List HashTable}
    {heap : List Movie} (h : MoviesSpec rev tbl heap) (name : Str) (cast : List Str)
    (hins : ∀ key2, 0 ≤ absKey key2 → search tbl1 key2 =
      if absKey key2 = absKey (hash name) then
        .ok (some { key := absKey (hash name), value := heap.length })
      else search tbl key2) :
    MoviesSpec ((name, cast) :: rev) tbl1
      (heap ++ [{ name := name, actors := cast, is_visited := 0 }]) := by
  intro s
  have hs := h s
  have hsearch := hins (hash s) (absKey_hash_nonneg s)
  by_cases hk : hashKey s = hashKey name
  · have hk1 : absKey (hash s) = absKey (hash name) := hk
    have hfind : ((name, cast) :: rev).find? (fun r => decide (hashKey r.1 = hashKey s)) =
        some (name, cast) := by
      simp only [List.find?_cons, hk, decide_True]
    rw [hfind]
    refine ⟨heap.length, ?_, ?_⟩
    · rw [hsearch, if_pos hk1, hk]; rfl
    · rw [List.getElem?_append_right (le_refl _)]
      simp
  · have hk1 : ¬ absKey (hash s) = absKey (hash name) := hk
    have hne : decide (hashKey name = hashKey s) = false := by
      simp only [decide_eq_false_iff_not]
      exact fun hc => hk hc.symm
    have hfind : ((name, cast) :: rev).find? (fun r => decide (hashKey r.1 = hashKey s)) =
        rev.find? (fun r => decide (hashKey r.1 = hashKey s)) := by
      simp only [List.find?_cons, hne]
    rw [hfind, hsearch, if_neg hk1]
    cases hfs : rev.find? (fun r => decide (hashKey r.1 = hashKey s)) with
    | none =>
        rw [hfs] at hs
        exact hs
    | some r =>
        rw [hfs] at hs
        obtain ⟨j, hj1, hj2⟩ := hs
        exact ⟨j, hj1, by rw [List.getElem?_append_left (List.getElem?_eq_some.1 hj2).1, hj2]⟩

theorem buildLine_spec {m : Nat} {recs : List (Str × List Str)} {g : Graph}
    (h : Built m recs g) (name : Str) (cast : List Str)
    (hcast : ∀ c ∈ cast, c.length < MAX_INPUT) (hname : cast ≠ [] → name.length < MAX_INPUT) :
    ∃ g1, buildLine name cast g = .ok g1 ∧ Built m (recs ++ [(name, cast)]) g1 := by
  obtain ⟨last, hcl⟩ := castLoop_spec cast [] [] hcast
  obtain ⟨tbl1, hins, hok1, hlen1, hsearch1⟩ :=
    insert_ok h.movies_ok (absKey_hash_nonneg name) g.movieHeap.length
  have hm1 := MoviesSpec_insert h.movies_spec name cast hsearch1
  obtain ⟨g1, e1, e2, e3, e4, e5, e6⟩ := actorLoop_spec
    { name := name, actors := cast, is_visited := 0 } cast (occurrences recs)
    ⟨tbl1, g.actors, g.movieHeap ++ [{ name := name, actors := cast, is_visited := 0 }],
      g.actorHeap⟩ hname h.actors_ok h.actors_spec
  refine ⟨g1, ?_, ?_⟩
  · rw [← e1]
    simp only [List.length_nil, zero_add, List.nil_append] at hcl
    simp only [buildLine, create_movie, hcl, List.length_append, List.length_singleton,
      Nat.add_sub_cancel, List.take_left', hins]
  · refine ⟨by rw [e2]; exact hok1, by rw [e2]; exact hlen1.trans h.movies_len, e4,
      e5.trans h.actors_len, ?_, ?_⟩
    · simpa [occurrences, List.flatMap_append] using e6
    · rw [e2, e3, List.reverse_append]
      exact hm1

theorem build_hash_tables_spec {m : Nat} : ∀ (lines : List (List Str))
    (recs : List (Str × List Str)) (g : Graph), RecordsFit (records lines) → Built m recs g →
    ∃ g1, build_hash_tables lines g = .ok g1 ∧ Built m (recs ++ records lines) g1 := by
  intro lines
  induction lines with
  | nil =>
      intro recs g _ h
      exact ⟨g, rfl, by simpa [records] using h⟩
  | cons line lines ih =>
      intro recs g hfit h
      cases line with
      | nil =>
          obtain ⟨g1, e1, e2⟩ := ih recs g hfit h
          exact ⟨g1, by simp only [build_hash_tables, e1], by simpa [records] using e2⟩
      | cons name cast =>
          have hr := hfit (name, cast) (List.mem_cons_self _ _)
          obtain ⟨g1, e1, e2⟩ := buildLine_spec h name cast hr.1 hr.2
          obtain ⟨g2, f1, f2⟩ := ih _ g1 (fun r hr => hfit r (List.mem_cons_of_mem _ hr)) e2
          refine ⟨g2, by simp only [build_hash_tables, e1, f1], ?_⟩
          simpa [records] using f2

theorem search_replicate (m : Nat) (hm : 0 < m) (s : Str) :
    search (List.replicate m ({ table_size := (m : Int), count := 0, head := [] } : HashTable))
      (hash s) = .ok none := by
  have hok : TableOk (List.replicate m
      ({ table_size := (m : Int), count := 0, head := [] } : HashTable)) := by
    refine ⟨by simpa using hm, ?_⟩
    intro c hc
    rw [(List.mem_replicate.1 hc).2]
    simp
  obtain ⟨cell, e1, e2⟩ := search_eq hok (absKey_hash_nonneg s)
  have hcell : cell ∈ List.replicate m
      ({ table_size := (m : Int), count := 0, head := [] } : HashTable) := by
    obtain ⟨hl, rfl⟩ := List.getElem?_eq_some.1 e1
    exact List.getElem_mem hl
  rw [e2, (List.mem_replicate.1 hcell).2]
  rfl

theorem freshGraph_spec {m : Nat} (hm : 0 < m) (lines : List (List Str))
    (hfit : RecordsFit (records lines)) :
    ∃ g, freshGraph m lines = .ok g ∧ Built m (records lines) g := by
  have hok : TableOk (List.replicate m
      ({ table_size := (m : Int), count := 0, head := [] } : HashTable)) := by
    refine ⟨by simpa using hm, ?_⟩
    intro c hc
    rw [(List.mem_replicate.1 hc).2]
    simp
  have h0 : Built m []
      { movies := List.replicate m { table_size := (m : Int), count := 0, head := [] }
        actors := List.replicate m { table_size := (m : Int), count := 0, head := [] }
        movieHeap := [], actorHeap := [] } :=
    { movies_ok := hok
      movies_len := by simp
      actors_ok := hok
      actors_len := by simp
      actors_spec := fun s => search_replicate m hm s
      movies_spec := fun s => search_replicate m hm s }
  obtain ⟨g, e1, e2⟩ := build_hash_tables_spec lines [] _ hfit h0
  refine ⟨g, ?_, by simpa using e2⟩
  simp only [freshGraph, create_hash_table, if_neg (Nat.pos_iff_ne_zero.1 hm), e1]

theorem castLoop_fits : ∀ (cast : List Str) (j : Nat) (actors r : List Str),
    castLoop cast j actors = .ok r → ∀ c ∈ cast, c.length < MAX_INPUT := by
  intro cast
  induction cast with
  | nil =>
      intro j actors r _ c hc
      cases hc
  | cons current rest ih =>
      intro j actors r h c hc
      by_cases h1 : j - 1 < actors.length
      · by_cases h2 : current.length < MAX_INPUT
        · simp only [castLoop, h1, h2, if_true] at h
          rcases List.mem_cons.1 hc with rfl | hc
          · exact h2
          · exact ih _ _ _ h c hc
        · simp [castLoop, h1, h2] at h
      · simp [castLoop, h1] at h

theorem actorLoop_fits (movie : Movie) {cast : List Str} {g g1 : Graph}
    (h : actorLoop movie cast g = .ok g1) (hne : cast ≠ []) :
    movie.name.length < MAX_INPUT := by
  cases cast with
  | nil => exact absurd rfl hne
  | cons a rest =>
      by_contra hlen
      cases hs : search g.actors (hash a) with
      | fault => simp [actorLoop, hs] at h
      | timeout => simp [actorLoop, hs] at h
      | ok o =>
          cases o with
          | none =>
              cases hi : insert g.actors (hash (create_actor a).name) g.actorHeap.length with
              | fault => simp [actorLoop, hs, hi] at h
              | timeout => simp [actorLoop, hs, hi] at h
              | ok tbl => simp [actorLoop, hs, hi, hlen] at h
          | some result =>
              cases hd : g.actorHeap[result.value]? with
              | none => simp [actorLoop, hs, deref, hd] at h
              | some actor => simp [actorLoop, hs, deref, hd, hlen] at h

theorem buildLine_fits {name : Str} {cast : List Str} {g g1 : Graph}
    (h : buildLine name cast g = .ok g1) :
    (∀ c ∈ cast, c.length < MAX_INPUT) ∧ (cast ≠ [] → name.length < MAX_INPUT) := by
  unfold buildLine at h
  cases hc : castLoop cast 1 (create_movie name).actors with
  | fault => simp [hc] at h
  | timeout => simp [hc] at h
  | ok actors =>
      have hfit := castLoop_fits _ _ _ _ hc
      refine ⟨hfit, ?_⟩
      intro hne
      obtain ⟨last, hl⟩ := castLoop_spec cast [] [] hfit
      simp only [List.length_nil, zero_add, List.nil_append] at hl
      have ha : actors = cast ++ [last] := by
        have hc1 : castLoop cast 1 [[]] = .ok actors := hc
        rw [hl] at hc1
        simp only [Res.ok.injEq] at hc1
        exact hc1.symm
      subst ha
      simp only [hc] at h
      cases hi : insert g.movies (hash (create_movie name).name) g.movieHeap.length with
      | fault => simp [hi] at h
      | timeout => simp [hi] at h
      | ok tbl =>
          simp only [hi] at h
          have := actorLoop_fits _ h (by simpa using hne)
          simpa [create_movie] using this

theorem build_hash_tables_fits : ∀ (lines : List (List Str)) (g g1 : Graph),
    build_hash_tables lines g = .ok g1 → RecordsFit (records lines) := by
  intro lines
  induction lines with
  | nil =>
      intro g g1 _ r hr
      cases hr
  | cons line lines ih =>
      intro g g1 h
      cases line with
      | nil => exact ih g g1 (by simpa only [build_hash_tables] using h)
      | cons name cast =>
          cases hb : buildLine name cast g with
          | fault => simp [build_hash_tables, hb] at h
          | timeout => simp [build_hash_tables, hb] at h
          | ok g2 =>
              simp only [build_hash_tables, hb] at h
              intro r hr
              rcases List.mem_cons.1 hr with rfl | hr
              · exact buildLine_fits hb
              · exact ih g2 g1 h r hr

theorem freshGraph_fits {m : Nat} {lines : List (List Str)} {g : Graph}
    (h : freshGraph m lines = .ok g) : RecordsFit (records lines) := by
  unfold freshGraph at h
  cases hc : create_hash_table m with
  | fault => simp [hc] at h
  | timeout => simp [hc] at h
  | ok tbl =>
      simp only [hc] at h
      exact build_hash_tables_fits _ _ _ h

theorem mem_occurrences {recs : List (Str × List Str)} {a M : Str} :
    (a, M) ∈ occurrences recs ↔ ∃ cast, (M, cast) ∈ recs ∧ a ∈ cast := by
  simp only [occurrences, List.mem_flatMap, List.mem_map, Prod.mk.injEq, Prod.exists]
  constructor
  · rintro ⟨M1, cast, hr, b, hb, rfl, rfl⟩
    exact ⟨cast, hr, hb⟩
  · rintro ⟨cast, hr, ha⟩
    exact ⟨M, cast, hr, a, ha, rfl, rfl⟩

theorem Built.actor_present {m : Nat} {recs : List (Str × List Str)} {g : Graph}
    (h : Built m recs g) {a : Str} (ha : ∃ r ∈ recs, a ∈ r.2) :
    ∃ o i, (occurrences recs).find? (fun o => decide (hashKey o.1 = hashKey a)) = some o ∧
      search g.actors (hash a) = .ok (some { key := hashKey a, value := i }) ∧
      g.actorHeap[i]? = some (builtActor (occurrences recs) a o) := by
  obtain ⟨r, hr, har⟩ := ha
  have hmem : (a, r.1) ∈ occurrences recs := mem_occurrences.2 ⟨r.2, hr, har⟩
  have hs := h.actors_spec a
  cases hf : (occurrences recs).find? (fun o => decide (hashKey o.1 = hashKey a)) with
  | none =>
      have := List.find?_eq_none.1 hf (a, r.1) hmem
      simp at this
  | some o =>
      rw [hf] at hs
      obtain ⟨i, h1, h2⟩ := hs
      exact ⟨o, i, rfl, h1, h2⟩

theorem find_distance_same {g : Graph} {a : Str} {e : MapEntry} {s : Actor} (fuel : Nat)
    (hs : search g.actors (hash a) = .ok (some e))
    (hd : g.actorHeap[e.value]? = some s) (hp : s.parent = none) :
    find_distance (fuel + 1) a a g =
      .ok (0, [], { g with actorHeap := g.actorHeap.set e.value { s with is_visited := 1 } }) := by
  have hlt : e.value < g.actorHeap.length := (List.getElem?_eq_some.1 hd).1
  simp only [find_distance, hs, deref, hd, bfsLoop, enqueue, create_queue, dequeue,
    List.cons_ne_nil, if_false, if_true, foundEnd, List.getElem?_set_self hlt, backtrack, hp,
    sub_self, zero_add]

/-- C6: for every record sequence within the capacity of the name buffers (`RecordsFit`: the
copied names have fewer than `MAX_INPUT` = 255 bytes), every table size `m ≥ 1` and every actor
`a` that occurs in the cast of a record, the graph is built and `find_distance(a, a)` on the
freshly built graph returns 0 and prints nothing, for every budget of at least 1: the walk from
`a` visits only `a`, whose parent is `NULL`, counts 1 and returns `1 - 1`. -/
theorem find_distance_self (m : Nat) (lines : List (List Str)) (a : Str) (fuel : Nat)
    (hm : 0 < m) (hfit : RecordsFit (records lines)) (hfuel : 0 < fuel)
    (ha : Present (records lines) a) :
    ∃ g g1, freshGraph m lines = .ok g ∧ find_distance fuel a a g = .ok (0, [], g1) := by
  obtain ⟨g, hg, hb⟩ := freshGraph_spec hm lines hfit
  obtain ⟨o, i, _, h1, h2⟩ := hb.actor_present ha
  obtain ⟨k, rfl⟩ : ∃ k, fuel = k + 1 := ⟨fuel - 1, by omega⟩
  exact ⟨g, _, hg, find_distance_same k h1 h2 rfl⟩

theorem find_distance_self_witness :
    RecordsFit (records chainLines) ∧
    ∃ g g1, freshGraph 2 chainLines = .ok g ∧
      find_distance 1 (cstr "B") (cstr "B") g = .ok (0, [], g1) :=
  ⟨freshGraph_fits freshGraph_chainLines,
    find_distance_self 2 chainLines (cstr "B") 1 (by decide)
      (freshGraph_fits freshGraph_chainLines) (by decide)
      ⟨(cstr "M1", [cstr "A", cstr "B"]), by decide!, by decide!⟩⟩

/-! ## Chains of co-starring actors -/

theorem Costar.swap {recs : List (Str × List Str)} {a b : Str} (h : Costar recs a b) :
    Costar recs b a := by
  obtain ⟨r, hr, ha, hb⟩ := h
  exact ⟨r, hr, hb, ha⟩

theorem Chain.eq_of_zero {recs : List (Str × List Str)} {a b : Str} (h : Chain recs a b 0) :
    b = a := by
  cases h
  rfl

theorem Chain.pred {recs : List (Str × List Str)} {a c : Str} {n : Nat}
    (h : Chain recs a c (n + 1)) : ∃ b, Chain recs a b n ∧ Costar recs b c := by
  cases h with
  | step h1 h2 => exact ⟨_, h1, h2⟩

theorem Chain.cons {recs : List (Str × List Str)} {a b c : Str} {n : Nat}
    (hab : Costar recs a b) (h : Chain recs b c n) : Chain recs a c (n + 1) := by
  induction h with
  | refl => exact Chain.step Chain.refl hab
  | step _ h2 ih => exact Chain.step ih h2

theorem Chain.reverse {recs : List (Str × List Str)} {a b : Str} {n : Nat}
    (h : Chain recs a b n) : Chain recs b a n := by
  induction h with
  | refl => exact Chain.refl
  | step _ h2 ih => exact Chain.cons h2.swap ih

theorem IsDist.flip {recs : List (Str × List Str)} {a b : Str} {n : Nat}
    (h : IsDist recs a b n) : IsDist recs b a n :=
  ⟨h.1.reverse, fun k hk => h.2 k hk.reverse⟩

theorem IsDist.unique {recs : List (Str × List Str)} {a b : Str} {n k : Nat}
    (h1 : IsDist recs a b n) (h2 : IsDist recs a b k) : n = k :=
  le_antisymm (h1.2 k h2.1) (h2.2 n h1.1)

theorem IsDist.self (recs : List (Str × List Str)) (a : Str) : IsDist recs a a 0 :=
  ⟨Chain.refl, fun _ _ => Nat.zero_le _⟩

theorem IsDist.eq_start {recs : List (Str × List Str)} {a b : Str} (h : IsDist recs a b 0) :
    b = a :=
  Chain.eq_of_zero h.1

theorem Chain.exists_dist {recs : List (Str × List Str)} {a b : Str} {k : Nat}
    (h : Chain recs a b k) : ∃ n, n ≤ k ∧ IsDist recs a b n := by
  classical
  have hex : ∃ n, Chain recs a b n := ⟨k, h⟩
  exact ⟨Nat.find hex, Nat.find_min' hex h, Nat.find_spec hex,
    fun j hj => Nat.find_min' hex hj⟩

theorem IsDist.pred_dist {recs : List (Str × List Str)} {a c : Str} {n : Nat}
    (h : IsDist recs a c (n + 1)) : ∃ b, IsDist recs a b n ∧ Costar recs b c := by
  obtain ⟨b, hb, hbc⟩ := h.1.pred
  refine ⟨b, ⟨hb, ?_⟩, hbc⟩
  intro k hk
  have := h.2 (k + 1) (Chain.step hk hbc)
  omega

/-! ## The records behind the casts and filmographies -/

theorem mem_filmo {recs : List (Str × List Str)} {a M : Str} :
    M ∈ filmo recs a ↔ ∃ cast, (M, cast) ∈ recs ∧ a ∈ cast := by
  rw [← mem_occurrences]
  simp only [filmo, List.mem_map, List.mem_filter, decide_eq_true_eq, Prod.exists,
    exists_and_right, exists_eq_right]

theorem eq_of_nodup_fst {recs : List (Str × List Str)} (hnd : (recs.map Prod.fst).Nodup)
    {M : Str} {c1 c2 : List Str} (h1 : (M, c1) ∈ recs) (h2 : (M, c2) ∈ recs) : c1 = c2 := by
  induction recs with
  | nil => cases h1
  | cons r rest ih =>
      rw [List.map_cons, List.nodup_cons] at hnd
      rcases List.mem_cons.1 h1 with e1 | m1
      · rcases List.mem_cons.1 h2 with e2 | m2
        · rw [← e1] at e2
          exact (Prod.mk.inj e2).2.symm
        · exact absurd (List.mem_map.2 ⟨(M, c2), m2, by rw [← e1]⟩) hnd.1
      · rcases List.mem_cons.1 h2 with e2 | m2
        · exact absurd (List.mem_map.2 ⟨(M, c1), m1, by rw [← e2]⟩) hnd.1
        · exact ih hnd.2 m1 m2

theorem castOf_eq {recs : List (Str × List Str)} (hnd : (recs.map Prod.fst).Nodup)
    {M : Str} {cast : List Str} (h : (M, cast) ∈ recs) : castOf recs M = cast := by
  unfold castOf
  cases hf : recs.find? (fun r => decide (r.1 = M)) with
  | none =>
      have := List.find?_eq_none.1 hf (M, cast) h
      simp at this
  | some r =>
      have h1 : r.1 = M := by simpa using List.find?_some hf
      have h2 : r ∈ recs := List.mem_of_find?_eq_some hf
      have h3 : (M, r.2) ∈ recs := by rw [← h1]; exact h2
      exact eq_of_nodup_fst hnd h3 h

/-! ## The effect of expanding an actor on the traversal state -/

theorem aCast_effect (start v M : Str) : ∀ (cast : List Str) (σ : Search),
    (aCast start v M cast σ).vis = σ.vis ∧
    (aCast start v M cast σ).queue = σ.queue ++ cast.filter (fun t => decide (t ≠ start)) ∧
    ∀ t, (aCast start v M cast σ).par t =
      if σ.par t = none ∧ t ∈ cast ∧ t ≠ start then some (v, M) else σ.par t := by
  intro cast
  induction cast with
  | nil =>
      intro σ
      simp [aCast]
  | cons t0 rest ih =>
      intro σ
      by_cases h0 : t0 = start
      · obtain ⟨e1, e2, e3⟩ := ih σ
        simp only [aCast, h0, if_true]
        refine ⟨e1, ?_, ?_⟩
        · rw [e2]
          simp
        · intro t
          rw [e3 t]
          by_cases ht : t = start
          · simp [ht]
          · simp [ht]
      · obtain ⟨e1, e2, e3⟩ := ih
          { vis := σ.vis
            par := if σ.par t0 = none then Function.update σ.par t0 (some (v, M)) else σ.par
            queue := σ.queue ++ [t0] }
        simp only [aCast, h0, if_false]
        refine ⟨e1, ?_, ?_⟩
        · rw [e2]
          simp [h0]
        · intro t
          rw [e3 t]
          by_cases ht : t = t0
          · subst ht
            by_cases hp : σ.par t = none
            · simp [hp, h0]
            · simp [hp]
          · by_cases hp : σ.par t0 = none
            · simp [hp, ht, Function.update_noteq ht]
            · simp [hp, ht]

theorem aMovies_effect (recs : List (Str × List Str)) (start v : Str) :
    ∀ (Ms : List Str) (σ : Search), ∃ L,
      (aMovies recs start v Ms σ).queue = σ.queue ++ L ∧
      (∀ M, (aMovies recs start v Ms σ).vis M = true ↔ σ.vis M = true ∨ M ∈ Ms) ∧
      (∀ t, (aMovies recs start v Ms σ).par t = σ.par t ∨
        (σ.par t = none ∧ t ≠ start ∧ ∃ M ∈ Ms, σ.vis M = false ∧ t ∈ castOf recs M ∧
          (aMovies recs start v Ms σ).par t = some (v, M))) ∧
      (∀ t ∈ L, t ≠ start ∧ ∃ M ∈ Ms, σ.vis M = false ∧ t ∈ castOf recs M) ∧
      (∀ M ∈ Ms, σ.vis M = false → ∀ t ∈ castOf recs M, t ≠ start →
        (aMovies recs start v Ms σ).par t ≠ none ∧ t ∈ L) := by
  intro Ms
  induction Ms with
  | nil =>
      intro σ
      refine ⟨[], by simp [aMovies], by simp [aMovies], fun t => Or.inl rfl, ?_, ?_⟩
      · intro t ht
        cases ht
      · intro M hM
        cases hM
  | cons M0 rest ih =>
      intro σ
      by_cases hv : σ.vis M0 = true
      · obtain ⟨L, e1, e2, e3, e4, e5⟩ := ih σ
        simp only [aMovies, hv, if_true]
        refine ⟨L, e1, ?_, ?_, ?_, ?_⟩
        · intro M
          rw [e2 M, List.mem_cons]
          constructor
          · rintro (h | h)
            · exact Or.inl h
            · exact Or.inr (Or.inr h)
          · rintro (h | h | h)
            · exact Or.inl h
            · exact Or.inl (h ▸ hv)
            · exact Or.inr h
        · intro t
          rcases e3 t with h | ⟨h1, h2, M, hM, h3, h4, h5⟩
          · exact Or.inl h
          · exact Or.inr ⟨h1, h2, M, List.mem_cons_of_mem _ hM, h3, h4, h5⟩
        · intro t ht
          obtain ⟨h1, M, hM, h2, h3⟩ := e4 t ht
          exact ⟨h1, M, List.mem_cons_of_mem _ hM, h2, h3⟩
        · intro M hM hvM t ht hts
          rcases List.mem_cons.1 hM with rfl | hM
          · rw [hv] at hvM
            cases hvM
          · exact e5 M hM hvM t ht hts
      · have hv' : σ.vis M0 = false := by simpa using hv
        obtain ⟨c1, c2, c3⟩ := aCast_effect start v M0 (castOf recs M0)
          { vis := Function.update σ.vis M0 true, par := σ.par, queue := σ.queue }
        obtain ⟨L, e1, e2, e3, e4, e5⟩ := ih (aCast start v M0 (castOf recs M0)
          { vis := Function.update σ.vis M0 true, par := σ.par, queue := σ.queue })
        have hstep : aMovies recs start v (M0 :: rest) σ = aMovies recs start v rest
            (aCast start v M0 (castOf recs M0)
              { vis := Function.update σ.vis M0 true, par := σ.par, queue := σ.queue }) := by
          simp [aMovies, hv']
        rw [hstep]
        simp only at c1 c2 c3
        have hvis1 : ∀ M, (aCast start v M0 (castOf recs M0)
            { vis := Function.update σ.vis M0 true, par := σ.par, queue := σ.queue }).vis M =
            if M = M0 then true else σ.vis M := by
          intro M
          rw [c1]
          by_cases hM : M = M0
          · rw [hM, Function.update_same, if_pos rfl]
          · rw [Function.update_noteq hM, if_neg hM]
        refine ⟨(castOf recs M0).filter (fun t => decide (t ≠ start)) ++ L, ?_, ?_, ?_, ?_, ?_⟩
        · rw [e1, c2, List.append_assoc]
        · intro M
          rw [e2 M, hvis1 M, List.mem_cons]
          by_cases hM : M = M0
          · simp [hM]
          · simp [hM]
        · intro t
          rcases e3 t with h | ⟨h1, h2, M, hM, h3, h4, h5⟩
          · rw [h, c3 t]
            by_cases hc : σ.par t = none ∧ t ∈ castOf recs M0 ∧ t ≠ start
            · rw [if_pos hc]
              exact Or.inr ⟨hc.1, hc.2.2, M0, List.mem_cons_self _ _, hv', hc.2.1, rfl⟩
            · rw [if_neg hc]
              exact Or.inl rfl
          · rw [c3 t] at h1
            have hc : ¬ (σ.par t = none ∧ t ∈ castOf recs M0 ∧ t ≠ start) := by
              intro hc
              rw [if_pos hc] at h1
              cases h1
            rw [if_neg hc] at h1
            rw [hvis1 M] at h3
            have hM0 : M ≠ M0 := by
              intro hM0
              rw [if_pos hM0] at h3
              cases h3
            rw [if_neg hM0] at h3
            exact Or.inr ⟨h1, h2, M, List.mem_cons_of_mem _ hM, h3, h4, h5⟩
        · intro t ht
          rcases List.mem_append.1 ht with ht | ht
          · have := List.mem_filter.1 ht
            exact ⟨by simpa using this.2, M0, List.mem_cons_self _ _, hv', this.1⟩
          · obtain ⟨h1, M, hM, h2, h3⟩ := e4 t ht
            rw [hvis1 M] at h2
            have hM0 : M ≠ M0 := by
              intro hM0
              rw [if_pos hM0] at h2
              cases h2
            rw [if_neg hM0] at h2
            exact ⟨h1, M, List.mem_cons_of_mem _ hM, h2, h3⟩
        · intro M hM hvM t ht hts
          by_cases hM0 : M = M0
          · subst hM0
            have hp1 : (aCast start v M (castOf recs M)
                { vis := Function.update σ.vis M true, par := σ.par, queue := σ.queue }).par t ≠
                none := by
              rw [c3 t]
              by_cases hp : σ.par t = none
              · rw [if_pos ⟨hp, ht, hts⟩]
                exact fun h => by cases h
              · rw [if_neg (fun hc => hp hc.1)]
                exact hp
            constructor
            · rcases e3 t with h | ⟨h1, _⟩
              · rw [h]
                exact hp1
              · exact absurd h1 hp1
            · exact List.mem_append_left _ (List.mem_filter.2 ⟨ht, by simpa using hts⟩)
          · rcases List.mem_cons.1 hM with h | hM
            · exact absurd h hM0
            · have hv1 : (aCast start v M0 (castOf recs M0)
                  { vis := Function.update σ.vis M0 true, par := σ.par,
                    queue := σ.queue }).vis M = false := by
                rw [hvis1 M, if_neg hM0]
                exact hvM
              obtain ⟨h1, h2⟩ := e5 M hM hv1 t ht hts
              exact ⟨h1, List.mem_append_right _ h2⟩

/-! ## The measure that bounds the search loop -/

theorem unvisited_update (M : Str) : ∀ (recs : List (Str × List Str)) (vis : Str → Bool),
    vis M = false →
    ((recs.filter (fun r => !(Function.update vis M true) r.1)).map (fun r => r.2.length)).sum +
        (castOf recs M).length ≤
      ((recs.filter (fun r => !vis r.1)).map (fun r => r.2.length)).sum := by
  intro recs
  induction recs with
  | nil =>
      intro vis _
      simp [castOf]
  | cons r rest ih =>
      intro vis hv
      have h := ih vis hv
      obtain ⟨n0, c0⟩ := r
      by_cases hr : n0 = M
      · subst hr
        have hc : castOf ((n0, c0) :: rest) n0 = c0 := by
          simp [castOf, List.find?_cons]
        have h1 : (!Function.update vis n0 true n0) = false := by
          rw [Function.update_same]
          rfl
        have h2 : (!vis n0) = true := by
          rw [hv]
          rfl
        rw [hc, List.filter_cons, List.filter_cons]
        simp only [h1, h2, if_true, List.map_cons, List.sum_cons, Bool.false_eq_true, if_false]
        omega
      · have hc : castOf ((n0, c0) :: rest) M = castOf rest M := by
          simp [castOf, List.find?_cons, hr]
        have h1 : Function.update vis M true n0 = vis n0 := Function.update_noteq hr _ _
        rw [hc, List.filter_cons, List.filter_cons]
        simp only [h1]
        by_cases hvr : vis n0 = true
        · simp only [hvr, Bool.not_true, Bool.false_eq_true, if_false]
          exact h
        · have hvr' : vis n0 = false := by simpa using hvr
          simp only [hvr', Bool.not_false, if_true, List.map_cons, List.sum_cons]
          omega

theorem aMovies_measure (recs : List (Str × List Str)) (start v : Str) :
    ∀ (Ms : List Str) (σ : Search),
      (aMovies recs start v Ms σ).queue.length + unvisitedSize recs (aMovies recs start v Ms σ) ≤
        σ.queue.length + unvisitedSize recs σ := by
  intro Ms
  induction Ms with
  | nil =>
      intro σ
      simp [aMovies]
  | cons M0 rest ih =>
      intro σ
      by_cases hv : σ.vis M0 = true
      · have hstep : aMovies recs start v (M0 :: rest) σ = aMovies recs start v rest σ := by
          simp [aMovies, hv]
        rw [hstep]
        exact ih σ
      · have hv' : σ.vis M0 = false := by simpa using hv
        have hstep : aMovies recs start v (M0 :: rest) σ = aMovies recs start v rest
            (aCast start v M0 (castOf recs M0)
              { vis := Function.update σ.vis M0 true, par := σ.par, queue := σ.queue }) := by
          simp [aMovies, hv']
        rw [hstep]
        obtain ⟨c1, c2, _⟩ := aCast_effect start v M0 (castOf recs M0)
          { vis := Function.update σ.vis M0 true, par := σ.par, queue := σ.queue }
        have h1 := ih (aCast start v M0 (castOf recs M0)
          { vis := Function.update σ.vis M0 true, par := σ.par, queue := σ.queue })
        have h2 := unvisited_update M0 recs σ.vis hv'
        have h3 : ((castOf recs M0).filter (fun t => decide (t ≠ start))).length ≤
            (castOf recs M0).length := List.length_filter_le _ _
        have h4 : unvisitedSize recs (aCast start v M0 (castOf recs M0)
            { vis := Function.update σ.vis M0 true, par := σ.par, queue := σ.queue }) =
            ((recs.filter (fun r => !(Function.update σ.vis M0 true) r.1)).map
              (fun r => r.2.length)).sum := by
          unfold unvisitedSize
          rw [c1]
        rw [h4, c2, List.length_append] at h1
        unfold unvisitedSize at h1 ⊢
        simp only at h1
        omega

/-! ## The invariant of the search loop -/

theorem Disc.has_dist {recs : List (Str × List Str)} {start end_ : Str} {σ : Search} {d : Nat}
    {A B : List Str} (h : Inv recs start end_ σ d A B) {t : Str} (ht : Disc start σ t) :
    ∃ n, IsDist recs start t n := by
  by_cases hs : t = start
  · exact ⟨0, hs ▸ IsDist.self recs start⟩
  · rcases ht with ht | ht
    · exact absurd ht hs
    · cases hp : σ.par t with
      | none => exact absurd hp ht
      | some pm =>
          obtain ⟨_, _, n, _, hn⟩ := h.par_ok t pm.1 pm.2 hp
          exact ⟨n + 1, hn⟩

theorem Proc.costar_disc {recs : List (Str × List Str)} {start end_ : Str} {σ : Search}
    {d : Nat} {A B : List Str} (h : Inv recs start end_ σ d A B) {u t : Str}
    (hu : Proc recs start σ u) (hut : Costar recs u t) : Disc start σ t := by
  obtain ⟨r, hr, hur, htr⟩ := hut
  have hm : r.1 ∈ filmo recs u := mem_filmo.2 ⟨r.2, hr, hur⟩
  exact h.vis_ok r.1 r.2 (hu.2 r.1 hm) hr t htr

theorem Inv.init (recs : List (Str × List Str)) (start end_ : Str) :
    Inv recs start end_ { vis := fun _ => false, par := fun _ => none, queue := [start] } 0
      [start] [] where
  par_start := rfl
  queue_eq := rfl
  par_ok := fun t p M h => by cases h
  vis_ok := fun M cast h => by cases h
  todo := by
    intro u hu _
    rcases hu with hu | hu
    · exact Or.inl ⟨hu ▸ IsDist.self recs start, by simp [hu]⟩
    · exact absurd rfl hu
  inA := by
    intro u hu
    have : u = start := by simpa using hu
    exact ⟨Or.inl this, Or.inr (this ▸ IsDist.self recs start)⟩
  inB := fun u hu => by cases hu
  done := fun a n _ hn => absurd hn (Nat.not_lt_zero n)
  end_queued := by
    intro h
    rcases h with h | h
    · simp [h]
    · exact absurd rfl h

theorem Inv.relevel {recs : List (Str × List Str)} {start end_ : Str} {σ : Search} {d : Nat}
    {B : List Str} (h : Inv recs start end_ σ d [] B) : Inv recs start end_ σ (d + 1) B [] where
  par_start := h.par_start
  queue_eq := by rw [h.queue_eq]; simp
  par_ok := h.par_ok
  vis_ok := h.vis_ok
  todo := by
    intro u hu hnp
    rcases h.todo u hu hnp with ⟨_, hm⟩ | ⟨h1, h2⟩
    · cases hm
    · exact Or.inl ⟨h1, h2⟩
  inA := by
    intro u hu
    refine ⟨h.inB u hu, ?_⟩
    by_cases hp : Proc recs start σ u
    · exact Or.inl hp
    · rcases h.todo u (h.inB u hu) hp with ⟨_, hm⟩ | ⟨h1, _⟩
      · cases hm
      · exact Or.inr h1
  inB := fun u hu => by cases hu
  done := by
    intro a n ha hn
    by_cases hlt : n < d
    · exact h.done a n ha hlt
    · have hnd : n = d := by omega
      subst hnd
      have hdisc : Disc start σ a := by
        cases n with
        | zero => exact Or.inl ha.eq_start
        | succ k =>
            obtain ⟨b, hb, hba⟩ := ha.pred_dist
            exact Proc.costar_disc h (h.done b k hb (by omega)) hba
      by_contra hnp
      rcases h.todo a hdisc hnp with ⟨_, hm⟩ | ⟨h1, _⟩
      · cases hm
      · have := ha.unique h1
        omega
  end_queued := h.end_queued

theorem Inv.nonempty_A {recs : List (Str × List Str)} {start end_ : Str} {σ : Search} {d : Nat}
    {A B : List Str} (h : Inv recs start end_ σ d A B) {v : Str} {rest : List Str}
    (hq : σ.queue = v :: rest) :
    ∃ d1 A1 B1, Inv recs start end_ σ d1 (v :: A1) B1 ∧ rest = A1 ++ B1 := by
  cases A with
  | nil =>
      have h1 := h.relevel
      have hB : B = v :: rest := by
        have := h.queue_eq
        rw [hq] at this
        simpa using this.symm
      subst hB
      exact ⟨d + 1, rest, [], h1, by simp⟩
  | cons a A1 =>
      have := h.queue_eq
      rw [hq] at this
      simp only [List.cons_append, List.cons.injEq] at this
      obtain ⟨rfl, hr⟩ := this
      exact ⟨d, A1, B, h, hr⟩

theorem Inv.all_proc {recs : List (Str × List Str)} {start end_ : Str} {σ : Search} {d : Nat}
    {A B : List Str} (h : Inv recs start end_ σ d A B) (hq : σ.queue = []) :
    ∀ n a, IsDist recs start a n → Proc recs start σ a := by
  have hAB : A = [] ∧ B = [] := by
    have := h.queue_eq
    rw [hq] at this
    simpa using this.symm
  obtain ⟨rfl, rfl⟩ := hAB
  have key : ∀ u, Disc start σ u → Proc recs start σ u := by
    intro u hu
    by_contra hnp
    rcases h.todo u hu hnp with ⟨_, hm⟩ | ⟨_, hm⟩
    · cases hm
    · cases hm
  intro n
  induction n with
  | zero =>
      intro a ha
      exact key a (Or.inl ha.eq_start)
  | succ k ih =>
      intro a ha
      obtain ⟨b, hb, hba⟩ := ha.pred_dist
      exact key a (Proc.costar_disc h (ih b hb) hba)

theorem Inv.unreachable_of_empty {recs : List (Str × List Str)} {start end_ : Str} {σ : Search}
    {d : Nat} {A B : List Str} (h : Inv recs start end_ σ d A B) (hq : σ.queue = []) :
    ∀ n, ¬ Chain recs start end_ n := by
  intro n hn
  obtain ⟨k, _, hk⟩ := hn.exists_dist
  have hp := h.all_proc hq k end_ hk
  have := h.end_queued hp.1
  rw [hq] at this
  cases this

theorem Inv.step {recs : List (Str × List Str)} {start end_ : Str} {σ : Search} {d : Nat}
    {v : Str} {A B : List Str} (hnd : (recs.map Prod.fst).Nodup)
    (h : Inv recs start end_ σ d (v :: A) B) (hve : v ≠ end_) :
    ∃ B1, Inv recs start end_
      (aMovies recs start v (filmo recs v) { vis := σ.vis, par := σ.par, queue := A ++ B })
      d A B1 := by
  obtain ⟨L, e1, e2, e3, e4, e5⟩ := aMovies_effect recs start v (filmo recs v)
    { vis := σ.vis, par := σ.par, queue := A ++ B }
  simp only at e1 e2 e3 e4 e5
  generalize aMovies recs start v (filmo recs v)
    { vis := σ.vis, par := σ.par, queue := A ++ B } = σ1 at e1 e2 e3 e4 e5 ⊢
  have hvdisc : Disc start σ v := (h.inA v (List.mem_cons_self _ _)).1
  have hmono : ∀ t, σ.par t ≠ none → σ1.par t = σ.par t := by
    intro t ht
    rcases e3 t with h1 | ⟨h1, _⟩
    · exact h1
    · exact absurd h1 ht
  have hdisc : ∀ t, Disc start σ t → Disc start σ1 t := by
    intro t ht
    rcases ht with ht | ht
    · exact Or.inl ht
    · exact Or.inr (by rw [hmono t ht]; exact ht)
  have hvis : ∀ M, σ.vis M = true → σ1.vis M = true := fun M hM => (e2 M).2 (Or.inl hM)
  have hproc : ∀ a, Proc recs start σ a → Proc recs start σ1 a :=
    fun a ha => ⟨hdisc a ha.1, fun M hM => hvis M (ha.2 M hM)⟩
  have hprocv : Proc recs start σ1 v :=
    ⟨hdisc v hvdisc, fun M hM => (e2 M).2 (Or.inr hM)⟩
  have hcast : ∀ M, M ∈ filmo recs v → ∃ cast, (M, cast) ∈ recs ∧ v ∈ cast ∧
      castOf recs M = cast := by
    intro M hM
    obtain ⟨cast, hc1, hc2⟩ := mem_filmo.1 hM
    exact ⟨cast, hc1, hc2, castOf_eq hnd hc1⟩
  have hvdist : ∀ M, M ∈ filmo recs v → σ.vis M = false → IsDist recs start v d := by
    intro M hM hv
    rcases (h.inA v (List.mem_cons_self _ _)).2 with hp | hp
    · have := hp.2 M hM
      rw [hv] at this
      cases this
    · exact hp
  have hnewdist : ∀ t M, σ.par t = none → t ≠ start → M ∈ filmo recs v → σ.vis M = false →
      t ∈ castOf recs M → IsDist recs start t (d + 1) := by
    intro t M hp hts hM hv ht
    obtain ⟨cast, hc1, hc2, hc3⟩ := hcast M hM
    rw [hc3] at ht
    have hvd := hvdist M hM hv
    refine ⟨Chain.step hvd.1 ⟨(M, cast), hc1, hc2, ht⟩, ?_⟩
    intro k hk
    by_contra hlt
    cases k with
    | zero => exact hts hk.eq_of_zero
    | succ k1 =>
        obtain ⟨u, hu, hut⟩ := hk.pred
        obtain ⟨n, hn, hdist⟩ := hu.exists_dist
        have hpu := h.done u n hdist (by omega)
        rcases Proc.costar_disc h hpu hut with hd | hd
        · exact hts hd
        · exact hd hp
  refine ⟨B ++ L, ?_⟩
  refine
    { par_start := ?_, queue_eq := ?_, par_ok := ?_, vis_ok := ?_, todo := ?_, inA := ?_,
      inB := ?_, done := ?_, end_queued := ?_ }
  · rcases e3 start with h1 | ⟨_, h2, _⟩
    · rw [h1]
      exact h.par_start
    · exact absurd rfl h2
  · rw [e1, List.append_assoc]
  · intro t p M hpar
    rcases e3 t with h1 | ⟨h1, h2, M1, hM1, h3, h4, h5⟩
    · rw [h1] at hpar
      obtain ⟨a1, a2, a3⟩ := h.par_ok t p M hpar
      exact ⟨hdisc p a1, a2, a3⟩
    · rw [h5] at hpar
      simp only [Option.some.injEq, Prod.mk.injEq] at hpar
      obtain ⟨rfl, rfl⟩ := hpar
      obtain ⟨cast, hc1, hc2, hc3⟩ := hcast M1 hM1
      rw [hc3] at h4
      exact ⟨hdisc v hvdisc, ⟨cast, hc1, h4, hc2⟩, d, hvdist M1 hM1 h3,
        hnewdist t M1 h1 h2 hM1 h3 (hc3 ▸ h4)⟩
  · intro M cast hM hmem t ht
    by_cases hv : σ.vis M = true
    · exact hdisc t (h.vis_ok M cast hv hmem t ht)
    · have hv' : σ.vis M = false := by simpa using hv
      rcases (e2 M).1 hM with h1 | h1
      · exact absurd h1 hv
      · by_cases hts : t = start
        · exact Or.inl hts
        · have hc := castOf_eq hnd hmem
          exact Or.inr (e5 M h1 hv' t (hc ▸ ht) hts).1
  · intro u hu hnp
    by_cases hud : Disc start σ u
    · have hnp0 : ¬ Proc recs start σ u := fun hp => hnp (hproc u hp)
      rcases h.todo u hud hnp0 with ⟨h1, h2⟩ | ⟨h1, h2⟩
      · rcases List.mem_cons.1 h2 with h3 | h3
        · exact absurd (h3 ▸ hprocv) hnp
        · exact Or.inl ⟨h1, h3⟩
      · exact Or.inr ⟨h1, List.mem_append_left _ h2⟩
    · have hus : u ≠ start := fun hc => hud (Or.inl hc)
      have hup : σ.par u = none := by
        by_contra hc
        exact hud (Or.inr hc)
      rcases e3 u with h1 | ⟨_, _, M1, hM1, h3, h4, _⟩
      · rcases hu with hu | hu
        · exact absurd hu hus
        · rw [h1] at hu
          exact absurd hup hu
      · exact Or.inr ⟨hnewdist u M1 hup hus hM1 h3 h4,
          List.mem_append_right _ (e5 M1 hM1 h3 u h4 hus).2⟩
  · intro u hu
    obtain ⟨a1, a2⟩ := h.inA u (List.mem_cons_of_mem _ hu)
    refine ⟨hdisc u a1, ?_⟩
    rcases a2 with a2 | a2
    · exact Or.inl (hproc u a2)
    · exact Or.inr a2
  · intro u hu
    rcases List.mem_append.1 hu with hu | hu
    · exact hdisc u (h.inB u hu)
    · obtain ⟨h1, M, hM, h2, h3⟩ := e4 u hu
      exact Or.inr (e5 M hM h2 u h3 h1).1
  · intro a n ha hn
    exact hproc a (h.done a n ha hn)
  · intro hd
    rw [e1]
    by_cases hed : Disc start σ end_
    · have := h.end_queued hed
      rw [h.queue_eq] at this
      simp only [List.cons_append, List.mem_cons] at this
      rcases this with h1 | h1
      · exact absurd h1.symm hve
      · exact List.mem_append_left _ h1
    · have hes : end_ ≠ start := fun hc => hed (Or.inl hc)
      have hep : σ.par end_ = none := by
        by_contra hc
        exact hed (Or.inr hc)
      rcases e3 end_ with h1 | ⟨_, _, M1, hM1, h3, h4, _⟩
      · rcases hd with hd | hd
        · exact absurd hd hes
        · rw [h1] at hd
          exact absurd hep hd
      · exact List.mem_append_right _ (e5 M1 hM1 h3 end_ h4 hes).2

/-! ## The memory represents the traversal state -/

theorem Rel.push {recs : List (Str × List Str)} {start : Str} {g : Graph} {q : Queue}
    {σ : Search} (h : Rel recs start g q σ) (t : Str) :
    Rel recs start g (enqueue q t) { vis := σ.vis, par := σ.par, queue := σ.queue ++ [t] } := by
  have hq : (enqueue q t).front.map QueueNode.value = σ.queue ++ [t] ∧
      ((enqueue q t).rear = none ↔ (enqueue q t).front = []) := by
    unfold enqueue
    cases hr : q.rear with
    | none =>
        have hf := h.queue_rear.1 hr
        have hσ : σ.queue = [] := by rw [← h.queue_front, hf]; rfl
        simp [hσ]
    | some x =>
        simp [h.queue_front]
  exact
    { actor_found := h.actor_found
      actor_cell := h.actor_cell
      actor_inj := h.actor_inj
      movie_found := h.movie_found
      movie_cell := h.movie_cell
      movie_inj := h.movie_inj
      queue_front := hq.1
      queue_rear := hq.2 }

theorem Rel.set_parent {recs : List (Str × List Str)} {start : Str} {g : Graph} {q : Queue}
    {σ : Search} (h : Rel recs start g q σ) {t : Str} (ht : Present recs t) (v M : Str) :
    Rel recs start
      ⟨g.movies, g.actors, g.movieHeap, g.actorHeap.set (ptrOf g.actors t)
        { name := (actorCell recs g.actors start σ t).name
          movies := (actorCell recs g.actors start σ t).movies
          is_visited := (actorCell recs g.actors start σ t).is_visited
          parent_movie_name := M
          parent := some (ptrOf g.actors v) }⟩ q
      { vis := σ.vis, par := Function.update σ.par t (some (v, M)), queue := σ.queue } := by
  have hlt : ptrOf g.actors t < g.actorHeap.length :=
    (List.getElem?_eq_some.1 (h.actor_cell t ht)).1
  refine
    { actor_found := h.actor_found
      actor_cell := ?_
      actor_inj := h.actor_inj
      movie_found := h.movie_found
      movie_cell := h.movie_cell
      movie_inj := h.movie_inj
      queue_front := h.queue_front
      queue_rear := h.queue_rear }
  intro a ha
  by_cases hat : a = t
  · subst hat
    simp only [List.getElem?_set_self hlt, actorCell, Function.update_same]
  · have hne : ptrOf g.actors t ≠ ptrOf g.actors a := fun hc => hat (h.actor_inj a t ha ht hc.symm)
    simp only [List.getElem?_set_ne hne, h.actor_cell a ha, actorCell, Function.update_noteq hat]

theorem Rel.set_visited {recs : List (Str × List Str)} {start : Str} {g : Graph} {q : Queue}
    {σ : Search} (h : Rel recs start g q σ) {r : Str × List Str} (hr : r ∈ recs) :
    Rel recs start
      ⟨g.movies, g.actors, g.movieHeap.set (ptrOf g.movies r.1)
        { name := r.1, actors := r.2, is_visited := 1 }, g.actorHeap⟩ q
      { vis := Function.update σ.vis r.1 true, par := σ.par, queue := σ.queue } := by
  have hlt : ptrOf g.movies r.1 < g.movieHeap.length :=
    (List.getElem?_eq_some.1 (h.movie_cell r hr)).1
  refine
    { actor_found := h.actor_found
      actor_cell := h.actor_cell
      actor_inj := h.actor_inj
      movie_found := h.movie_found
      movie_cell := ?_
      movie_inj := h.movie_inj
      queue_front := h.queue_front
      queue_rear := h.queue_rear }
  intro r2 hr2
  by_cases he : r2.1 = r.1
  · have h1 := h.movie_cell r2 hr2
    rw [he, h.movie_cell r hr] at h1
    have h2 := congrArg Movie.actors (Option.some.inj h1)
    simp only [movieCell] at h2
    rw [he, List.getElem?_set_self hlt]
    obtain ⟨n2, c2⟩ := r2
    obtain ⟨n, c⟩ := r
    simp only at he h2
    subst he
    subst h2
    simp only [movieCell, Function.update_same, if_true]
  · have hne : ptrOf g.movies r.1 ≠ ptrOf g.movies r2.1 :=
      fun hc => he (h.movie_inj r2 hr2 r hr hc.symm)
    simp only [List.getElem?_set_ne hne, h.movie_cell r2 hr2, movieCell,
      Function.update_noteq he]

theorem castScan_refines {recs : List (Str × List Str)} {start : Str} (v : Str) (mv : Movie) :
    ∀ (cast : List Str) (g : Graph) (q : Queue) (σ : Search), Rel recs start g q σ →
    (∀ t ∈ cast, Present recs t) →
    ∃ g1 q1, castScan (ptrOf g.actors v) mv cast g q = .ok (g1, q1) ∧ g1.actors = g.actors ∧
      g1.movies = g.movies ∧ Rel recs start g1 q1 (aCast start v mv.name cast σ) := by
  intro cast
  induction cast with
  | nil =>
      intro g q σ h _
      exact ⟨g, q, rfl, rfl, rfl, h⟩
  | cons t rest ih =>
      intro g q σ h hcast
      have ht : Present recs t := hcast t (List.mem_cons_self _ _)
      have hrest : ∀ t ∈ rest, Present recs t := fun t h => hcast t (List.mem_cons_of_mem _ h)
      have hs := h.actor_found t ht
      have hc := h.actor_cell t ht
      by_cases hts : t = start
      · obtain ⟨g1, q1, e1, e2, e3, e4⟩ := ih g q σ h hrest
        subst hts
        refine ⟨g1, q1, ?_, e2, e3, ?_⟩
        · rw [← e1]
          simp [castScan, hs, deref, hc, actorCell]
        · simpa [aCast] using e4
      · by_cases hp : σ.par t = none
        · have h1 := (h.set_parent ht v mv.name).push t
          obtain ⟨g1, q1, e1, e2, e3, e4⟩ := ih _ _ _ h1 hrest
          refine ⟨g1, q1, ?_, e2, e3, ?_⟩
          · rw [← e1]
            simp [castScan, hs, deref, hc, actorCell, hts, hp]
          · simpa [aCast, hts, hp] using e4
        · have h1 := h.push t
          obtain ⟨g1, q1, e1, e2, e3, e4⟩ := ih _ _ _ h1 hrest
          refine ⟨g1, q1, ?_, e2, e3, ?_⟩
          · rw [← e1]
            cases hpar : σ.par t with
            | none => exact absurd hpar hp
            | some pm => simp [castScan, hs, deref, hc, actorCell, hts, hpar]
          · simpa [aCast, hts, hp] using e4

theorem movieScan_refines {recs : List (Str × List Str)} {start : Str}
    (hnd : (recs.map Prod.fst).Nodup) (v : Str) :
    ∀ (Ms : List Str) (g : Graph) (q : Queue) (σ : Search), Rel recs start g q σ →
    (∀ M ∈ Ms, ∃ cast, (M, cast) ∈ recs) →
    ∃ g1 q1, movieScan (ptrOf g.actors v) Ms g q = .ok (g1, q1) ∧ g1.actors = g.actors ∧
      g1.movies = g.movies ∧ Rel recs start g1 q1 (aMovies recs start v Ms σ) := by
  intro Ms
  induction Ms with
  | nil =>
      intro g q σ h _
      exact ⟨g, q, rfl, rfl, rfl, h⟩
  | cons M rest ih =>
      intro g q σ h hMs
      obtain ⟨cast, hr⟩ := hMs M (List.mem_cons_self _ _)
      have hrest : ∀ M ∈ rest, ∃ cast, (M, cast) ∈ recs :=
        fun M h => hMs M (List.mem_cons_of_mem _ h)
      have hs := h.movie_found (M, cast) hr
      have hc := h.movie_cell (M, cast) hr
      simp only at hs hc
      by_cases hv : σ.vis M = true
      · obtain ⟨g1, q1, e1, e2, e3, e4⟩ := ih g q σ h hrest
        refine ⟨g1, q1, ?_, e2, e3, ?_⟩
        · rw [← e1]
          simp [movieScan, hs, deref, hc, movieCell, hv]
        · simpa [aMovies, hv] using e4
      · have hv' : σ.vis M = false := by simpa using hv
        have h1 := h.set_visited hr
        have hcast : ∀ t ∈ cast, Present recs t := fun t ht => ⟨(M, cast), hr, ht⟩
        obtain ⟨g1, q1, e1, e2, e3, e4⟩ := castScan_refines v
          { name := M, actors := cast, is_visited := 1 } cast _ q _ h1 hcast
        simp only at e1 e2 e3 e4
        obtain ⟨g2, q2, f1, f2, f3, f4⟩ := ih g1 q1 _ e4 hrest
        rw [e2] at f1
        refine ⟨g2, q2, ?_, f2.trans e2, f3.trans e3, ?_⟩
        · rw [← f1]
          simp [movieScan, hs, deref, hc, movieCell, hv', e1]
        · have hco : castOf recs M = cast := castOf_eq hnd hr
          simpa [aMovies, hv', hco] using f4

theorem Rel.pop {recs : List (Str × List Str)} {start : Str} {g : Graph} {q : Queue}
    {σ : Search} (h : Rel recs start g q σ) {v : Str} {rest : List Str}
    (hq : σ.queue = v :: rest) :
    ∃ node q1, dequeue q = (some node, q1) ∧ node.value = v ∧ q.front ≠ [] ∧
      Rel recs start g q1 { vis := σ.vis, par := σ.par, queue := rest } := by
  have hf := h.queue_front
  rw [hq] at hf
  cases hfr : q.front with
  | nil =>
      rw [hfr] at hf
      cases hf
  | cons node fr =>
      rw [hfr] at hf
      simp only [List.map_cons, List.cons.injEq] at hf
      refine ⟨node, { front := fr, rear := if fr = [] then none else q.rear }, ?_, hf.1,
        List.cons_ne_nil _ _, ?_⟩
      · simp only [dequeue, hfr]
      · refine
          { actor_found := h.actor_found
            actor_cell := h.actor_cell
            actor_inj := h.actor_inj
            movie_found := h.movie_found
            movie_cell := h.movie_cell
            movie_inj := h.movie_inj
            queue_front := hf.2
            queue_rear := ?_ }
        by_cases hfe : fr = []
        · simp [hfe]
        · have hr : q.rear ≠ none := by
            intro hc
            have := h.queue_rear.1 hc
            rw [hfr] at this
            cases this
          simp [hfe, hr]

theorem Disc.present {recs : List (Str × List Str)} {start end_ : Str} {σ : Search} {d : Nat}
    {A B : List Str} (h : Inv recs start end_ σ d A B) (hstart : Present recs start) {t : Str}
    (ht : Disc start σ t) : Present recs t := by
  by_cases hs : t = start
  · exact hs ▸ hstart
  · rcases ht with ht | ht
    · exact absurd ht hs
    · cases hp : σ.par t with
      | none => exact absurd hp ht
      | some pm =>
          obtain ⟨_, ⟨cast, hc1, hc2, _⟩, _⟩ := h.par_ok t pm.1 pm.2 hp
          exact ⟨(pm.2, cast), hc1, hc2⟩

theorem backtrack_correct {recs : List (Str × List Str)} {start end_ : Str} {g : Graph}
    {q : Queue} {σ : Search} {d : Nat} {A B : List Str} (hrel : Rel recs start g q σ)
    (hinv : Inv recs start end_ σ d A B) (hstart : Present recs start) :
    ∀ (n : Nat) (t : Str) (num : Int) (out : List Line) (fuel : Nat), Disc start σ t →
    IsDist recs start t n → n + 1 ≤ fuel →
    ∃ tr, backtrack g fuel (some (ptrOf g.actors t))
        (actorCell recs g.actors start σ t).parent num out = .ok (num + n + 1, out ++ tr) ∧
      TracePath recs t tr start ∧ tr.length = n := by
  intro n
  induction n with
  | zero =>
      intro t num out fuel _ hdist hfuel
      have hts : t = start := hdist.eq_start
      subst hts
      obtain ⟨k, rfl⟩ : ∃ k, fuel = k + 1 := ⟨fuel - 1, by omega⟩
      refine ⟨[], ?_, TracePath.nil t, rfl⟩
      have hc := hrel.actor_cell t hstart
      simp [backtrack, deref, hc, actorCell, hinv.par_start]
  | succ n ih =>
      intro t num out fuel hdisc hdist hfuel
      have hts : t ≠ start := by
        intro hc
        subst hc
        have := hdist.unique (IsDist.self recs t)
        omega
      have htp := Disc.present hinv hstart hdisc
      rcases hdisc with hd | hd
      · exact absurd hd hts
      · cases hp : σ.par t with
        | none => exact absurd hp hd
        | some pm =>
            obtain ⟨p, M⟩ := pm
            obtain ⟨hpd, ⟨cast, hc1, hc2, hc3⟩, n1, hn1, hn2⟩ := hinv.par_ok t p M hp
            have hnn : n1 = n := by
              have := hn2.unique hdist
              omega
            subst hnn
            have hpp : Present recs p := ⟨(M, cast), hc1, hc3⟩
            obtain ⟨k, rfl⟩ : ∃ k, fuel = k + 1 := ⟨fuel - 1, by omega⟩
            obtain ⟨tr, e1, e2, e3⟩ := ih p (num + 1) (out ++ [Line.hop t p M]) k hpd hn1
              (by omega)
            refine ⟨Line.hop t p M :: tr, ?_, TracePath.cons hc1 hc2 hc3 e2, by simp [e3]⟩
            have hct := hrel.actor_cell t htp
            have hcp := hrel.actor_cell p hpp
            have hpar : (actorCell recs g.actors start σ t).parent = some (ptrOf g.actors p) := by
              simp [actorCell, hp]
            have hname : (actorCell recs g.actors start σ t).parent_movie_name = M := by
              simp [actorCell, hp]
            rw [hpar]
            simp only [backtrack, deref, hct, hcp, hpar, hname]
            rw [show (actorCell recs g.actors start σ t).name = t from rfl,
              show (actorCell recs g.actors start σ p).name = p from rfl, e1]
            simp only [List.append_assoc, List.singleton_append, Res.ok.injEq, Prod.mk.injEq,
              and_true]
            push_cast
            ring

/-! ## The search loop computes the distance -/

theorem bfsLoop_correct {recs : List (Str × List Str)} {start end_ : Str}
    (hnd : (recs.map Prod.fst).Nodup) (hstart : Present recs start) (walk : Nat)
    (hwalk : ∀ n, IsDist recs start end_ n → n + 1 ≤ walk) :
    ∀ (fuel : Nat) (g : Graph) (q : Queue) (σ : Search) (d : Nat) (A B : List Str),
      Rel recs start g q σ → Inv recs start end_ σ d A B →
      σ.queue.length + unvisitedSize recs σ ≤ fuel →
      ∃ res out g1, bfsLoop end_ walk fuel g q = .ok (res, out, g1) ∧
        Outcome recs start end_ res out := by
  intro fuel
  induction fuel with
  | zero =>
      intro g q σ d A B hrel hinv hfuel
      have hq : σ.queue = [] := by
        cases hσ : σ.queue with
        | nil => rfl
        | cons v rest =>
            rw [hσ] at hfuel
            simp at hfuel
      have hf : q.front = [] := by
        have := hrel.queue_front
        rw [hq] at this
        simpa using this
      exact ⟨-1, [], g, by simp [bfsLoop, hf], Or.inr ⟨rfl, rfl, hinv.unreachable_of_empty hq⟩⟩
  | succ k ih =>
      intro g q σ d A B hrel hinv hfuel
      cases hσ : σ.queue with
      | nil =>
          have hf : q.front = [] := by
            have := hrel.queue_front
            rw [hσ] at this
            simpa using this
          exact ⟨-1, [], g, by simp [bfsLoop, hf],
            Or.inr ⟨rfl, rfl, hinv.unreachable_of_empty hσ⟩⟩
      | cons v rest =>
          obtain ⟨node, q1, hdq, hval, hfne, hrel1⟩ := hrel.pop hσ
          obtain ⟨d1, A1, B1, hinv1, hrest⟩ := hinv.nonempty_A hσ
          have hvd : Disc start σ v := (hinv1.inA v (List.mem_cons_self _ _)).1
          have hvp : Present recs v := Disc.present hinv1 hstart hvd
          have hs := hrel.actor_found v hvp
          have hc := hrel.actor_cell v hvp
          by_cases hve : v = end_
          · obtain ⟨n, hn⟩ := Disc.has_dist hinv1 hvd
            obtain ⟨tr, e1, e2, e3⟩ := backtrack_correct hrel hinv1 hstart n v 0 [] walk hvd hn
              (hwalk n (hve ▸ hn))
            refine ⟨(n : Int), tr, g, ?_, Or.inl ⟨n, rfl, hve ▸ hn, hve ▸ e2, e3⟩⟩
            simp only [bfsLoop, hfne, if_false, hdq, hval, hve, if_true, foundEnd]
            rw [← hve, hs]
            simp only [deref, hc, e1, List.nil_append]
            simp
          · subst hrest
            obtain ⟨B2, hinv2⟩ := hinv1.step hnd hve
            have hMs : ∀ M ∈ filmo recs v, ∃ cast, (M, cast) ∈ recs := by
              intro M hM
              obtain ⟨cast, hc1, _⟩ := mem_filmo.1 hM
              exact ⟨cast, hc1⟩
            obtain ⟨g1, q2, f1, f2, f3, f4⟩ := movieScan_refines hnd v (filmo recs v) g q1 _
              hrel1 hMs
            have hmeas := aMovies_measure recs start v (filmo recs v)
              { vis := σ.vis, par := σ.par, queue := A1 ++ B1 }
            have hfuel2 : (aMovies recs start v (filmo recs v)
                { vis := σ.vis, par := σ.par, queue := A1 ++ B1 }).queue.length +
                unvisitedSize recs (aMovies recs start v (filmo recs v)
                  { vis := σ.vis, par := σ.par, queue := A1 ++ B1 }) ≤ k := by
              have hu : unvisitedSize recs { vis := σ.vis, par := σ.par, queue := A1 ++ B1 } =
                  unvisitedSize recs σ := rfl
              rw [hu] at hmeas
              rw [hσ] at hfuel
              simp only [List.length_cons] at hfuel
              simp only at hmeas
              omega
            obtain ⟨res, out, g2, r1, r2⟩ := ih g1 q2 _ d1 A1 B2 f4 hinv2 hfuel2
            refine ⟨res, out, g2, ?_, r2⟩
            rw [← r1]
            simp only [bfsLoop, hfne, if_false, hdq, hval, hve, hs, deref, hc]
            rw [show (actorCell recs g.actors start σ v).movies = filmo recs v from rfl, f1]

/-! ## The freshly built graph represents the initial traversal state -/

theorem Built.actor_clean {m : Nat} {recs : List (Str × List Str)} {g : Graph}
    (h : Built m recs g) (hA : ActorKeysDistinct recs) {a : Str} (ha : Present recs a) :
    search g.actors (hash a) = .ok (some { key := hashKey a, value := ptrOf g.actors a }) ∧
      g.actorHeap[ptrOf g.actors a]? = some
        { name := a, movies := filmo recs a, is_visited := 0, parent_movie_name := [],
          parent := none } := by
  obtain ⟨o, i, hf, h1, h2⟩ := h.actor_present ha
  have hp : ptrOf g.actors a = i := by simp [ptrOf, h1]
  rw [hp]
  refine ⟨h1, ?_⟩
  rw [h2]
  obtain ⟨hom, hok⟩ := find?_key_mem hf
  have hop : Present recs o.1 := by
    obtain ⟨cast, hc1, hc2⟩ := mem_occurrences.1 (show (o.1, o.2) ∈ occurrences recs from hom)
    exact ⟨(o.2, cast), hc1, hc2⟩
  have hname : o.1 = a := hA o.1 a hop ha hok
  have hfilter : (occurrences recs).filter (fun o1 => decide (hashKey o1.1 = hashKey a)) =
      (occurrences recs).filter (fun o1 => decide (o1.1 = a)) := by
    apply List.filter_congr
    intro o1 ho1
    have hp1 : Present recs o1.1 := by
      obtain ⟨cast, hc1, hc2⟩ := mem_occurrences.1 (show (o1.1, o1.2) ∈ occurrences recs from ho1)
      exact ⟨(o1.2, cast), hc1, hc2⟩
    by_cases he : o1.1 = a
    · simp [he]
    · have : hashKey o1.1 ≠ hashKey a := fun hc => he (hA o1.1 a hp1 ha hc)
      simp [he, this]
  simp only [builtActor, hname, hfilter, filmo]

theorem Built.movie_clean {m : Nat} {recs : List (Str × List Str)} {g : Graph}
    (h : Built m recs g) (hnd : (recs.map Prod.fst).Nodup) (hM : MovieKeysDistinct recs)
    {r : Str × List Str} (hr : r ∈ recs) :
    search g.movies (hash r.1) = .ok (some { key := hashKey r.1, value := ptrOf g.movies r.1 }) ∧
      g.movieHeap[ptrOf g.movies r.1]? = some { name := r.1, actors := r.2, is_visited := 0 } := by
  have hs := h.movies_spec r.1
  cases hf : recs.reverse.find? (fun r1 => decide (hashKey r1.1 = hashKey r.1)) with
  | none =>
      have := List.find?_eq_none.1 hf r (List.mem_reverse.2 hr)
      simp at this
  | some r1 =>
      rw [hf] at hs
      obtain ⟨i, h1, h2⟩ := hs
      have hp : ptrOf g.movies r.1 = i := by simp [ptrOf, h1]
      obtain ⟨hm1, hk1⟩ := find?_key_mem hf
      have hr1 : r1 ∈ recs := List.mem_reverse.1 hm1
      have hn : r1.1 = r.1 := hM r1 hr1 r hr hk1
      have hc : r1.2 = r.2 :=
        eq_of_nodup_fst hnd (show (r.1, r1.2) ∈ recs from hn ▸ hr1) (show (r.1, r.2) ∈ recs from hr)
      rw [hp]
      exact ⟨h1, by rw [h2, hn, hc]⟩

theorem unvisitedSize_init (recs : List (Str × List Str)) (par : Str → Option (Str × Str))
    (queue : List Str) :
    unvisitedSize recs { vis := fun _ => false, par := par, queue := queue } =
      (recs.map (fun r => r.2.length)).sum := by
  simp [unvisitedSize]

theorem Built.rel {m : Nat} {recs : List (Str × List Str)} {g : Graph} (h : Built m recs g)
    (hnd : (recs.map Prod.fst).Nodup) (hA : ActorKeysDistinct recs)
    (hM : MovieKeysDistinct recs) {start : Str} (hs : Present recs start) :
    Rel recs start
      ⟨g.movies, g.actors, g.movieHeap, g.actorHeap.set (ptrOf g.actors start)
        { name := start, movies := filmo recs start, is_visited := 1, parent_movie_name := [],
          parent := none }⟩
      (enqueue create_queue start)
      { vis := fun _ => false, par := fun _ => none, queue := [start] } := by
  have hinj : ∀ a b, Present recs a → Present recs b →
      ptrOf g.actors a = ptrOf g.actors b → a = b := by
    intro a b ha hb hab
    have h1 := (h.actor_clean hA ha).2
    have h2 := (h.actor_clean hA hb).2
    rw [hab, h2] at h1
    have := congrArg Actor.name (Option.some.inj h1)
    exact this.symm
  have hlt : ptrOf g.actors start < g.actorHeap.length :=
    (List.getElem?_eq_some.1 (h.actor_clean hA hs).2).1
  refine
    { actor_found := fun a ha => (h.actor_clean hA ha).1
      actor_cell := ?_
      actor_inj := hinj
      movie_found := fun r hr => (h.movie_clean hnd hM hr).1
      movie_cell := ?_
      movie_inj := ?_
      queue_front := rfl
      queue_rear := by simp [enqueue, create_queue] }
  · intro a ha
    by_cases has : a = start
    · subst has
      simp only [List.getElem?_set_self hlt, actorCell, if_true]
    · have hne : ptrOf g.actors start ≠ ptrOf g.actors a :=
        fun hc => has (hinj a start ha hs hc.symm)
      simp only [List.getElem?_set_ne hne, (h.actor_clean hA ha).2, actorCell, if_neg has]
  · intro r hr
    rw [(h.movie_clean hnd hM hr).2]
    simp [movieCell]
  · intro r1 hr1 r2 hr2 h12
    have h1 := (h.movie_clean hnd hM hr1).2
    have h2 := (h.movie_clean hnd hM hr2).2
    rw [h12, h2] at h1
    have := congrArg Movie.name (Option.some.inj h1)
    exact this.symm

theorem Built.search_absent {m : Nat} {recs : List (Str × List Str)} {g : Graph}
    (h : Built m recs g) {s : Str} (hs : ∀ a, Present recs a → hashKey a ≠ hashKey s) :
    search g.actors (hash s) = .ok none := by
  have h1 := h.actors_spec s
  cases hf : (occurrences recs).find? (fun o => decide (hashKey o.1 = hashKey s)) with
  | none =>
      rw [hf] at h1
      exact h1
  | some o =>
      obtain ⟨hom, hok⟩ := find?_key_mem hf
      obtain ⟨cast, hc1, hc2⟩ := mem_occurrences.1 (show (o.1, o.2) ∈ occurrences recs from hom)
      exact absurd hok (hs o.1 ⟨(o.2, cast), hc1, hc2⟩)

theorem find_distance_correct {m : Nat} {recs : List (Str × List Str)} {g : Graph}
    {start : Str} (end_ : Str) (h : Built m recs g) (hnd : (recs.map Prod.fst).Nodup)
    (hA : ActorKeysDistinct recs) (hM : MovieKeysDistinct recs) (hs : Present recs start)
    {fuel : Nat} (hfuel : loopBudget recs ≤ fuel)
    (hwalk : ∀ n, IsDist recs start end_ n → n + 1 ≤ fuel) :
    ∃ res out g1, find_distance fuel start end_ g = .ok (res, out, g1) ∧
      (Outcome recs start end_ res out ∨
        (¬ Present recs end_ ∧ res = -1 ∧ out = [Line.notFound])) := by
  obtain ⟨hs1, hs2⟩ := h.actor_clean hA hs
  obtain ⟨r, hr⟩ := search_total h.actors_ok end_
  cases r with
  | none =>
      refine ⟨-1, [Line.notFound], g, find_distance_of_end_none fuel hs1 hr, Or.inr ⟨?_, rfl, rfl⟩⟩
      intro he
      rw [(h.actor_clean hA he).1] at hr
      cases hr
  | some e =>
      have hrel := h.rel hnd hA hM hs
      have hinv := Inv.init recs start end_
      have hmeas : ([start] : List Str).length + unvisitedSize recs
          { vis := fun _ => false, par := fun _ => none, queue := [start] } ≤ fuel := by
        rw [unvisitedSize_init]
        unfold loopBudget at hfuel
        simpa using hfuel
      obtain ⟨res, out, g1, e1, e2⟩ := bfsLoop_correct hnd hs fuel hwalk fuel _ _ _ 0 [start] []
        hrel hinv hmeas
      refine ⟨res, out, g1, ?_, Or.inl e2⟩
      rw [← e1]
      simp only [find_distance, hs1, hr, deref, hs2]

/-! ## Distances on the freshly built graph -/

theorem Chain.present_end {recs : List (Str × List Str)} {a b : Str} {n : Nat}
    (h : Chain recs a b n) (ha : Present recs a) : Present recs b := by
  cases h with
  | refl => exact ha
  | step _ hc =>
      obtain ⟨r, hr, _, hb⟩ := hc
      exact ⟨r, hr, hb⟩

theorem loopBudget_pos (recs : List (Str × List Str)) : 1 ≤ loopBudget recs := by
  unfold loopBudget
  omega

theorem find_distance_dist {m : Nat} {recs : List (Str × List Str)} {g : Graph}
    {start end_ : Str} {d : Nat} (h : Built m recs g) (hnd : (recs.map Prod.fst).Nodup)
    (hA : ActorKeysDistinct recs) (hM : MovieKeysDistinct recs) (hs : Present recs start)
    (hd : IsDist recs start end_ d) {fuel : Nat} (hfuel : loopBudget recs + d ≤ fuel) :
    ∃ out g1, find_distance fuel start end_ g = .ok ((d : Int), out, g1) ∧
      TracePath recs end_ out start ∧ out.length = d := by
  have hb := loopBudget_pos recs
  obtain ⟨res, out, g1, e1, e2⟩ := find_distance_correct end_ h hnd hA hM hs
    (show loopBudget recs ≤ fuel by omega)
    (fun n hn => by have := hn.unique hd; omega)
  rcases e2 with e2 | ⟨h1, _, _⟩
  · rcases e2 with ⟨n, h1, h2, h3, h4⟩ | ⟨_, _, h3⟩
    · have hnd' : n = d := h2.unique hd
      subst hnd'
      exact ⟨out, g1, by rw [e1, h1], h3, h4⟩
    · exact absurd hd.1 (h3 d)
  · exact absurd (hd.1.present_end hs) h1

theorem find_distance_none {m : Nat} {recs : List (Str × List Str)} {g : Graph}
    {start end_ : Str} (h : Built m recs g) (hnd : (recs.map Prod.fst).Nodup)
    (hA : ActorKeysDistinct recs) (hM : MovieKeysDistinct recs) (hs : Present recs start)
    (he : Present recs end_) (hno : ∀ n, ¬ Chain recs start end_ n) {fuel : Nat}
    (hfuel : loopBudget recs ≤ fuel) :
    ∃ g1, find_distance fuel start end_ g = .ok (-1, [], g1) := by
  obtain ⟨res, out, g1, e1, e2⟩ := find_distance_correct end_ h hnd hA hM hs hfuel
    (fun n hn => absurd hn.1 (hno n))
  rcases e2 with e2 | ⟨h1, _, _⟩
  · rcases e2 with ⟨n, _, h2, _, _⟩ | ⟨h1, h2, _⟩
    · exact absurd h2.1 (hno n)
    · exact ⟨g1, by rw [e1, h1, h2]⟩
  · exact absurd he h1

theorem Chain.eq_of_isolated {recs : List (Str × List Str)} {a b : Str} {n : Nat}
    (hiso : ∀ c, Costar recs a c → c = a) (h : Chain recs a b n) : b = a := by
  induction h with
  | refl => rfl
  | step _ hc ih =>
      rw [ih] at hc
      exact hiso _ hc

theorem present_iff_mem {recs : List (Str × List Str)} {a : Str} :
    Present recs a ↔ a ∈ recs.flatMap (fun r => r.2) := by
  simp only [Present, List.mem_flatMap]

theorem ActorKeysDistinct_of_list {recs : List (Str × List Str)}
    (h : ∀ a ∈ recs.flatMap (fun r => r.2), ∀ b ∈ recs.flatMap (fun r => r.2),
      hashKey a = hashKey b → a = b) : ActorKeysDistinct recs :=
  fun a b ha hb hab => h a (present_iff_mem.1 ha) b (present_iff_mem.1 hb) hab

theorem freshGraph_built {m : Nat} {lines : List (List Str)} {g : Graph}
    (hg : freshGraph m lines = .ok g) : Built m (records lines) g := by
  have hm : 0 < m := by
    rcases Nat.eq_zero_or_pos m with h0 | h0
    · subst h0
      simp [freshGraph, create_hash_table] at hg
    · exact h0
  obtain ⟨g1, e1, e2⟩ := freshGraph_spec hm lines (freshGraph_fits hg)
  rw [hg] at e1
  cases e1
  exact e2

/-- C1: for records within the capacity of the name buffers (`RecordsFit`: every copied name
has fewer than `MAX_INPUT` = 255 bytes), with pairwise distinct movie names, in which no two
distinct cast names and no two distinct movie names have the same hash key, the hash key of a
name being the key the index stores and compares, `|hash(name)|`: the graph is built (tables
of `m ≥ 1` cells), and for a present actor `start` and an actor `end_` at minimum chain length
`d` from it (which makes `end_` present too), `find_distance(start, end_)` on the freshly built
graph returns the non-negative integer `d`, for every budget of at least `loopBudget + d`. -/
theorem find_distance_shortest (m : Nat) (lines : List (List Str)) (start end_ : Str) (d : Nat)
    (hm : 0 < m) (hfit : RecordsFit (records lines))
    (hnd : ((records lines).map Prod.fst).Nodup)
    (hA : ActorKeysDistinct (records lines)) (hM : MovieKeysDistinct (records lines))
    (hs : Present (records lines) start) (hd : IsDist (records lines) start end_ d) :
    ∃ g, freshGraph m lines = .ok g ∧ ∀ fuel, loopBudget (records lines) + d ≤ fuel →
      ∃ out g1, find_distance fuel start end_ g = .ok ((d : Int), out, g1) ∧ 0 ≤ (d : Int) := by
  obtain ⟨g, hg, hb⟩ := freshGraph_spec hm lines hfit
  refine ⟨g, hg, ?_⟩
  intro fuel hfuel
  obtain ⟨out, g1, e1, _, _⟩ := find_distance_dist hb hnd hA hM hs hd hfuel
  exact ⟨out, g1, e1, Int.natCast_nonneg d⟩

/-- C2: for records within the capacity of the name buffers (`RecordsFit`: every copied name
has fewer than `MAX_INPUT` = 255 bytes), with pairwise distinct movie names and no hash-key
collisions among cast names or among movie names (the hash key of a name is the stored key
`|hash(name)|`): the graph is built (tables of `m ≥ 1` cells), and for two present actors that
no chain of co-starring actors connects (in particular when the only co-star of `start` is
`start` itself and `end_` is another actor), `find_distance(start, end_)` on the freshly built
graph returns -1 and prints nothing, for every budget of at least `loopBudget`. -/
theorem find_distance_noPath (m : Nat) (lines : List (List Str)) (start end_ : Str)
    (hm : 0 < m) (hfit : RecordsFit (records lines))
    (hnd : ((records lines).map Prod.fst).Nodup)
    (hA : ActorKeysDistinct (records lines)) (hM : MovieKeysDistinct (records lines))
    (hs : Present (records lines) start) (he : Present (records lines) end_)
    (hno : (∀ n, ¬ Chain (records lines) start end_ n) ∨
      ((∀ b, Costar (records lines) start b → b = start) ∧ end_ ≠ start)) :
    ∃ g, freshGraph m lines = .ok g ∧ ∀ fuel, loopBudget (records lines) ≤ fuel →
      ∃ g1, find_distance fuel start end_ g = .ok (-1, [], g1) := by
  obtain ⟨g, hg, hb⟩ := freshGraph_spec hm lines hfit
  refine ⟨g, hg, ?_⟩
  intro fuel hfuel
  have hno' : ∀ n, ¬ Chain (records lines) start end_ n := by
    rcases hno with h | ⟨h1, h2⟩
    · exact h
    · exact fun n hn => h2 (hn.eq_of_isolated h1)
  exact find_distance_none hb hnd hA hM hs he hno' hfuel

theorem chainLines_fit : RecordsFit (records chainLines) :=
  freshGraph_fits freshGraph_chainLines

theorem isolatedLines_fit : RecordsFit (records isolatedLines) := by
  unfold RecordsFit
  decide!

theorem collisionLines_fit : RecordsFit (records collisionLines) := by
  unfold RecordsFit
  decide!

theorem sameMovieLines_fit : RecordsFit (records sameMovieLines) := by
  unfold RecordsFit
  decide!

theorem sameKeyLines_fit : RecordsFit (records sameKeyLines) := by
  unfold RecordsFit
  decide!

theorem chainLines_nodup : ((records chainLines).map Prod.fst).Nodup := by decide!

theorem chainLines_actorKeys : ActorKeysDistinct (records chainLines) :=
  ActorKeysDistinct_of_list (by decide!)

theorem chainLines_movieKeys : MovieKeysDistinct (records chainLines) := by
  unfold MovieKeysDistinct
  decide!

theorem chainLines_costar_AB : Costar (records chainLines) (cstr "A") (cstr "B") :=
  ⟨(cstr "M1", [cstr "A", cstr "B"]), by decide!, by decide!, by decide!⟩

theorem chainLines_costar_BC : Costar (records chainLines) (cstr "B") (cstr "C") :=
  ⟨(cstr "M2", [cstr "B", cstr "C"]), by decide!, by decide!, by decide!⟩

theorem chainLines_present_A : Present (records chainLines) (cstr "A") :=
  ⟨(cstr "M1", [cstr "A", cstr "B"]), by decide!, by decide!⟩

theorem chainLines_dist_AC : IsDist (records chainLines) (cstr "A") (cstr "C") 2 := by
  refine ⟨Chain.step (Chain.step Chain.refl chainLines_costar_AB) chainLines_costar_BC, ?_⟩
  intro k hk
  match k, hk with
  | 0, hk => exact absurd hk.eq_of_zero (by decide!)
  | 1, hk =>
      obtain ⟨b, hb, hbc⟩ := hk.pred
      rw [hb.eq_of_zero] at hbc
      have hno : ¬ Costar (records chainLines) (cstr "A") (cstr "C") := by
        unfold Costar
        decide!
      exact absurd hbc hno
  | k + 2, _ => omega

theorem find_distance_shortest_witness :
    ∃ g, freshGraph 2 chainLines = .ok g ∧ ∀ fuel, loopBudget (records chainLines) + 2 ≤ fuel →
      ∃ out g1, find_distance fuel (cstr "A") (cstr "C") g = .ok (((2 : Nat) : Int), out, g1) ∧
        0 ≤ ((2 : Nat) : Int) :=
  find_distance_shortest 2 chainLines (cstr "A") (cstr "C") 2 (by decide) chainLines_fit
    chainLines_nodup
    chainLines_actorKeys chainLines_movieKeys chainLines_present_A chainLines_dist_AC

theorem find_distance_noPath_witness :
    ∃ g, freshGraph 2 isolatedLines = .ok g ∧ ∀ fuel, loopBudget (records isolatedLines) ≤ fuel →
      ∃ g1, find_distance fuel (cstr "A") (cstr "C") g = .ok (-1, [], g1) :=
  find_distance_noPath 2 isolatedLines (cstr "A") (cstr "C") (by decide) isolatedLines_fit
    (by decide!)
    (ActorKeysDistinct_of_list (by decide!)) (by unfold MovieKeysDistinct; decide!)
    ⟨(cstr "M1", [cstr "A"]), by decide!, by decide!⟩
    ⟨(cstr "M2", [cstr "B", cstr "C"]), by decide!, by decide!⟩
    (Or.inr ⟨by
      intro b hb
      obtain ⟨r, hr, ha, hbr⟩ := hb
      have hr2 : r = (cstr "M1", [cstr "A"]) ∨ r = (cstr "M2", [cstr "B", cstr "C"]) := by
        have : records isolatedLines =
            [(cstr "M1", [cstr "A"]), (cstr "M2", [cstr "B", cstr "C"])] := by decide!
        rw [this] at hr
        simpa using hr
      rcases hr2 with rfl | rfl
      · simpa using hbr
      · exact absurd ha (by decide!), by decide!⟩)

theorem find_distance_run_outcome {m : Nat} {recs : List (Str × List Str)} {g g1 : Graph}
    {start end_ : Str} {fuel : Nat} {d : Int} {out : List Line} (h : Built m recs g)
    (hnd : (recs.map Prod.fst).Nodup) (hA : ActorKeysDistinct recs)
    (hM : MovieKeysDistinct recs) (hs : Present recs start)
    (hrun : find_distance fuel start end_ g = .ok (d, out, g1)) :
    Outcome recs start end_ d out ∨ (¬ Present recs end_ ∧ d = -1 ∧ out = [Line.notFound]) := by
  classical
  have hne : find_distance fuel start end_ g ≠ .timeout := by
    rw [hrun]
    exact fun hc => by cases hc
  by_cases hex : ∃ n, IsDist recs start end_ n
  · obtain ⟨n, hn⟩ := hex
    obtain ⟨res, out1, g2, e1, e2⟩ := find_distance_correct end_ h hnd hA hM hs
      (show loopBudget recs ≤ fuel + loopBudget recs + n + 1 by omega)
      (fun k hk => by have := hk.unique hn; omega)
    rw [find_distance_mono start end_ g (show fuel ≤ fuel + loopBudget recs + n + 1 by omega) hne,
      hrun] at e1
    cases e1
    exact e2
  · obtain ⟨res, out1, g2, e1, e2⟩ := find_distance_correct end_ h hnd hA hM hs
      (show loopBudget recs ≤ fuel + loopBudget recs by omega)
      (fun k hk => absurd ⟨k, hk⟩ hex)
    rw [find_distance_mono start end_ g (show fuel ≤ fuel + loopBudget recs by omega) hne,
      hrun] at e1
    cases e1
    exact e2

/-- C4 as stated fails: the records `M1/ab/Y` have distinct movie names and no two cast names or
movie names with the same hash key, yet `find_distance("Bc", "Y")` on the graph built from them
returns 1 with the trace `Y - ab: "M1"`, which does not lead to `Bc`: the name `Bc` is in no
cast and has the hash key of `ab`. -/
theorem trace_misses_start :
    ((records collisionLines).map Prod.fst).Nodup ∧ ActorKeysDistinct (records collisionLines) ∧
      MovieKeysDistinct (records collisionLines) ∧
      ∃ g g1, freshGraph 2 collisionLines = .ok g ∧
        find_distance 2 (cstr "Bc") (cstr "Y") g =
          .ok (1, [Line.hop (cstr "Y") (cstr "ab") (cstr "M1")], g1) ∧
        ¬ TracePath (records collisionLines) (cstr "Y")
            [Line.hop (cstr "Y") (cstr "ab") (cstr "M1")] (cstr "Bc") := by
  refine ⟨by decide!, ActorKeysDistinct_of_list (by decide!),
    by unfold MovieKeysDistinct; decide!, ?_⟩
  have hg : ∃ g, freshGraph 2 collisionLines = .ok g := by
    obtain ⟨g, hg, _⟩ := freshGraph_spec (show 0 < 2 by decide) collisionLines
      collisionLines_fit
    exact ⟨g, hg⟩
  obtain ⟨g, hg⟩ := hg
  have hrun : (match freshGraph 2 collisionLines with
      | .ok g => answer (find_distance 2 (cstr "Bc") (cstr "Y") g)
      | _ => none) = some (1, [Line.hop (cstr "Y") (cstr "ab") (cstr "M1")]) := by
    decide!
  rw [hg] at hrun
  obtain ⟨g1, hg1⟩ := answer_eq_some hrun
  refine ⟨g, g1, hg, hg1, ?_⟩
  intro ht
  cases ht with
  | cons _ _ _ h2 => cases h2

/-- C4 amended: on the graph freshly built from records with pairwise distinct movie names and
no hash-key collisions among cast names or among movie names, when moreover no cast name other
than `start` has the hash key of `start`, every run of `find_distance(start, end_)` that returns
`d ≥ 0` has printed exactly `d` hops `(x₀, x₁, m₀), …, (x_{d-1}, x_d, m_{d-1})` with `x₀ = end_`
and `x_d = start`, and both actors of every hop are in the cast of the record of its movie. -/
theorem find_distance_trace (m : Nat) (lines : List (List Str)) (start end_ : Str) (fuel : Nat)
    (d : Int) (out : List Line) (g g1 : Graph)
    (hnd : ((records lines).map Prod.fst).Nodup)
    (hA : ActorKeysDistinct (records lines)) (hM : MovieKeysDistinct (records lines))
    (hstart : ∀ a, Present (records lines) a → hashKey a = hashKey start → a = start)
    (hg : freshGraph m lines = .ok g)
    (hrun : find_distance fuel start end_ g = .ok (d, out, g1)) (hd : 0 ≤ d) :
    (out.length : Int) = d ∧ TracePath (records lines) end_ out start := by
  have hb := freshGraph_built hg
  by_cases hs : Present (records lines) start
  · rcases find_distance_run_outcome hb hnd hA hM hs hrun with e | ⟨_, e, _⟩
    · rcases e with ⟨n, h1, _, h3, h4⟩ | ⟨h1, _, _⟩
      · exact ⟨by rw [h4, h1], h3⟩
      · omega
    · omega
  · have habs : search g.actors (hash start) = .ok none :=
      hb.search_absent (fun a ha hk => hs (hstart a ha hk ▸ ha))
    rw [find_distance_of_start_none end_ fuel habs] at hrun
    cases hrun
    omega

theorem find_distance_trace_witness :
    ∃ g1, find_distance 4 (cstr "A") (cstr "C") chainGraph =
        .ok (2, [Line.hop (cstr "C") (cstr "B") (cstr "M2"),
                 Line.hop (cstr "B") (cstr "A") (cstr "M1")], g1) ∧
      (([Line.hop (cstr "C") (cstr "B") (cstr "M2"),
          Line.hop (cstr "B") (cstr "A") (cstr "M1")].length : Int) = 2 ∧
        TracePath (records chainLines) (cstr "C")
          [Line.hop (cstr "C") (cstr "B") (cstr "M2"),
           Line.hop (cstr "B") (cstr "A") (cstr "M1")] (cstr "A")) := by
  have h4 : answer (find_distance 4 (cstr "A") (cstr "C") chainGraph) =
      some (2, [Line.hop (cstr "C") (cstr "B") (cstr "M2"),
                Line.hop (cstr "B") (cstr "A") (cstr "M1")]) := by
    decide!
  obtain ⟨g1, hg1⟩ := answer_eq_some h4
  exact ⟨g1, hg1, find_distance_trace 2 chainLines (cstr "A") (cstr "C") 4 2 _ chainGraph g1
    chainLines_nodup chainLines_actorKeys chainLines_movieKeys
    (fun a ha hk => chainLines_actorKeys a (cstr "A") ha chainLines_present_A hk)
    freshGraph_chainLines hg1 (by decide)⟩

/-- C5 as stated fails, in two ways.  With the records `M/A/B` and `M/B/C` (one movie name
twice) `A` and `B` co-star, `find_distance("A", "B")` returns 1 and `find_distance("B", "A")`
returns -1.  With the records `M1/ab/X` and `M2/Bc/Y` (distinct movie names, `ab` and `Bc` have
the same hash) `Bc` and `Y` co-star, `find_distance("Bc", "Y")` returns 1 and
`find_distance("Y", "Bc")` returns -1. -/
theorem distance_not_symmetric :
    (∃ g, freshGraph 2 sameMovieLines = .ok g ∧
      Costar (records sameMovieLines) (cstr "A") (cstr "B") ∧
      ∀ fuel, 2 ≤ fuel →
        answer (find_distance fuel (cstr "A") (cstr "B") g) =
            some (1, [Line.hop (cstr "B") (cstr "A") (cstr "M")]) ∧
          answer (find_distance fuel (cstr "B") (cstr "A") g) = some (-1, [])) ∧
    (∃ g, freshGraph 2 sameKeyLines = .ok g ∧
      ((records sameKeyLines).map Prod.fst).Nodup ∧
      Costar (records sameKeyLines) (cstr "Bc") (cstr "Y") ∧
      ∀ fuel, 4 ≤ fuel →
        answer (find_distance fuel (cstr "Bc") (cstr "Y") g) =
            some (1, [Line.hop (cstr "Y") (cstr "ab") (cstr "M2")]) ∧
          answer (find_distance fuel (cstr "Y") (cstr "Bc") g) = some (-1, [])) := by
  have lift : ∀ (g : Graph) (a b : Str) (k : Nat) (r : Int × List Line),
      answer (find_distance k a b g) = some r → ∀ fuel, k ≤ fuel →
      answer (find_distance fuel a b g) = some r := by
    intro g a b k r hr fuel hf
    have hne : find_distance k a b g ≠ .timeout := by
      intro hc
      rw [hc] at hr
      cases hr
    rw [find_distance_mono a b g hf hne, hr]
  constructor
  · obtain ⟨g, hg, _⟩ := freshGraph_spec (show 0 < 2 by decide) sameMovieLines
      sameMovieLines_fit
    have h1 : (match freshGraph 2 sameMovieLines with
        | .ok g => answer (find_distance 2 (cstr "A") (cstr "B") g)
        | _ => none) = some (1, [Line.hop (cstr "B") (cstr "A") (cstr "M")]) := by
      decide!
    have h2 : (match freshGraph 2 sameMovieLines with
        | .ok g => answer (find_distance 2 (cstr "B") (cstr "A") g)
        | _ => none) = some (-1, []) := by
      decide!
    rw [hg] at h1 h2
    refine ⟨g, hg, ⟨(cstr "M", [cstr "A", cstr "B"]), by decide!, by decide!, by decide!⟩, ?_⟩
    intro fuel hf
    exact ⟨lift g _ _ 2 _ h1 fuel hf, lift g _ _ 2 _ h2 fuel hf⟩
  · obtain ⟨g, hg, _⟩ := freshGraph_spec (show 0 < 2 by decide) sameKeyLines
      sameKeyLines_fit
    have h1 : (match freshGraph 2 sameKeyLines with
        | .ok g => answer (find_distance 4 (cstr "Bc") (cstr "Y") g)
        | _ => none) = some (1, [Line.hop (cstr "Y") (cstr "ab") (cstr "M2")]) := by
      decide!
    have h2 : (match freshGraph 2 sameKeyLines with
        | .ok g => answer (find_distance 4 (cstr "Y") (cstr "Bc") g)
        | _ => none) = some (-1, []) := by
      decide!
    rw [hg] at h1 h2
    refine ⟨g, hg, by decide!,
      ⟨(cstr "M2", [cstr "Bc", cstr "Y"]), by decide!, by decide!, by decide!⟩, ?_⟩
    intro fuel hf
    exact ⟨lift g _ _ 4 _ h1 fuel hf, lift g _ _ 4 _ h2 fuel hf⟩

/-- C5 amended: for records within the capacity of the name buffers (`RecordsFit`: every
copied name has fewer than `MAX_INPUT` = 255 bytes), with pairwise distinct movie names and no
hash-key collisions among cast names or among movie names (the hash key of a name is the stored
key `|hash(name)|`), and present actors `a` and `b` connected by a chain of `n` co-starring
edges, the graph is built and `find_distance(a, b)` and
`find_distance(b, a)`, each on the freshly built graph, return the same value `d`, for every
budget of at least `loopBudget + n`. -/
theorem find_distance_symmetric (m : Nat) (lines : List (List Str)) (a b : Str) (n : Nat)
    (hm : 0 < m) (hfit : RecordsFit (records lines))
    (hnd : ((records lines).map Prod.fst).Nodup)
    (hA : ActorKeysDistinct (records lines)) (hM : MovieKeysDistinct (records lines))
    (ha : Present (records lines) a) (hconn : Chain (records lines) a b n) :
    ∃ g, freshGraph m lines = .ok g ∧ ∃ d : Nat, ∀ fuel, loopBudget (records lines) + n ≤ fuel →
      (∃ out g1, find_distance fuel a b g = .ok ((d : Int), out, g1)) ∧
        ∃ out g1, find_distance fuel b a g = .ok ((d : Int), out, g1) := by
  obtain ⟨g, hg, hb⟩ := freshGraph_spec hm lines hfit
  obtain ⟨d, hdn, hd⟩ := hconn.exists_dist
  have hbp : Present (records lines) b := hconn.present_end ha
  refine ⟨g, hg, d, ?_⟩
  intro fuel hfuel
  obtain ⟨out1, g1, e1, _, _⟩ := find_distance_dist hb hnd hA hM ha hd
    (show loopBudget (records lines) + d ≤ fuel by omega)
  obtain ⟨out2, g2, e2, _, _⟩ := find_distance_dist hb hnd hA hM hbp hd.flip
    (show loopBudget (records lines) + d ≤ fuel by omega)
  exact ⟨⟨out1, g1, e1⟩, out2, g2, e2⟩

theorem find_distance_symmetric_witness :
    ∃ g, freshGraph 2 chainLines = .ok g ∧ ∃ d : Nat,
      ∀ fuel, loopBudget (records chainLines) + 1 ≤ fuel →
        (∃ out g1, find_distance fuel (cstr "A") (cstr "B") g = .ok ((d : Int), out, g1)) ∧
          ∃ out g1, find_distance fuel (cstr "B") (cstr "A") g = .ok ((d : Int), out, g1) :=
  find_distance_symmetric 2 chainLines (cstr "A") (cstr "B") 1 (by decide) chainLines_fit
    chainLines_nodup
    chainLines_actorKeys chainLines_movieKeys chainLines_present_A
    (Chain.step Chain.refl chainLines_costar_AB)

/-! ## The hash index as a map from keys to the newest value -/

theorem absKey_of_representable {key : Int} (h : AbsRepresentable key) :
    absKey key = |key| ∧ 0 ≤ absKey key := by
  obtain ⟨h1, h2⟩ := h
  unfold absKey
  split
  · rw [wrapLong_id (by omega) (by omega), abs_of_neg (by assumption)]
    exact ⟨rfl, by omega⟩
  · rw [abs_of_nonneg (by omega)]
    exact ⟨rfl, by omega⟩

theorem hash_representable (s : Str) : AbsRepresentable (hash s) := by
  have h := hash_abs_lt s
  constructor <;> omega

theorem search_fresh {m : Nat} {ht : List HashTable} (h : create_hash_table m = .ok ht)
    {key : Int} (hk : 0 ≤ absKey key) : TableOk ht ∧ ht.length = m ∧ search ht key = .ok none := by
  unfold create_hash_table at h
  by_cases hm : m = 0
  · rw [if_pos hm] at h
    cases h
  · rw [if_neg hm] at h
    cases h
    have hok : TableOk (List.replicate m
        ({ table_size := (m : Int), count := 0, head := [] } : HashTable)) := by
      refine ⟨by simpa using Nat.pos_of_ne_zero hm, ?_⟩
      intro c hc
      rw [(List.mem_replicate.1 hc).2]
      simp
    refine ⟨hok, by simp, ?_⟩
    obtain ⟨cell, e1, e2⟩ := search_eq hok hk
    have hcell : cell ∈ List.replicate m
        ({ table_size := (m : Int), count := 0, head := [] } : HashTable) := by
      obtain ⟨hl, rfl⟩ := List.getElem?_eq_some.1 e1
      exact List.getElem_mem hl
    rw [e2, (List.mem_replicate.1 hcell).2]
    rfl

theorem insertAll_spec : ∀ (kvs : List (Int × Nat)) (ht : List HashTable), TableOk ht →
    (∀ p ∈ kvs, AbsRepresentable p.1) →
    ∃ htn, insertAll kvs ht = .ok htn ∧ TableOk htn ∧ htn.length = ht.length ∧
      (∀ q, AbsRepresentable q → (∃ p ∈ kvs, |p.1| = |q|) →
        ∃ e, search htn q = .ok (some e) ∧ e.key = |q|) ∧
      ∀ q, AbsRepresentable q → (∀ p ∈ kvs, |p.1| ≠ |q|) → search htn q = search ht q := by
  intro kvs
  induction kvs with
  | nil =>
      intro ht hok _
      refine ⟨ht, rfl, hok, rfl, ?_, fun q _ _ => rfl⟩
      rintro q _ ⟨p, hp, _⟩
      cases hp
  | cons kv rest ih =>
      intro ht hok hkeys
      obtain ⟨k, v⟩ := kv
      have hk := absKey_of_representable (hkeys (k, v) (List.mem_cons_self _ _))
      obtain ⟨ht1, e1, hok1, hlen1, hs1⟩ := insert_ok hok hk.2 v
      obtain ⟨htn, f1, f2, f3, f4, f5⟩ := ih ht1 hok1
        (fun p hp => hkeys p (List.mem_cons_of_mem _ hp))
      refine ⟨htn, by simp only [insertAll, e1, f1], f2, f3.trans hlen1, ?_, ?_⟩
      · rintro q hq ⟨p, hp, hpq⟩
        have hqa := absKey_of_representable hq
        by_cases hr : ∃ p ∈ rest, |p.1| = |q|
        · exact f4 q hq hr
        · have hr' : ∀ p ∈ rest, |p.1| ≠ |q| := fun p hp hc => hr ⟨p, hp, hc⟩
          rcases List.mem_cons.1 hp with rfl | hp
          · refine ⟨{ key := absKey k, value := v }, ?_, ?_⟩
            · rw [f5 q hq hr', hs1 q hqa.2, if_pos (by rw [hqa.1, hk.1]; exact hpq.symm)]
            · simp only [hk.1]
              exact hpq
          · exact absurd hpq (hr' p hp)
      · intro q hq hne
        have hqa := absKey_of_representable hq
        rw [f5 q hq (fun p hp => hne p (List.mem_cons_of_mem _ hp)), hs1 q hqa.2,
          if_neg (by
            rw [hqa.1, hk.1]
            exact fun hc => hne (k, v) (List.mem_cons_self _ _) hc.symm)]

/-- C17: for a table of `m ≥ 1` cells in any state the inserts can reach, every key `k` whose
absolute value is representable and every value `v`, `insert(ht, k, v)` succeeds and the
following `search(ht, k)` returns the entry just made, with key `|k|` and value `v`, whatever
entries with that key the chain already held; inserting another value for the same key afterwards
makes `search` return that newer value. -/
theorem insert_then_search (ht : List HashTable) (k : Int) (v : Nat) (hok : TableOk ht)
    (hk : AbsRepresentable k) :
    ∃ ht1, insert ht k v = .ok ht1 ∧ search ht1 k = .ok (some { key := |k|, value := v }) ∧
      TableOk ht1 ∧ ht1.length = ht.length ∧
      ∀ v2, ∃ ht2, insert ht1 k v2 = .ok ht2 ∧
        search ht2 k = .ok (some { key := |k|, value := v2 }) := by
  have hka := absKey_of_representable hk
  obtain ⟨ht1, e1, hok1, hlen1, hs1⟩ := insert_ok hok hka.2 v
  refine ⟨ht1, e1, ?_, hok1, hlen1, ?_⟩
  · rw [hs1 k hka.2, if_pos rfl, hka.1]
  · intro v2
    obtain ⟨ht2, e2, _, _, hs2⟩ := insert_ok hok1 hka.2 v2
    exact ⟨ht2, e2, by rw [hs2 k hka.2, if_pos rfl, hka.1]⟩

theorem insert_then_search_witness :
    TableOk chainGraph.actors ∧ AbsRepresentable (-65) ∧
      search chainGraph.actors (-65) = .ok (some { key := 65, value := 0 }) ∧
      ∃ ht1, insert chainGraph.actors (-65) 9 = .ok ht1 ∧
        search ht1 (-65) = .ok (some { key := |(-65 : Int)|, value := 9 }) ∧
        TableOk ht1 ∧ ht1.length = chainGraph.actors.length ∧
        ∀ v2, ∃ ht2, insert ht1 (-65) v2 = .ok ht2 ∧
          search ht2 (-65) = .ok (some { key := |(-65 : Int)|, value := v2 }) :=
  have hok : TableOk chainGraph.actors := ⟨by decide, by decide⟩
  have hk : AbsRepresentable (-65) := ⟨by norm_num, by norm_num⟩
  ⟨hok, hk, by decide!, insert_then_search chainGraph.actors (-65) 9 hok hk⟩

/-- C18: in a table of `m ≥ 1` cells, `insert(ht, k, v)` does not change `search(ht, k')` for a
key `k'` with `|k'| ≠ |k|`; consequently after any sequence of inserts every key that was
inserted is still found (under its absolute value), a key whose absolute value was not inserted
is searched as before, and in a table that `create_hash_table` made it is reported not-found. -/
theorem entries_never_lost (ht : List HashTable) (k k' : Int) (v : Nat) (hok : TableOk ht)
    (hk : AbsRepresentable k) (hk' : AbsRepresentable k') (hne : |k'| ≠ |k|) :
    (∃ ht1, insert ht k v = .ok ht1 ∧ search ht1 k' = search ht k') ∧
    (∀ kvs : List (Int × Nat), (∀ p ∈ kvs, AbsRepresentable p.1) →
      ∃ htn, insertAll kvs ht = .ok htn ∧
        (∀ q, AbsRepresentable q → (∃ p ∈ kvs, |p.1| = |q|) →
          ∃ e, search htn q = .ok (some e) ∧ e.key = |q|) ∧
        ∀ q, AbsRepresentable q → (∀ p ∈ kvs, |p.1| ≠ |q|) → search htn q = search ht q) ∧
    ∀ m ht0, create_hash_table m = .ok ht0 →
      ∀ kvs : List (Int × Nat), (∀ p ∈ kvs, AbsRepresentable p.1) →
        ∃ htn, insertAll kvs ht0 = .ok htn ∧
          ∀ q, AbsRepresentable q → (∀ p ∈ kvs, |p.1| ≠ |q|) → search htn q = .ok none := by
  have hka := absKey_of_representable hk
  have hka' := absKey_of_representable hk'
  refine ⟨?_, ?_, ?_⟩
  · obtain ⟨ht1, e1, _, _, hs1⟩ := insert_ok hok hka.2 v
    exact ⟨ht1, e1, by rw [hs1 k' hka'.2, if_neg (by rw [hka.1, hka'.1]; exact hne)]⟩
  · intro kvs hkeys
    obtain ⟨htn, f1, _, _, f4, f5⟩ := insertAll_spec kvs ht hok hkeys
    exact ⟨htn, f1, f4, f5⟩
  · intro m ht0 hc kvs hkeys
    have h0 : TableOk ht0 := (search_fresh hc hka.2).1
    obtain ⟨htn, f1, _, _, _, f5⟩ := insertAll_spec kvs ht0 h0 hkeys
    refine ⟨htn, f1, ?_⟩
    intro q hq hq'
    rw [f5 q hq hq']
    exact (search_fresh hc (absKey_of_representable hq).2).2.2

theorem entries_never_lost_witness :
    TableOk chainGraph.actors ∧ AbsRepresentable 67 ∧ AbsRepresentable (-65) ∧
      |(-65 : Int)| ≠ |(67 : Int)| ∧
      search chainGraph.actors (-65) = .ok (some { key := 65, value := 0 }) ∧
      ((∃ ht1, insert chainGraph.actors 67 9 = .ok ht1 ∧
          search ht1 (-65) = search chainGraph.actors (-65)) ∧
      (∀ kvs : List (Int × Nat), (∀ p ∈ kvs, AbsRepresentable p.1) →
        ∃ htn, insertAll kvs chainGraph.actors = .ok htn ∧
          (∀ q, AbsRepresentable q → (∃ p ∈ kvs, |p.1| = |q|) →
            ∃ e, search htn q = .ok (some e) ∧ e.key = |q|) ∧
          ∀ q, AbsRepresentable q → (∀ p ∈ kvs, |p.1| ≠ |q|) →
            search htn q = search chainGraph.actors q) ∧
      ∀ m ht0, create_hash_table m = .ok ht0 →
        ∀ kvs : List (Int × Nat), (∀ p ∈ kvs, AbsRepresentable p.1) →
          ∃ htn, insertAll kvs ht0 = .ok htn ∧
            ∀ q, AbsRepresentable q → (∀ p ∈ kvs, |p.1| ≠ |q|) → search htn q = .ok none) :=
  have hok : TableOk chainGraph.actors := ⟨by decide, by decide⟩
  have hk : AbsRepresentable 67 := ⟨by norm_num, by norm_num⟩
  have hk' : AbsRepresentable (-65) := ⟨by norm_num, by norm_num⟩
  have hne : |(-65 : Int)| ≠ |(67 : Int)| := by norm_num
  ⟨hok, hk, hk', hne, by decide!,
    entries_never_lost chainGraph.actors 67 (-65) 9 hok hk hk' hne⟩

/-- C20: for every string `s` (bytes of 128 and more, which make the hash negative, included)
and every table of `m ≥ 1` cells, the key `|hash(s)|` is computed without overflow, the cell
index `|hash(s)| mod m` that `insert` and `search` compute satisfies `0 ≤ index < m`, and both
functions work on the cell at that same index: `search` reads its chain and `insert` prepends
to it. -/
theorem bucket_index_in_range (ht : List HashTable) (s : Str) (v : Nat) (hok : TableOk ht) :
    absKey (hash s) = |hash s| ∧
    0 ≤ |hash s| % (ht.length : Int) ∧ |hash s| % (ht.length : Int) < (ht.length : Int) ∧
    ∃ cell cnt, cellAt ht (absKey (hash s)) = .ok (|hash s| % (ht.length : Int), cell) ∧
      ht[(|hash s| % (ht.length : Int)).toNat]? = some cell ∧
      search ht (hash s) =
        .ok (cell.head.find? (fun curr => decide (curr.key = |hash s|))) ∧
      insert ht (hash s) v = .ok (ht.set (|hash s| % (ht.length : Int)).toNat
        { table_size := cell.table_size, count := cnt,
          head := { key := |hash s|, value := v } :: cell.head }) := by
  have hpos : (0 : Int) < (ht.length : Int) := by exact_mod_cast hok.1
  have hk := absKey_hash_nonneg s
  obtain ⟨cell, e1, e2⟩ := cellAt_ok hok hk
  obtain ⟨cell2, f1, f2⟩ := search_eq hok hk
  obtain ⟨cell3, cnt, g1, g2⟩ := insert_eq hok hk v
  rw [e1] at f1 g1
  cases f1
  cases g1
  rw [absKey_hash] at e1 e2 f2 g2
  exact ⟨absKey_hash s, Int.emod_nonneg _ (by omega), Int.emod_lt_of_pos _ hpos,
    cell, cnt, by rw [absKey_hash]; exact e2, e1, f2, g2⟩

theorem bucket_index_in_range_witness :
    TableOk chainGraph.actors ∧ hash [200] = -56 ∧
    (absKey (hash [200]) = |hash [200]| ∧
    0 ≤ |hash [200]| % (chainGraph.actors.length : Int) ∧
    |hash [200]| % (chainGraph.actors.length : Int) < (chainGraph.actors.length : Int) ∧
    ∃ cell cnt, cellAt chainGraph.actors (absKey (hash [200])) =
        .ok (|hash [200]| % (chainGraph.actors.length : Int), cell) ∧
      chainGraph.actors[(|hash [200]| % (chainGraph.actors.length : Int)).toNat]? = some cell ∧
      search chainGraph.actors (hash [200]) =
        .ok (cell.head.find? (fun curr => decide (curr.key = |hash [200]|))) ∧
      insert chainGraph.actors (hash [200]) 7 =
        .ok (chainGraph.actors.set (|hash [200]| % (chainGraph.actors.length : Int)).toNat
          { table_size := cell.table_size, count := cnt,
            head := { key := |hash [200]|, value := 7 } :: cell.head })) :=
  have hok : TableOk chainGraph.actors := ⟨by decide, by decide⟩
  ⟨hok, by decide!, bucket_index_in_range chainGraph.actors [200] 7 hok⟩

/-! ## The entities that `build_hash_tables` creates -/

theorem allEntries_set : ∀ (ht : List HashTable) (i : Nat) (cell new : HashTable) (e : MapEntry),
    ht[i]? = some cell → new.head = e :: cell.head →
    (allEntries (ht.set i new)).Perm (e :: allEntries ht) := by
  intro ht
  induction ht with
  | nil =>
      intro i cell new e h
      cases h
  | cons x xs ih =>
      intro i cell new e h hn
      cases i with
      | zero =>
          simp only [List.getElem?_cons_zero, Option.some.injEq] at h
          subst h
          simp only [allEntries, List.set_cons_zero, List.flatMap_cons, hn, List.cons_append]
          exact List.Perm.refl _
      | succ i =>
          simp only [List.getElem?_cons_succ] at h
          have h1 := ih i cell new e h hn
          simp only [allEntries, List.set_cons_succ, List.flatMap_cons] at h1 ⊢
          exact (List.Perm.append_left _ h1).trans List.perm_middle

theorem allEntries_insert {ht ht1 : List HashTable} (h : TableOk ht) {key : Int}
    (hk : 0 ≤ absKey key) {value : Nat} (hi : insert ht key value = .ok ht1) :
    (allEntries ht1).Perm ({ key := absKey key, value := value } :: allEntries ht) := by
  obtain ⟨cell, cnt, e1, e2⟩ := insert_eq h hk value
  rw [e2] at hi
  cases hi
  exact allEntries_set ht _ cell _ _ e1 rfl

theorem allEntries_fresh {m : Nat} {ht : List HashTable} (h : create_hash_table m = .ok ht) :
    allEntries ht = [] := by
  unfold create_hash_table at h
  by_cases hm : m = 0
  · rw [if_pos hm] at h
    cases h
  · rw [if_neg hm] at h
    cases h
    simp [allEntries]

theorem entriesOf_snoc (names : List Str) (a : Str) :
    entriesOf (names ++ [a]) = entriesOf names ++ [{ key := hashKey a, value := names.length }] := by
  simp [entriesOf, List.enum_append, List.enumFrom_singleton]

theorem keyFirsts_snoc (l : List Str) (a : Str) :
    keyFirsts (l ++ [a]) =
      if (keyFirsts l).any (fun b => decide (hashKey b = hashKey a)) then keyFirsts l
      else keyFirsts l ++ [a] := by
  simp only [keyFirsts, List.foldl_append, List.foldl_cons, List.foldl_nil]

theorem keyFirsts_key (k : Int) : ∀ l : List Str,
    (∃ b ∈ keyFirsts l, hashKey b = k) ↔ ∃ b ∈ l, hashKey b = k := by
  intro l
  induction l using List.reverseRecOn with
  | nil => simp [keyFirsts]
  | append_singleton l a ih =>
      rw [keyFirsts_snoc]
      split
      next hany =>
          obtain ⟨b, hb, hbk⟩ := List.any_eq_true.1 hany
          have hbk : hashKey b = hashKey a := by simpa using hbk
          constructor
          · rintro ⟨c, hc, hck⟩
            obtain ⟨d, hd, hdk⟩ := ih.1 ⟨c, hc, hck⟩
            exact ⟨d, List.mem_append_left _ hd, hdk⟩
          · rintro ⟨c, hc, hck⟩
            rcases List.mem_append.1 hc with hc | hc
            · exact ih.2 ⟨c, hc, hck⟩
            · have : c = a := by simpa using hc
              subst this
              exact ⟨b, hb, hbk.trans hck⟩
      next hany =>
          constructor
          · rintro ⟨c, hc, hck⟩
            rcases List.mem_append.1 hc with hc | hc
            · obtain ⟨d, hd, hdk⟩ := ih.1 ⟨c, hc, hck⟩
              exact ⟨d, List.mem_append_left _ hd, hdk⟩
            · exact ⟨c, List.mem_append_right _ hc, hck⟩
          · rintro ⟨c, hc, hck⟩
            rcases List.mem_append.1 hc with hc | hc
            · obtain ⟨d, hd, hdk⟩ := ih.2 ⟨c, hc, hck⟩
              exact ⟨d, List.mem_append_left _ hd, hdk⟩
            · exact ⟨c, List.mem_append_right _ hc, hck⟩

theorem keyFirsts_sub : ∀ (l : List Str) (a : Str), a ∈ keyFirsts l → a ∈ l := by
  intro l
  induction l using List.reverseRecOn with
  | nil => simp [keyFirsts]
  | append_singleton l a ih =>
      intro b hb
      rw [keyFirsts_snoc] at hb
      split at hb
      · exact List.mem_append_left _ (ih b hb)
      · rcases List.mem_append.1 hb with hb | hb
        · exact List.mem_append_left _ (ih b hb)
        · exact List.mem_append_right _ hb

theorem keyFirsts_nodup : ∀ l : List Str, ((keyFirsts l).map hashKey).Nodup := by
  intro l
  induction l using List.reverseRecOn with
  | nil => simp [keyFirsts]
  | append_singleton l a ih =>
      rw [keyFirsts_snoc]
      split
      · exact ih
      next hany =>
          rw [List.map_append, List.map_singleton]
          refine List.Nodup.append ih (List.nodup_singleton _) ?_
          intro k hk1 hk2
          have hk2 : k = hashKey a := by simpa using hk2
          subst hk2
          obtain ⟨b, hb, hbk⟩ := List.mem_map.1 hk1
          exact hany (List.any_eq_true.2 ⟨b, hb, by simpa using hbk⟩)

theorem keyFirsts_any_iff (l : List (Str × Str)) (a : Str) :
    (keyFirsts (l.map Prod.fst)).any (fun b => decide (hashKey b = hashKey a)) = true ↔
      l.find? (fun o => decide (hashKey o.1 = hashKey a)) ≠ none := by
  rw [List.any_eq_true, Ne, List.find?_eq_none]
  constructor
  · rintro ⟨b, hb, hbk⟩ hnone
    obtain ⟨c, hc, hck⟩ := (keyFirsts_key (hashKey a) _).1 ⟨b, hb, by simpa using hbk⟩
    obtain ⟨o, ho, rfl⟩ := List.mem_map.1 hc
    exact hnone o ho (by simpa using hck)
  · intro h
    push_neg at h
    obtain ⟨o, ho, hok⟩ := h
    obtain ⟨b, hb, hbk⟩ := (keyFirsts_key (hashKey a) (l.map Prod.fst)).2
      ⟨o.1, List.mem_map_of_mem _ ho, by simpa using hok⟩
    exact ⟨b, hb, by simpa using hbk⟩

theorem set_of_getElem? {α : Type} : ∀ (l : List α) (i : Nat) (v : α), l[i]? = some v →
    l.set i v = l := by
  intro l
  induction l with
  | nil => intro i v h; rfl
  | cons x xs ih =>
      intro i v h
      cases i with
      | zero =>
          simp only [List.getElem?_cons_zero, Option.some.injEq] at h
          rw [List.set_cons_zero, h]
      | succ i =>
          simp only [List.getElem?_cons_succ] at h
          rw [List.set_cons_succ, ih i v h]

theorem actorLoop_census (movie : Movie) : ∀ (cast : List Str) (os : List (Str × Str))
    (g : Graph), (cast ≠ [] → movie.name.length < MAX_INPUT) →
    TableOk g.actors → ActorsSpec os g.actors g.actorHeap →
    g.actorHeap.map Actor.name = keyFirsts (os.map Prod.fst) →
    (allEntries g.actors).Perm (entriesOf (g.actorHeap.map Actor.name)) →
    ∃ g1, actorLoop movie cast g = .ok g1 ∧ g1.movies = g.movies ∧ g1.movieHeap = g.movieHeap ∧
      g1.actorHeap.map Actor.name =
        keyFirsts ((os ++ cast.map (fun a => (a, movie.name))).map Prod.fst) ∧
      (allEntries g1.actors).Perm (entriesOf (g1.actorHeap.map Actor.name)) := by
  intro cast
  induction cast with
  | nil =>
      intro os g _ hok hspec hn he
      exact ⟨g, rfl, rfl, rfl, by simpa using hn, he⟩
  | cons a rest ih =>
      intro os g hfit hok hspec hn he
      have hlen : movie.name.length < MAX_INPUT := hfit (List.cons_ne_nil _ _)
      have hs := hspec a
      have happ : os ++ List.map (fun a => (a, movie.name)) (a :: rest) =
          (os ++ [(a, movie.name)]) ++ List.map (fun a => (a, movie.name)) rest := by
        simp
      have hmap : (os ++ [(a, movie.name)]).map Prod.fst = os.map Prod.fst ++ [a] := by simp
      cases hfa : os.find? (fun o => decide (hashKey o.1 = hashKey a)) with
      | none =>
          rw [hfa] at hs
          obtain ⟨tbl1, hins, hok1, hlen1, hsearch1⟩ :=
            insert_ok hok (absKey_hash_nonneg a) g.actorHeap.length
          have hspec1 := ActorsSpec_new hspec a movie.name hfa hsearch1
          have hany : ¬ (keyFirsts (os.map Prod.fst)).any
              (fun b => decide (hashKey b = hashKey a)) = true := by
            rw [keyFirsts_any_iff]
            exact fun hc => hc hfa
          have hn1 : (g.actorHeap ++ [(⟨a, [movie.name], 0, [], none⟩ : Actor)]).map Actor.name =
              keyFirsts ((os ++ [(a, movie.name)]).map Prod.fst) := by
            rw [hmap, keyFirsts_snoc, if_neg hany, List.map_append, hn]
            rfl
          have he1 : (allEntries tbl1).Perm (entriesOf ((g.actorHeap ++
              [(⟨a, [movie.name], 0, [], none⟩ : Actor)]).map Actor.name)) := by
            rw [List.map_append, List.map_singleton, entriesOf_snoc, List.length_map]
            exact ((allEntries_insert hok (absKey_hash_nonneg a) hins).trans
              (List.Perm.cons _ he)).trans (List.perm_append_singleton _ _).symm
          obtain ⟨g1, e1, e2, e3, e4, e5⟩ := ih (os ++ [(a, movie.name)])
            ⟨g.movies, tbl1, g.movieHeap, g.actorHeap ++
                [{ name := a, movies := [movie.name], is_visited := 0, parent_movie_name := [],
                   parent := none }]⟩ (fun _ => hlen) hok1 hspec1 hn1 he1
          refine ⟨g1, ?_, e2, e3, by rw [happ]; exact e4, e5⟩
          rw [← e1]
          simp only [actorLoop, hs, create_actor, hins, List.length_singleton, Nat.sub_self,
            List.set_cons_zero, hlen, if_true]
      | some o =>
          rw [hfa] at hs
          obtain ⟨i, hi1, hi2⟩ := hs
          have hspec1 := ActorsSpec_found hspec a movie.name hfa hi1 hi2
          have hany : (keyFirsts (os.map Prod.fst)).any
              (fun b => decide (hashKey b = hashKey a)) = true := by
            rw [keyFirsts_any_iff, hfa]
            exact fun hc => by cases hc
          have hset : (g.actorHeap.set i { builtActor os a o with
              movies := (builtActor os a o).movies ++ [movie.name] }).map Actor.name =
              g.actorHeap.map Actor.name := by
            rw [List.map_set]
            apply set_of_getElem?
            rw [List.getElem?_map, hi2]
            rfl
          have hn1 : (g.actorHeap.set i { builtActor os a o with
              movies := (builtActor os a o).movies ++ [movie.name] }).map Actor.name =
              keyFirsts ((os ++ [(a, movie.name)]).map Prod.fst) := by
            rw [hset, hmap, keyFirsts_snoc, if_pos hany, hn]
          obtain ⟨g1, e1, e2, e3, e4, e5⟩ := ih (os ++ [(a, movie.name)])
            ⟨g.movies, g.actors, g.movieHeap, g.actorHeap.set i
                { builtActor os a o with movies := (builtActor os a o).movies ++ [movie.name] }⟩
            (fun _ => hlen) hok hspec1 hn1 (by rw [hset]; exact he)
          refine ⟨g1, ?_, e2, e3, by rw [happ]; exact e4, e5⟩
          rw [← e1]
          simp only [actorLoop, hi1, deref, hi2, hlen, if_true]

theorem buildLine_census {m : Nat} {recs : List (Str × List Str)} {g : Graph}
    (h : Built m recs g) (hc : Census recs g) (name : Str) (cast : List Str)
    (hcast : ∀ c ∈ cast, c.length < MAX_INPUT) (hname : cast ≠ [] → name.length < MAX_INPUT) :
    ∃ g1, buildLine name cast g = .ok g1 ∧ Census (recs ++ [(name, cast)]) g1 := by
  obtain ⟨last, hcl⟩ := castLoop_spec cast [] [] hcast
  obtain ⟨tbl1, hins, hok1, hlen1, hsearch1⟩ :=
    insert_ok h.movies_ok (absKey_hash_nonneg name) g.movieHeap.length
  obtain ⟨g1, e1, e2, e3, e4, e5⟩ := actorLoop_census
    { name := name, actors := cast, is_visited := 0 } cast (occurrences recs)
    ⟨tbl1, g.actors, g.movieHeap ++ [{ name := name, actors := cast, is_visited := 0 }],
      g.actorHeap⟩ hname h.actors_ok h.actors_spec hc.actor_names hc.actor_entries
  refine ⟨g1, ?_, ?_⟩
  · rw [← e1]
    simp only [List.length_nil, zero_add, List.nil_append] at hcl
    simp only [buildLine, create_movie, hcl, List.length_append, List.length_singleton,
      Nat.add_sub_cancel, List.take_left', hins]
  · refine ⟨?_, ?_, ?_, e5⟩
    · rw [e3, List.map_append, ← hc.movie_heap]
      rfl
    · rw [e2, List.map_append, List.map_singleton, entriesOf_snoc, List.length_map]
      have hl : g.movieHeap.length = recs.length := by rw [hc.movie_heap, List.length_map]
      rw [← hl]
      exact ((allEntries_insert h.movies_ok (absKey_hash_nonneg name) hins).trans
        (List.Perm.cons _ hc.movie_entries)).trans (List.perm_append_singleton _ _).symm
    · rw [e4]
      simp [occurrences, List.flatMap_append]

theorem build_hash_tables_census {m : Nat} : ∀ (lines : List (List Str))
    (recs : List (Str × List Str)) (g : Graph), RecordsFit (records lines) → Built m recs g →
    Census recs g →
    ∃ g1, build_hash_tables lines g = .ok g1 ∧ Census (recs ++ records lines) g1 := by
  intro lines
  induction lines with
  | nil =>
      intro recs g _ h hc
      exact ⟨g, rfl, by simpa [records] using hc⟩
  | cons line lines ih =>
      intro recs g hfit h hc
      cases line with
      | nil =>
          obtain ⟨g1, e1, e2⟩ := ih recs g hfit h hc
          exact ⟨g1, by simp only [build_hash_tables, e1], by simpa [records] using e2⟩
      | cons name cast =>
          have hr := hfit (name, cast) (List.mem_cons_self _ _)
          obtain ⟨g1, e1, e2⟩ := buildLine_census h hc name cast hr.1 hr.2
          obtain ⟨g1', e1', h1⟩ := buildLine_spec h name cast hr.1 hr.2
          rw [e1] at e1'
          cases e1'
          obtain ⟨g2, f1, f2⟩ := ih _ g1 (fun r hr => hfit r (List.mem_cons_of_mem _ hr)) h1 e2
          refine ⟨g2, by simp only [build_hash_tables, e1, f1], ?_⟩
          simpa [records] using f2

theorem freshGraph_census {m : Nat} (hm : 0 < m) (lines : List (List Str))
    (hfit : RecordsFit (records lines)) :
    ∃ g, freshGraph m lines = .ok g ∧ Built m (records lines) g ∧ Census (records lines) g := by
  obtain ⟨g, e1, hb⟩ := freshGraph_spec hm lines hfit
  have hok : TableOk (List.replicate m
      ({ table_size := (m : Int), count := 0, head := [] } : HashTable)) := by
    refine ⟨by simpa using hm, ?_⟩
    intro c hc
    rw [(List.mem_replicate.1 hc).2]
    simp
  have h0 : Built m []
      { movies := List.replicate m { table_size := (m : Int), count := 0, head := [] }
        actors := List.replicate m { table_size := (m : Int), count := 0, head := [] }
        movieHeap := [], actorHeap := [] } :=
    { movies_ok := hok
      movies_len := by simp
      actors_ok := hok
      actors_len := by simp
      actors_spec := fun s => search_replicate m hm s
      movies_spec := fun s => search_replicate m hm s }
  have c0 : Census []
      { movies := List.replicate m { table_size := (m : Int), count := 0, head := [] }
        actors := List.replicate m { table_size := (m : Int), count := 0, head := [] }
        movieHeap := [], actorHeap := [] } :=
    { movie_heap := rfl
      movie_entries := by simp [allEntries, entriesOf]
      actor_names := by simp [occurrences, keyFirsts]
      actor_entries := by simp [allEntries, entriesOf] }
  obtain ⟨g2, f1, f2⟩ := build_hash_tables_census lines [] _ hfit h0 c0
  have e2 : freshGraph m lines = .ok g2 := by
    simp only [freshGraph, create_hash_table, if_neg (Nat.pos_iff_ne_zero.1 hm), f1]
  rw [e1] at e2
  cases e2
  exact ⟨g, e1, hb, by simpa using f2⟩

theorem records_append : ∀ pre post : List (List Str),
    records (pre ++ post) = records pre ++ records post := by
  intro pre post
  induction pre with
  | nil => rfl
  | cons line pre ih =>
      cases line with
      | nil => simpa [records] using ih
      | cons name cast => simp [records, ih]

theorem mem_entriesOf {names : List Str} {e : MapEntry} :
    e ∈ entriesOf names ↔ ∃ i a, names[i]? = some a ∧ e = { key := hashKey a, value := i } := by
  simp only [entriesOf, List.mem_map, Prod.exists, List.mk_mem_enum_iff_getElem?]
  constructor
  · rintro ⟨i, a, h, rfl⟩
    exact ⟨i, a, h, rfl⟩
  · rintro ⟨i, a, h, rfl⟩
    exact ⟨i, a, h, rfl⟩

theorem occurrences_map_fst (recs : List (Str × List Str)) :
    (occurrences recs).map Prod.fst = recs.flatMap (fun r => r.2) := by
  induction recs with
  | nil => rfl
  | cons r recs ih =>
      simp only [occurrences, List.flatMap_cons, List.map_append, List.map_map] at ih ⊢
      rw [ih]
      congr 1
      exact List.map_id _

/-- C16: for every record of an input within the capacity of the name buffers (`RecordsFit`:
every cast token, and every movie name of a record with a cast, has fewer than `MAX_INPUT` =
255 bytes), a movie name followed by `k ≥ 0` cast tokens `c_1 … c_k`, the growth loop of
`build_hash_tables` returns the tokens followed by one extra slot, the graph is built, and the
Movie that the built graph holds for the record (the Movie created for the record, at the
address of its creation, with an entry of the movie index pointing to it) has that name,
`actor_count = k`, `actors[0..k-1] = c_1 … c_k` in order with the extra slot trimmed and
duplicates kept, and visited flag 0. -/
theorem cast_construction (m : Nat) (pre post : List (List Str)) (name : Str) (cast : List Str)
    (hm : 0 < m) (hfit : RecordsFit (records (pre ++ (name :: cast) :: post))) :
    (∃ last, castLoop cast 1 (create_movie name).actors = .ok (cast ++ [last])) ∧
    ∃ g mv, freshGraph m (pre ++ (name :: cast) :: post) = .ok g ∧
      g.movieHeap[(records pre).length]? = some mv ∧
      mv.name = name ∧ mv.actors.length = cast.length ∧ mv.actors = cast ∧ mv.is_visited = 0 ∧
      { key := hashKey name, value := (records pre).length } ∈ allEntries g.movies := by
  have hrec : records (pre ++ (name :: cast) :: post) =
      records pre ++ (name, cast) :: records post := by
    rw [records_append]
    rfl
  constructor
  · obtain ⟨last, hl⟩ := castLoop_spec cast [] []
      (hfit (name, cast) (by rw [hrec]; simp)).1
    exact ⟨last, by simpa [create_movie] using hl⟩
  · obtain ⟨g, hg, _, hc⟩ := freshGraph_census hm (pre ++ (name :: cast) :: post) hfit
    rw [hrec] at hc
    refine ⟨g, { name := name, actors := cast, is_visited := 0 }, hg, ?_, rfl, rfl, rfl, rfl, ?_⟩
    · rw [hc.movie_heap, List.map_append, List.map_cons,
        List.getElem?_append_right (by simp)]
      simp
    · refine (hc.movie_entries.mem_iff).2 (mem_entriesOf.2 ⟨_, name, ?_, rfl⟩)
      rw [List.map_append, List.map_cons, List.getElem?_append_right (by simp)]
      simp

theorem cast_construction_witness :
    0 < 2 ∧
    RecordsFit (records ([[cstr "M1", cstr "A", cstr "B"]] ++
        (cstr "M2" :: [cstr "B", cstr "B", cstr "C"]) :: [])) ∧
    ((∃ last, castLoop [cstr "B", cstr "B", cstr "C"] 1 (create_movie (cstr "M2")).actors =
        .ok ([cstr "B", cstr "B", cstr "C"] ++ [last])) ∧
    ∃ g mv, freshGraph 2 ([[cstr "M1", cstr "A", cstr "B"]] ++
        (cstr "M2" :: [cstr "B", cstr "B", cstr "C"]) :: []) = .ok g ∧
      g.movieHeap[(records [[cstr "M1", cstr "A", cstr "B"]]).length]? = some mv ∧
      mv.name = cstr "M2" ∧ mv.actors.length = [cstr "B", cstr "B", cstr "C"].length ∧
      mv.actors = [cstr "B", cstr "B", cstr "C"] ∧ mv.is_visited = 0 ∧
      { key := hashKey (cstr "M2"), value := (records [[cstr "M1", cstr "A", cstr "B"]]).length }
        ∈ allEntries g.movies) :=
  have hfit : RecordsFit (records ([[cstr "M1", cstr "A", cstr "B"]] ++
      (cstr "M2" :: [cstr "B", cstr "B", cstr "C"]) :: [])) := by
    unfold RecordsFit
    decide!
  ⟨by decide, hfit, cast_construction 2 [[cstr "M1", cstr "A", cstr "B"]] []
    (cstr "M2") [cstr "B", cstr "B", cstr "C"] (by decide) hfit⟩

/-- C14 as stated fails: the records `M/A/B` and `M/B/C` have one distinct movie name, yet the
built graph holds two Movie entities named `M` and the movie index holds two entries with the
key of `M`, one for each of them. -/
theorem same_movie_name_two_entities :
    ((records sameMovieLines).map Prod.fst).dedup = [cstr "M"] ∧
    ∃ g, freshGraph 2 sameMovieLines = .ok g ∧
      g.movieHeap.map Movie.name = [cstr "M", cstr "M"] ∧
      allEntries g.movies = [{ key := hashKey (cstr "M"), value := 1 },
        { key := hashKey (cstr "M"), value := 0 }] := by
  refine ⟨by decide!, ?_⟩
  obtain ⟨g, hg, _⟩ := freshGraph_spec (show 0 < 2 by decide) sameMovieLines
    sameMovieLines_fit
  have h1 : (match freshGraph 2 sameMovieLines with
      | .ok g => some (g.movieHeap.map Movie.name, allEntries g.movies)
      | _ => none) = some ([cstr "M", cstr "M"], [{ key := hashKey (cstr "M"), value := 1 },
        { key := hashKey (cstr "M"), value := 0 }]) := by decide!
  rw [hg] at h1
  simp only [Option.some.injEq, Prod.mk.injEq] at h1
  exact ⟨g, hg, h1.1, h1.2⟩

/-- C14, amended: for records within the capacity of the name buffers (`RecordsFit`: every
copied name has fewer than `MAX_INPUT` = 255 bytes), `build_hash_tables` creates exactly one
Movie entity per record (per line with a token), in record order and named by the record, and
the movie index holds exactly one entry per Movie; so for records with pairwise distinct movie
names there is exactly one Movie per distinct movie name and the movie index holds no two
entries for the same movie name. -/
theorem movie_entities (m : Nat) (lines : List (List Str)) (hm : 0 < m)
    (hfit : RecordsFit (records lines)) :
    ∃ g, freshGraph m lines = .ok g ∧
      g.movieHeap.map Movie.name = (records lines).map Prod.fst ∧
      (allEntries g.movies).Perm (entriesOf (g.movieHeap.map Movie.name)) ∧
      (((records lines).map Prod.fst).Nodup →
        (∀ (i j : Nat) (mv1 mv2 : Movie), g.movieHeap[i]? = some mv1 → g.movieHeap[j]? = some mv2 →
          mv1.name = mv2.name → i = j) ∧
        ∀ e1 ∈ allEntries g.movies, ∀ e2 ∈ allEntries g.movies, ∀ mv1 mv2,
          g.movieHeap[e1.value]? = some mv1 → g.movieHeap[e2.value]? = some mv2 →
          mv1.name = mv2.name → e1 = e2) := by
  obtain ⟨g, hg, _, hc⟩ := freshGraph_census hm lines hfit
  have hnames : g.movieHeap.map Movie.name = (records lines).map Prod.fst := by
    rw [hc.movie_heap, List.map_map]
    rfl
  refine ⟨g, hg, hnames, by rw [hnames]; exact hc.movie_entries, ?_⟩
  intro hnd
  constructor
  · intro i j mv1 mv2 h1 h2 hn
    rw [← hnames] at hnd
    have hj1 : (g.movieHeap.map Movie.name)[i]? = some mv1.name := by
      rw [List.getElem?_map, h1]; rfl
    have hj2 : (g.movieHeap.map Movie.name)[j]? = some mv1.name := by
      rw [List.getElem?_map, h2, hn]; rfl
    obtain ⟨l1, e1⟩ := List.getElem?_eq_some.1 hj1
    obtain ⟨l2, e2⟩ := List.getElem?_eq_some.1 hj2
    exact (List.Nodup.getElem_inj_iff hnd).1 (e1.trans e2.symm)
  · intro e1 he1 e2 he2 mv1 mv2 h1 h2 hn
    obtain ⟨i1, a1, hi1, rfl⟩ := mem_entriesOf.1 (hc.movie_entries.mem_iff.1 he1)
    obtain ⟨i2, a2, hi2, rfl⟩ := mem_entriesOf.1 (hc.movie_entries.mem_iff.1 he2)
    rw [← hnames] at hi1 hi2 hnd
    rw [List.getElem?_map] at hi1 hi2
    simp only at h1 h2
    rw [h1] at hi1
    rw [h2] at hi2
    simp only [Option.map_some', Option.some.injEq] at hi1 hi2
    have ha : a1 = a2 := by rw [← hi1, ← hi2, hn]
    subst ha
    have hj1 : (g.movieHeap.map Movie.name)[i1]? = some a1 := by
      rw [List.getElem?_map, h1]; simp [hi1]
    have hj2 : (g.movieHeap.map Movie.name)[i2]? = some a1 := by
      rw [List.getElem?_map, h2]; simp [hi2]
    obtain ⟨l1, e1⟩ := List.getElem?_eq_some.1 hj1
    obtain ⟨l2, e2⟩ := List.getElem?_eq_some.1 hj2
    have : i1 = i2 := (List.Nodup.getElem_inj_iff hnd).1 (e1.trans e2.symm)
    subst this
    rfl

theorem movie_entities_witness :
    0 < 2 ∧ RecordsFit (records chainLines) ∧
    ∃ g, freshGraph 2 chainLines = .ok g ∧
      g.movieHeap.map Movie.name = (records chainLines).map Prod.fst ∧
      (allEntries g.movies).Perm (entriesOf (g.movieHeap.map Movie.name)) ∧
      (((records chainLines).map Prod.fst).Nodup →
        (∀ (i j : Nat) (mv1 mv2 : Movie), g.movieHeap[i]? = some mv1 → g.movieHeap[j]? = some mv2 →
          mv1.name = mv2.name → i = j) ∧
        ∀ e1 ∈ allEntries g.movies, ∀ e2 ∈ allEntries g.movies, ∀ mv1 mv2,
          g.movieHeap[e1.value]? = some mv1 → g.movieHeap[e2.value]? = some mv2 →
          mv1.name = mv2.name → e1 = e2) :=
  ⟨by decide, chainLines_fit, movie_entities 2 chainLines (by decide) chainLines_fit⟩

theorem Census.actor_index {recs : List (Str × List Str)} {g : Graph} (hc : Census recs g)
    {i j : Nat} {a b : Actor} (hi : g.actorHeap[i]? = some a) (hj : g.actorHeap[j]? = some b)
    (hk : hashKey a.name = hashKey b.name) : i = j := by
  have hnd := keyFirsts_nodup ((occurrences recs).map Prod.fst)
  rw [← hc.actor_names, List.map_map] at hnd
  have h1 : (g.actorHeap.map (hashKey ∘ Actor.name))[i]? = some (hashKey a.name) := by
    rw [List.getElem?_map, hi]; rfl
  have h2 : (g.actorHeap.map (hashKey ∘ Actor.name))[j]? = some (hashKey a.name) := by
    rw [List.getElem?_map, hj, hk]; rfl
  obtain ⟨l1, e1⟩ := List.getElem?_eq_some.1 h1
  obtain ⟨l2, e2⟩ := List.getElem?_eq_some.1 h2
  exact (List.Nodup.getElem_inj_iff hnd).1 (e1.trans e2.symm)

/-- C15: for every record sequence within the capacity of the name buffers (`RecordsFit`:
every copied name has fewer than `MAX_INPUT` = 255 bytes) in which no two distinct cast names
have the same hash key (the key the index stores and compares, `|hash(name)|`), the graph is
built and the graph that `build_hash_tables` builds holds exactly one Actor per distinct cast name (the
names of the Actor entities are pairwise distinct and are exactly the names that occur in a
cast, and the actor index holds one entry per Actor), the index leads from every cast name to
the Actor of that name, and that Actor's filmography is the list of the movie names of the
records in which the name occurs, in record order, one entry per occurrence in a cast. -/
theorem filmography_construction (m : Nat) (lines : List (List Str)) (hm : 0 < m)
    (hfit : RecordsFit (records lines)) (hA : ActorKeysDistinct (records lines)) :
    ∃ g, freshGraph m lines = .ok g ∧
      (g.actorHeap.map Actor.name).Nodup ∧
      (∀ a, a ∈ g.actorHeap.map Actor.name ↔ Present (records lines) a) ∧
      (allEntries g.actors).Perm (entriesOf (g.actorHeap.map Actor.name)) ∧
      ∀ a, Present (records lines) a →
        ∃ i, search g.actors (hash a) = .ok (some { key := hashKey a, value := i }) ∧
          g.actorHeap[i]? = some
            { name := a
              movies := (((records lines).flatMap
                (fun r => r.2.map (fun c => (c, r.1)))).filter
                  (fun o => decide (o.1 = a))).map Prod.snd
              is_visited := 0, parent_movie_name := [], parent := none } := by
  obtain ⟨g, hg, hb, hc⟩ := freshGraph_census hm lines hfit
  refine ⟨g, hg, ?_, ?_, hc.actor_entries, ?_⟩
  · rw [hc.actor_names]
    exact List.Nodup.of_map _ (keyFirsts_nodup _)
  · intro a
    rw [hc.actor_names]
    constructor
    · intro ha
      have := keyFirsts_sub _ a ha
      rw [occurrences_map_fst] at this
      exact present_iff_mem.2 this
    · intro ha
      have hmem : a ∈ (occurrences (records lines)).map Prod.fst := by
        rw [occurrences_map_fst]
        exact present_iff_mem.1 ha
      obtain ⟨b, hb1, hb2⟩ := (keyFirsts_key (hashKey a) _).2 ⟨a, hmem, rfl⟩
      have hbp : Present (records lines) b := by
        have := keyFirsts_sub _ b hb1
        rw [occurrences_map_fst] at this
        exact present_iff_mem.2 this
      rw [← hA b a hbp ha hb2]
      exact hb1
  · intro a ha
    exact ⟨_, hb.actor_clean hA ha⟩

theorem filmography_construction_witness :
    0 < 2 ∧ RecordsFit (records chainLines) ∧ ActorKeysDistinct (records chainLines) ∧
    ∃ g, freshGraph 2 chainLines = .ok g ∧
      (g.actorHeap.map Actor.name).Nodup ∧
      (∀ a, a ∈ g.actorHeap.map Actor.name ↔ Present (records chainLines) a) ∧
      (allEntries g.actors).Perm (entriesOf (g.actorHeap.map Actor.name)) ∧
      ∀ a, Present (records chainLines) a →
        ∃ i, search g.actors (hash a) = .ok (some { key := hashKey a, value := i }) ∧
          g.actorHeap[i]? = some
            { name := a
              movies := (((records chainLines).flatMap
                (fun r => r.2.map (fun c => (c, r.1)))).filter
                  (fun o => decide (o.1 = a))).map Prod.snd
              is_visited := 0, parent_movie_name := [], parent := none } :=
  ⟨by decide, chainLines_fit, chainLines_actorKeys,
    filmography_construction 2 chainLines (by decide) chainLines_fit chainLines_actorKeys⟩

/-- C19: keys are compared by hash, not by string.  For two names `n1`, `n2` with
`hash(n1) = hash(n2)` (distinct strings included) and a table of `m ≥ 1` cells,
`search(ht, hash(n2))` after `insert(ht, hash(n1), v)` returns the entry made for `v`; and
`build_hash_tables` on a record within the capacity of the name buffers (`RecordsFit`: the
movie name and the cast names have fewer than `MAX_INPUT` = 255 bytes) whose cast contains `n1`
(and `n2`, or any other name with that hash) builds the graph and creates a single Actor for
them: both names are searched to the same Actor, no other Actor has a name with their key, the
Actor is named after the first cast name with that key, and its filmography holds the movie
name once per occurrence in the cast of a name with that key. -/
theorem keys_compared_by_hash (ht : List HashTable) (n1 n2 : Str) (v m : Nat) (M : Str)
    (cast : List Str) (hok : TableOk ht) (hh : hash n1 = hash n2) (hm : 0 < m)
    (hfit : RecordsFit (records [M :: cast])) (h1 : n1 ∈ cast) :
    (∃ ht1, insert ht (hash n1) v = .ok ht1 ∧
      search ht1 (hash n2) = .ok (some { key := |hash n1|, value := v })) ∧
    ∃ g i first, freshGraph m [M :: cast] = .ok g ∧
      cast.find? (fun c => decide (hashKey c = hashKey n1)) = some first ∧
      search g.actors (hash n1) = .ok (some { key := |hash n1|, value := i }) ∧
      search g.actors (hash n2) = .ok (some { key := |hash n1|, value := i }) ∧
      g.actorHeap[i]? = some
        { name := first
          movies := (cast.filter (fun c => decide (hashKey c = hashKey n1))).map (fun _ => M)
          is_visited := 0, parent_movie_name := [], parent := none } ∧
      ∀ (j : Nat) (a : Actor), g.actorHeap[j]? = some a → hashKey a.name = hashKey n1 →
        j = i := by
  constructor
  · obtain ⟨ht1, e1, _, _, hs1⟩ := insert_ok hok (absKey_hash_nonneg n1) v
    refine ⟨ht1, e1, ?_⟩
    rw [hs1 (hash n2) (absKey_hash_nonneg n2), if_pos (by rw [hh]), absKey_hash]
  · obtain ⟨g, hg, hb, hc⟩ := freshGraph_census hm [M :: cast] hfit
    have hrec : records [M :: cast] = [(M, cast)] := rfl
    rw [hrec] at hb hc
    have hocc : occurrences [(M, cast)] = cast.map (fun a => (a, M)) := by
      simp [occurrences]
    obtain ⟨o, i, hf, hs, hi⟩ := hb.actor_present ⟨(M, cast), List.mem_singleton.2 rfl, h1⟩
    have hkey : hashKey n1 = |hash n1| := absKey_hash n1
    rw [hocc] at hf hi
    rw [List.find?_map] at hf
    cases hfc : cast.find? (fun c => decide (hashKey c = hashKey n1)) with
    | none =>
        exfalso
        have := List.find?_eq_none.1 hfc n1 h1
        simp at this
    | some first =>
        have hfc' : List.find? ((fun o : Str × Str => decide (hashKey o.1 = hashKey n1)) ∘
            fun a => (a, M)) cast = some first := hfc
        rw [hfc'] at hf
        simp only [Option.map_some', Option.some.injEq] at hf
        subst hf
        refine ⟨g, i, first, hg, rfl, ?_, ?_, ?_, ?_⟩
        · rw [hs, hkey]
        · rw [← hh, hs, hkey]
        · rw [hi]
          simp only [builtActor, List.filter_map, List.map_map]
          rfl
        · intro j a hj hk
          have hname : hashKey (builtActor (cast.map (fun a => (a, M))) n1 (first, M)).name =
              hashKey n1 := by
            have := List.find?_some hfc
            simpa [builtActor] using this
          exact hc.actor_index hj hi (hk.trans hname.symm)

theorem keys_compared_by_hash_witness :
    TableOk chainGraph.actors ∧ hash (cstr "ab") = hash (cstr "Bc") ∧
    hash (cstr "ab") = 3135 ∧ cstr "ab" ≠ cstr "Bc" ∧ 0 < 2 ∧
    RecordsFit (records [cstr "M1" :: [cstr "ab", cstr "X", cstr "Bc"]]) ∧
    cstr "ab" ∈ [cstr "ab", cstr "X", cstr "Bc"] ∧
    ((∃ ht1, insert chainGraph.actors (hash (cstr "ab")) 7 = .ok ht1 ∧
      search ht1 (hash (cstr "Bc")) = .ok (some { key := |hash (cstr "ab")|, value := 7 })) ∧
    ∃ g i first, freshGraph 2 [cstr "M1" :: [cstr "ab", cstr "X", cstr "Bc"]] = .ok g ∧
      [cstr "ab", cstr "X", cstr "Bc"].find?
        (fun c => decide (hashKey c = hashKey (cstr "ab"))) = some first ∧
      search g.actors (hash (cstr "ab")) =
        .ok (some { key := |hash (cstr "ab")|, value := i }) ∧
      search g.actors (hash (cstr "Bc")) =
        .ok (some { key := |hash (cstr "ab")|, value := i }) ∧
      g.actorHeap[i]? = some
        { name := first
          movies := ([cstr "ab", cstr "X", cstr "Bc"].filter
            (fun c => decide (hashKey c = hashKey (cstr "ab")))).map (fun _ => cstr "M1")
          is_visited := 0, parent_movie_name := [], parent := none } ∧
      ∀ (j : Nat) (a : Actor), g.actorHeap[j]? = some a →
        hashKey a.name = hashKey (cstr "ab") → j = i) :=
  have hok : TableOk chainGraph.actors := ⟨by decide, by decide⟩
  have hh : hash (cstr "ab") = hash (cstr "Bc") := by decide!
  have h1 : cstr "ab" ∈ [cstr "ab", cstr "X", cstr "Bc"] := by decide!
  have hfit : RecordsFit (records [cstr "M1" :: [cstr "ab", cstr "X", cstr "Bc"]]) := by
    unfold RecordsFit
    decide!
  ⟨hok, hh, by decide!, by decide!, by decide, hfit, h1,
    keys_compared_by_hash chainGraph.actors (cstr "ab") (cstr "Bc") 7 2 (cstr "M1")
      [cstr "ab", cstr "X", cstr "Bc"] hok hh (by decide) hfit h1⟩

/-! ## The writes of `find_distance` on an arbitrary memory -/

theorem Evolves.refl (g : Graph) : Evolves g g :=
  { movies_eq := rfl
    actors_eq := rfl
    movie_cell := fun _ mv h => ⟨mv, h, rfl, rfl, fun h => h⟩
    actor_cell := fun _ a h => ⟨a, h, rfl, rfl, fun h => h, fun _ => ⟨rfl, rfl⟩⟩ }

theorem Evolves.trans {g g1 g2 : Graph} (h1 : Evolves g g1) (h2 : Evolves g1 g2) :
    Evolves g g2 := by
  refine ⟨h2.movies_eq.trans h1.movies_eq, h2.actors_eq.trans h1.actors_eq, ?_, ?_⟩
  · intro j mv hj
    obtain ⟨mv1, e1, n1, c1, v1⟩ := h1.movie_cell j mv hj
    obtain ⟨mv2, e2, n2, c2, v2⟩ := h2.movie_cell j mv1 e1
    exact ⟨mv2, e2, n2.trans n1, c2.trans c1, fun h => v2 (v1 h)⟩
  · intro i a hi
    obtain ⟨a1, e1, n1, c1, v1, p1⟩ := h1.actor_cell i a hi
    obtain ⟨a2, e2, n2, c2, v2, p2⟩ := h2.actor_cell i a1 e1
    refine ⟨a2, e2, n2.trans n1, c2.trans c1, fun h => v2 (v1 h), ?_⟩
    intro hs
    have hs1 : a1.is_visited ≠ 0 ∨ a1.parent ≠ none := by
      rcases hs with hs | hs
      · exact Or.inl (v1 hs)
      · exact Or.inr (by rw [(p1 (Or.inr hs)).1]; exact hs)
    exact ⟨(p2 hs1).1.trans (p1 hs).1, (p2 hs1).2.trans (p1 hs).2⟩

theorem Evolves.set_actor {g : Graph} {i : Nat} {a a1 : Actor} (hi : g.actorHeap[i]? = some a)
    (h1 : a1.name = a.name) (h2 : a1.movies = a.movies)
    (h3 : a.is_visited ≠ 0 → a1.is_visited ≠ 0)
    (h4 : (a.is_visited ≠ 0 ∨ a.parent ≠ none) →
      a1.parent = a.parent ∧ a1.parent_movie_name = a.parent_movie_name) :
    Evolves g { g with actorHeap := g.actorHeap.set i a1 } := by
  refine ⟨rfl, rfl, fun _ mv h => ⟨mv, h, rfl, rfl, fun h => h⟩, ?_⟩
  intro k b hk
  by_cases hik : i = k
  · subst hik
    rw [hi] at hk
    cases hk
    exact ⟨a1, List.getElem?_set_self (List.getElem?_eq_some.1 hi).1, h1, h2, h3, h4⟩
  · exact ⟨b, by simp only [List.getElem?_set_ne hik]; exact hk, rfl, rfl, fun h => h,
      fun _ => ⟨rfl, rfl⟩⟩

theorem Evolves.mark_movie {g : Graph} {j : Nat} {mv : Movie} (hj : g.movieHeap[j]? = some mv) :
    Evolves g { g with movieHeap := g.movieHeap.set j { mv with is_visited := 1 } } := by
  refine ⟨rfl, rfl, ?_, fun _ a h => ⟨a, h, rfl, rfl, fun h => h, fun _ => ⟨rfl, rfl⟩⟩⟩
  intro k b hk
  by_cases hjk : j = k
  · subst hjk
    rw [hj] at hk
    cases hk
    exact ⟨_, List.getElem?_set_self (List.getElem?_eq_some.1 hj).1, rfl, rfl,
      fun _ => (by decide : (1 : Int) ≠ 0)⟩
  · exact ⟨b, by simp only [List.getElem?_set_ne hjk]; exact hk, rfl, rfl, fun h => h⟩

theorem Evolves.movieVisited {g g1 : Graph} (h : Evolves g g1) {M : Str}
    (hM : MovieVisited g M) : MovieVisited g1 M := by
  obtain ⟨e, mv, h1, h2, h3⟩ := hM
  obtain ⟨mv1, e1, _, _, v1⟩ := h.movie_cell _ mv h2
  exact ⟨e, mv1, by rw [h.movies_eq]; exact h1, e1, v1 h3⟩

theorem castScan_cons_inv {cu : Nat} {mv : Movie} {a : Str} {rest : List Str} {g : Graph}
    {q : Queue} {r : Graph × Queue} (h : castScan cu mv (a :: rest) g q = .ok r) :
    ∃ e ta, search g.actors (hash a) = .ok (some e) ∧ g.actorHeap[e.value]? = some ta ∧
      castScan cu mv (a :: rest) g q =
        if ta.is_visited = 0 then
          castScan cu mv rest
            (if ta.parent = none then
              { g with actorHeap := g.actorHeap.set e.value { ta with parent := some cu, parent_movie_name := mv.name } }
            else g) (enqueue q ta.name)
        else castScan cu mv rest g q := by
  cases hs : search g.actors (hash a) with
  | fault => simp [castScan, hs] at h
  | timeout => simp [castScan, hs] at h
  | ok o =>
      cases o with
      | none => simp [castScan, hs] at h
      | some e =>
          cases hd : g.actorHeap[e.value]? with
          | none => simp [castScan, hs, deref, hd] at h
          | some ta =>
              refine ⟨e, ta, rfl, hd, ?_⟩
              simp only [castScan, hs, deref, hd]

theorem movieScan_cons_inv {cu : Nat} {name : Str} {rest : List Str} {g : Graph}
    {q : Queue} {r : Graph × Queue} (h : movieScan cu (name :: rest) g q = .ok r) :
    ∃ e mv, search g.movies (hash name) = .ok (some e) ∧ g.movieHeap[e.value]? = some mv ∧
      ((mv.is_visited ≠ 0 ∧ movieScan cu (name :: rest) g q = movieScan cu rest g q) ∨
       (mv.is_visited = 0 ∧ ∃ g1 q1,
          castScan cu { mv with is_visited := 1 } mv.actors
            { g with movieHeap := g.movieHeap.set e.value { mv with is_visited := 1 } } q =
              .ok (g1, q1) ∧
          movieScan cu (name :: rest) g q = movieScan cu rest g1 q1)) := by
  cases hs : search g.movies (hash name) with
  | fault => simp [movieScan, hs] at h
  | timeout => simp [movieScan, hs] at h
  | ok o =>
      cases o with
      | none => simp [movieScan, hs] at h
      | some e =>
          cases hd : g.movieHeap[e.value]? with
          | none => simp [movieScan, hs, deref, hd] at h
          | some mv =>
              refine ⟨e, mv, rfl, hd, ?_⟩
              by_cases hv : mv.is_visited = 0
              · right
                refine ⟨hv, ?_⟩
                simp only [movieScan, hs, deref, hd, hv, if_true] at h ⊢
                cases hc : castScan cu { mv with is_visited := 1 } mv.actors
                    { g with movieHeap := g.movieHeap.set e.value { mv with is_visited := 1 } }
                    q with
                | fault => simp [hc] at h
                | timeout => simp [hc] at h
                | ok p => exact ⟨p.1, p.2, rfl, rfl⟩
              · left
                refine ⟨hv, ?_⟩
                simp only [movieScan, hs, deref, hd, hv, if_false]

theorem castScan_evolves (cu : Nat) (mv : Movie) : ∀ (cast : List Str) (g : Graph) (q : Queue)
    (g1 : Graph) (q1 : Queue), castScan cu mv cast g q = .ok (g1, q1) →
    Evolves g g1 ∧ g1.movieHeap = g.movieHeap := by
  intro cast
  induction cast with
  | nil =>
      intro g q g1 q1 h
      simp only [castScan, Res.ok.injEq, Prod.mk.injEq] at h
      rw [← h.1]
      exact ⟨Evolves.refl g, rfl⟩
  | cons a rest ih =>
      intro g q g1 q1 h
      obtain ⟨e, ta, hs, hd, heq⟩ := castScan_cons_inv h
      rw [heq] at h
      by_cases hv : ta.is_visited = 0
      · rw [if_pos hv] at h
        by_cases hp : ta.parent = none
        · rw [if_pos hp] at h
          obtain ⟨h1, h2⟩ := ih _ _ _ _ h
          have hset : Evolves g { g with actorHeap := g.actorHeap.set e.value { ta with parent := some cu, parent_movie_name := mv.name } } := by
            refine Evolves.set_actor hd rfl rfl (fun hc => absurd hv hc) ?_
            rintro (hc | hc)
            · exact absurd hv hc
            · exact absurd hp hc
          exact ⟨hset.trans h1, h2⟩
        · rw [if_neg hp] at h
          exact ih _ _ _ _ h
      · rw [if_neg hv] at h
        exact ih _ _ _ _ h

theorem movieScan_evolves (cu : Nat) : ∀ (names : List Str) (g : Graph) (q : Queue)
    (g1 : Graph) (q1 : Queue), movieScan cu names g q = .ok (g1, q1) →
    Evolves g g1 ∧ ∀ M ∈ names, MovieVisited g1 M := by
  intro names
  induction names with
  | nil =>
      intro g q g1 q1 h
      simp only [movieScan, Res.ok.injEq, Prod.mk.injEq] at h
      rw [← h.1]
      exact ⟨Evolves.refl g, fun M hM => by cases hM⟩
  | cons name rest ih =>
      intro g q g1 q1 h
      obtain ⟨e, mv, hs, hd, hcase⟩ := movieScan_cons_inv h
      rcases hcase with ⟨hv, heq⟩ | ⟨hv, g2, q2, hc, heq⟩
      · rw [heq] at h
        obtain ⟨h1, h2⟩ := ih _ _ _ _ h
        refine ⟨h1, ?_⟩
        intro M hM
        rcases List.mem_cons.1 hM with rfl | hM
        · exact h1.movieVisited ⟨e, mv, hs, hd, hv⟩
        · exact h2 M hM
      · rw [heq] at h
        obtain ⟨h1, h2⟩ := ih _ _ _ _ h
        obtain ⟨c1, c2⟩ := castScan_evolves _ _ _ _ _ _ _ hc
        have hset := Evolves.mark_movie (g := g) hd
        refine ⟨(hset.trans c1).trans h1, ?_⟩
        intro M hM
        rcases List.mem_cons.1 hM with rfl | hM
        · refine h1.movieVisited ⟨e, { mv with is_visited := 1 }, ?_, ?_, (by decide : (1 : Int) ≠ 0)⟩
          · rw [c1.movies_eq]
            exact hs
          · rw [c2]
            exact List.getElem?_set_self (List.getElem?_eq_some.1 hd).1
        · exact h2 M hM

theorem foundEnd_graph {walk : Nat} {v : Str} {g g1 : Graph} {r : Int} {out : List Line}
    (h : foundEnd walk v g = .ok (r, out, g1)) : g1 = g := by
  unfold foundEnd at h
  cases hs : search g.actors (hash v) with
  | fault => simp [hs] at h
  | timeout => simp [hs] at h
  | ok o =>
      cases o with
      | none => simp [hs] at h
      | some e =>
          cases hd : deref g.actorHeap e.value with
          | fault => simp [hs, hd] at h
          | timeout => simp [hs, hd] at h
          | ok ca =>
              cases hb : backtrack g walk (some e.value) ca.parent 0 [] with
              | fault => simp [hs, hd, hb] at h
              | timeout => simp [hs, hd, hb] at h
              | ok p =>
                  simp only [hs, hd, hb, Res.ok.injEq, Prod.mk.injEq] at h
                  exact h.2.2.symm

theorem bfsLoop_inv {end_ : Str} {walk fuel : Nat} {g : Graph} {q : Queue}
    {res : Int × List Line × Graph} (h : bfsLoop end_ walk fuel g q = .ok res) :
    (q.front = [] ∧ res = (-1, [], g)) ∨
    ∃ k node q1, fuel = k + 1 ∧ q.front ≠ [] ∧ dequeue q = (some node, q1) ∧
      ((node.value = end_ ∧ foundEnd walk node.value g = .ok res) ∨
       (node.value ≠ end_ ∧ ∃ e ca g1 q2, search g.actors (hash node.value) = .ok (some e) ∧
          g.actorHeap[e.value]? = some ca ∧ movieScan e.value ca.movies g q1 = .ok (g1, q2) ∧
          bfsLoop end_ walk k g1 q2 = .ok res)) := by
  by_cases hq : q.front = []
  · left
    cases fuel <;> simp only [bfsLoop, hq, if_true, Res.ok.injEq] at h <;> exact ⟨hq, h.symm⟩
  · right
    cases fuel with
    | zero => simp [bfsLoop, hq] at h
    | succ k =>
        simp only [bfsLoop, hq, if_false] at h
        rcases hdq : dequeue q with ⟨_ | node, q1⟩
        · simp [hdq] at h
        · rw [hdq] at h
          simp only at h
          refine ⟨k, node, q1, rfl, hq, rfl, ?_⟩
          by_cases hv : node.value = end_
          · left
            simp only [hv, if_true] at h
            exact ⟨hv, by rw [hv]; exact h⟩
          · right
            simp only [hv, if_false] at h
            refine ⟨hv, ?_⟩
            cases hs : search g.actors (hash node.value) with
            | fault => simp [hs] at h
            | timeout => simp [hs] at h
            | ok o =>
                cases o with
                | none => simp [hs] at h
                | some e =>
                    cases hd : g.actorHeap[e.value]? with
                    | none => simp [hs, deref, hd] at h
                    | some ca =>
                        simp only [hs, deref, hd] at h
                        cases hm : movieScan e.value ca.movies g q1 with
                        | fault => simp [hm] at h
                        | timeout => simp [hm] at h
                        | ok p =>
                            rw [hm] at h
                            exact ⟨e, ca, p.1, p.2, rfl, hd, hm, h⟩

theorem bfsLoop_evolves (end_ : Str) (walk : Nat) : ∀ (fuel : Nat) (g : Graph) (q : Queue)
    (r : Int) (out : List Line) (g1 : Graph),
    bfsLoop end_ walk fuel g q = .ok (r, out, g1) → Evolves g g1 := by
  intro fuel
  induction fuel with
  | zero =>
      intro g q r out g1 h
      rcases bfsLoop_inv h with ⟨_, he⟩ | ⟨k, _, _, hk, _⟩
      · simp only [Prod.mk.injEq] at he
        rw [he.2.2]
        exact Evolves.refl g
      · cases hk
  | succ n ih =>
      intro g q r out g1 h
      rcases bfsLoop_inv h with ⟨_, he⟩ | ⟨k, node, q1, hk, _, _, hcase⟩
      · simp only [Prod.mk.injEq] at he
        rw [he.2.2]
        exact Evolves.refl g
      · cases hk
        rcases hcase with ⟨_, hf⟩ | ⟨_, e, ca, g2, q2, _, _, hm, hrest⟩
        · rw [foundEnd_graph hf]
          exact Evolves.refl g
        · exact (movieScan_evolves _ _ _ _ _ _ hm).1.trans (ih _ _ _ _ _ hrest)

theorem movieScan_noop (cu : Nat) (g : Graph) (q : Queue) : ∀ names : List Str,
    (∀ M ∈ names, MovieVisited g M) → movieScan cu names g q = .ok (g, q) := by
  intro names
  induction names with
  | nil => intro _; rfl
  | cons name rest ih =>
      intro h
      obtain ⟨e, mv, hs, hd, hv⟩ := h name (List.mem_cons_self _ _)
      simp only [movieScan, hs, deref, hd, hv, if_false]
      exact ih (fun M hM => h M (List.mem_cons_of_mem _ hM))

theorem find_distance_inv {fuel : Nat} {a b : Str} {g g1 : Graph} {r : Int} {out : List Line}
    {e : MapEntry} (ha : search g.actors (hash a) = .ok (some e))
    (hb : ∃ e2, search g.actors (hash b) = .ok (some e2))
    (hrun : find_distance fuel a b g = .ok (r, out, g1)) :
    ∃ s, g.actorHeap[e.value]? = some s ∧
      bfsLoop b fuel fuel { g with actorHeap := g.actorHeap.set e.value { s with is_visited := 1 } }
        (enqueue create_queue a) = .ok (r, out, g1) := by
  obtain ⟨e2, hb⟩ := hb
  cases hd : g.actorHeap[e.value]? with
  | none => simp [find_distance, ha, hb, deref, hd] at hrun
  | some s =>
      refine ⟨s, rfl, ?_⟩
      simpa only [find_distance, ha, hb, deref, hd] using hrun

theorem bfsLoop_empty (end_ : Str) (walk fuel : Nat) (g : Graph) {q : Queue}
    (hq : q.front = []) : bfsLoop end_ walk fuel g q = .ok (-1, [], g) := by
  cases fuel <;> simp only [bfsLoop, hq, if_true]

theorem bfsLoop_step {end_ : Str} {walk k : Nat} {g g1 : Graph} {q q1 q2 : Queue}
    {node : QueueNode} {e : MapEntry} {ca : Actor} (hq : q.front ≠ [])
    (hdq : dequeue q = (some node, q1)) (hv : node.value ≠ end_)
    (hs : search g.actors (hash node.value) = .ok (some e))
    (hd : g.actorHeap[e.value]? = some ca)
    (hm : movieScan e.value ca.movies g q1 = .ok (g1, q2)) :
    bfsLoop end_ walk (k + 1) g q = bfsLoop end_ walk k g1 q2 := by
  simp only [bfsLoop, hq, if_false, hdq, hv, hs, deref, hd, hm]

theorem bfsLoop_found {end_ : Str} {walk k : Nat} {g : Graph} {q q1 : Queue}
    {node : QueueNode} (hq : q.front ≠ [])
    (hdq : dequeue q = (some node, q1)) (hv : node.value = end_) :
    bfsLoop end_ walk (k + 1) g q = foundEnd walk node.value g := by
  simp only [bfsLoop, hq, if_false, hdq, hv, if_true]

theorem dequeue_start (a : Str) :
    (enqueue create_queue a).front ≠ [] ∧
      dequeue (enqueue create_queue a) = (some { value := a }, { front := [], rear := none }) := by
  constructor
  · simp [enqueue, create_queue]
  · simp [dequeue, enqueue, create_queue]

/-- C13: visitation state is never reset.  On every memory, for two names `a`, `b` that are
different strings and both found in the actor index, a call `find_distance(a, b)` that returns
leaves every visited flag that was set still set, the actor of `a` marked and all movies of its
filmography marked visited; so a second call `find_distance(a, b)` on the resulting memory
returns -1 (printing nothing) for every budget of at least one iteration, whatever the first
call returned. -/
theorem second_call_returns_minus_one (g : Graph) (a b : Str) (fuel : Nat) (r : Int)
    (out : List Line) (g1 : Graph) (hne : a ≠ b)
    (ha : ∃ e, search g.actors (hash a) = .ok (some e))
    (hb : ∃ e, search g.actors (hash b) = .ok (some e))
    (hrun : find_distance fuel a b g = .ok (r, out, g1)) :
    Evolves g g1 ∧
    (∃ e s, search g1.actors (hash a) = .ok (some e) ∧ g1.actorHeap[e.value]? = some s ∧
      s.is_visited ≠ 0 ∧ ∀ M ∈ s.movies, MovieVisited g1 M) ∧
    ∀ fuel2, 1 ≤ fuel2 →
      ∃ g2, find_distance fuel2 a b g1 = .ok (-1, [], g2) ∧ Evolves g1 g2 := by
  obtain ⟨e, ha⟩ := ha
  obtain ⟨s, hs, hloop⟩ := find_distance_inv ha hb hrun
  have h0 : Evolves g { g with actorHeap := g.actorHeap.set e.value { s with is_visited := 1 } } :=
    Evolves.set_actor hs rfl rfl (fun _ => (by decide : (1 : Int) ≠ 0)) (fun _ => ⟨rfl, rfl⟩)
  have h01 := bfsLoop_evolves _ _ _ _ _ _ _ _ hloop
  have hg1 : Evolves g g1 := h0.trans h01
  have hcell : ∃ s1, g1.actorHeap[e.value]? = some s1 ∧ s1.is_visited ≠ 0 ∧
      ∀ M ∈ s1.movies, MovieVisited g1 M := by
    rcases bfsLoop_inv hloop with ⟨hq, _⟩ | ⟨k, node, q1, hk, _, hdq, hcase⟩
    · exact absurd hq (dequeue_start a).1
    · rw [(dequeue_start a).2] at hdq
      simp only [Prod.mk.injEq, Option.some.injEq] at hdq
      obtain ⟨rfl, rfl⟩ := hdq
      rcases hcase with ⟨hv, _⟩ | ⟨_, e1, ca, g3, q2, hs1, hd1, hm, hrest⟩
      · exact absurd hv hne
      · have he : e1 = e := by
          have : search g.actors (hash a) = .ok (some e1) := hs1
          rw [ha] at this
          simp only [Res.ok.injEq, Option.some.injEq] at this
          exact this.symm
        subst he
        have hca : ca = { s with is_visited := 1 } := by
          have h1 : (g.actorHeap.set e1.value { s with is_visited := 1 })[e1.value]? =
              some ca := hd1
          rw [List.getElem?_set_self (List.getElem?_eq_some.1 hs).1] at h1
          simp only [Option.some.injEq] at h1
          exact h1.symm
        obtain ⟨hm1, hm2⟩ := movieScan_evolves _ _ _ _ _ _ hm
        have h31 := bfsLoop_evolves _ _ _ _ _ _ _ _ hrest
        obtain ⟨s1, c1, _, c3, c4, _⟩ := (hm1.trans h31).actor_cell _ ca hd1
        have hvis : ca.is_visited ≠ 0 := by
          rw [hca]
          exact (by decide : (1 : Int) ≠ 0)
        refine ⟨s1, c1, c4 hvis, ?_⟩
        intro M hM
        rw [c3] at hM
        exact h31.movieVisited (hm2 M hM)
  obtain ⟨s1, hs1, hv1, hmv1⟩ := hcell
  have ha1 : search g1.actors (hash a) = .ok (some e) := by rw [hg1.actors_eq]; exact ha
  refine ⟨hg1, ⟨e, s1, ha1, hs1, hv1, hmv1⟩, ?_⟩
  intro fuel2 hf2
  obtain ⟨k2, rfl⟩ : ∃ k2, fuel2 = k2 + 1 := ⟨fuel2 - 1, by omega⟩
  obtain ⟨e2, hb⟩ := hb
  have hb1 : search g1.actors (hash b) = .ok (some e2) := by rw [hg1.actors_eq]; exact hb
  have h12 : Evolves g1
      { g1 with actorHeap := g1.actorHeap.set e.value { s1 with is_visited := 1 } } :=
    Evolves.set_actor hs1 rfl rfl (fun _ => (by decide : (1 : Int) ≠ 0)) (fun _ => ⟨rfl, rfl⟩)
  refine ⟨_, ?_, h12⟩
  have hfd : find_distance (k2 + 1) a b g1 = bfsLoop b (k2 + 1) (k2 + 1)
      { g1 with actorHeap := g1.actorHeap.set e.value { s1 with is_visited := 1 } }
      (enqueue create_queue a) := by
    simp only [find_distance, ha1, hb1, deref, hs1]
  have hd2 : (g1.actorHeap.set e.value { s1 with is_visited := 1 })[e.value]? =
      some { s1 with is_visited := 1 } :=
    List.getElem?_set_self (List.getElem?_eq_some.1 hs1).1
  have hm2 : movieScan e.value s1.movies
      { g1 with actorHeap := g1.actorHeap.set e.value { s1 with is_visited := 1 } }
      { front := [], rear := none } =
      .ok ({ g1 with actorHeap := g1.actorHeap.set e.value { s1 with is_visited := 1 } },
        { front := [], rear := none }) :=
    movieScan_noop _ _ _ _ (fun M hM => h12.movieVisited (hmv1 M hM))
  have hstep := @bfsLoop_step b (k2 + 1) k2
    { g1 with actorHeap := g1.actorHeap.set e.value { s1 with is_visited := 1 } } _ _ _ _ _ e
    { s1 with is_visited := 1 } (dequeue_start a).1 (dequeue_start a).2 hne ha1 hd2 hm2
  rw [hfd, hstep]
  exact bfsLoop_empty _ _ _ _ rfl

theorem second_call_returns_minus_one_witness :
    cstr "A" ≠ cstr "C" ∧
    (∃ e, search chainGraph.actors (hash (cstr "A")) = .ok (some e)) ∧
    (∃ e, search chainGraph.actors (hash (cstr "C")) = .ok (some e)) ∧
    ∃ out g1, find_distance 4 (cstr "A") (cstr "C") chainGraph = .ok (2, out, g1) ∧
      (Evolves chainGraph g1 ∧
      (∃ e s, search g1.actors (hash (cstr "A")) = .ok (some e) ∧
        g1.actorHeap[e.value]? = some s ∧ s.is_visited ≠ 0 ∧
        ∀ M ∈ s.movies, MovieVisited g1 M) ∧
      ∀ fuel2, 1 ≤ fuel2 →
        ∃ g2, find_distance fuel2 (cstr "A") (cstr "C") g1 = .ok (-1, [], g2) ∧
          Evolves g1 g2) := by
  have hne : cstr "A" ≠ cstr "C" := by decide!
  have ha : ∃ e, search chainGraph.actors (hash (cstr "A")) = .ok (some e) :=
    ⟨{ key := 65, value := 0 }, by decide!⟩
  have hb : ∃ e, search chainGraph.actors (hash (cstr "C")) = .ok (some e) :=
    ⟨{ key := 67, value := 2 }, by decide!⟩
  have h3 : answer (find_distance 4 (cstr "A") (cstr "C") chainGraph) =
      some (2, [Line.hop (cstr "C") (cstr "B") (cstr "M2"),
                Line.hop (cstr "B") (cstr "A") (cstr "M1")]) := by
    decide!
  obtain ⟨g1, hg1⟩ := answer_eq_some h3
  exact ⟨hne, ha, hb, _, g1, hg1,
    second_call_returns_minus_one chainGraph (cstr "A") (cstr "C") 4 2 _ g1 hne ha hb hg1⟩

/-- C12 fails on the code: on the graph built from `M1/A/B` and `M2/B/C`, `find_distance("A",
"C")` enters its loop with `A` queued; expanding `A` (address 0) enqueues `B`; the second
iteration dequeues `B` and expanding `B` (address 1) enqueues `B` again, before `C`, because the
actor `B` is not marked visited when it is discovered.  The loop so dequeues the four names
`A`, `B`, `B`, `C` for three actors: three iterations do not reach the answer, four do. -/
theorem discovered_actor_enqueued_again :
    freshGraph 2 chainLines = .ok chainGraph ∧
    find_distance 4 (cstr "A") (cstr "C") chainGraph =
      bfsLoop (cstr "C") 4 4 chainStart (enqueue create_queue (cstr "A")) ∧
    search chainStart.actors (hash (cstr "A")) = .ok (some { key := 65, value := 0 }) ∧
    search chainStart.actors (hash (cstr "B")) = .ok (some { key := 66, value := 1 }) ∧
    (match movieScan 0 [cstr "M1"] chainStart (dequeue (enqueue create_queue (cstr "A"))).2 with
      | .ok (gA, qA) =>
          match movieScan 1 [cstr "M1", cstr "M2"] gA (dequeue qA).2 with
          | .ok (gB, qB) =>
              some ((dequeue (enqueue create_queue (cstr "A"))).1, qA.front, (dequeue qA).1,
                qB.front, gB.actorHeap.map Actor.is_visited)
          | _ => none
      | _ => none) =
      some (some { value := cstr "A" }, [{ value := cstr "B" }], some { value := cstr "B" },
        [{ value := cstr "B" }, { value := cstr "C" }], [1, 0, 0]) ∧
    bfsLoop (cstr "C") 4 3 chainStart (enqueue create_queue (cstr "A")) = .timeout ∧
    answer (bfsLoop (cstr "C") 4 4 chainStart (enqueue create_queue (cstr "A"))) =
      some (2, [Line.hop (cstr "C") (cstr "B") (cstr "M2"),
                Line.hop (cstr "B") (cstr "A") (cstr "M1")]) :=
  ⟨freshGraph_chainLines, by decide!, by decide!, by decide!, by decide!, by decide!, by decide!⟩

/-! ## Termination of `find_distance` on the memories reached by earlier calls -/

theorem Evolves.seen {g g1 : Graph} (h : Evolves g g1) {i : Nat} (hs : Seen g i) :
    Seen g1 i := by
  obtain ⟨a, ha, hv⟩ := hs
  obtain ⟨a1, e1, _, _, v1, p1⟩ := h.actor_cell i a ha
  refine ⟨a1, e1, ?_⟩
  rcases hv with hv | hv
  · exact Or.inl (v1 hv)
  · exact Or.inr (by rw [(p1 (Or.inr hv)).1]; exact hv)

theorem Evolves.movieOk {g g1 : Graph} (h : Evolves g g1) {M : Str} (hM : MovieOk g M) :
    MovieOk g1 M := by
  obtain ⟨e, mv, h1, h2, h3⟩ := hM
  obtain ⟨mv1, e1, _, c1, _⟩ := h.movie_cell _ mv h2
  refine ⟨e, mv1, by rw [h.movies_eq]; exact h1, e1, ?_⟩
  intro c hc
  rw [c1] at hc
  rw [h.actors_eq]
  exact h3 c hc

theorem Evolves.queueOk {g g1 : Graph} (h : Evolves g g1) {q : Queue} (hq : QueueOk g q) :
    QueueOk g1 q := by
  intro node hn
  obtain ⟨e, h1, h2⟩ := hq node hn
  exact ⟨e, by rw [h.actors_eq]; exact h1, h.seen h2⟩

theorem Sound.of_same_parents {g g1 : Graph} (h : Sound g) (hev : Evolves g g1)
    (hp : ∀ (i : Nat) (a1 : Actor), g1.actorHeap[i]? = some a1 →
      ∃ a, g.actorHeap[i]? = some a ∧ a1.parent = a.parent) : Sound g1 := by
  refine ⟨by rw [hev.actors_eq]; exact h.actors_ok, ?_, ?_, ?_⟩
  · intro s e hs
    rw [hev.actors_eq] at hs ⊢
    obtain ⟨a, ha, hn, hm⟩ := h.lookup s e hs
    obtain ⟨a1, e1, n1, c1, _, _⟩ := hev.actor_cell _ a ha
    refine ⟨a1, e1, by rw [n1]; exact hn, ?_⟩
    intro M hM
    rw [c1] at hM
    exact hev.movieOk (hm M hM)
  · intro i a1 p hi hpar
    obtain ⟨a, ha, hpa⟩ := hp i a1 hi
    exact hev.seen (h.parent_seen i a p ha (by rw [← hpa]; exact hpar))
  · obtain ⟨rank, hr⟩ := h.ranked
    refine ⟨rank, ?_⟩
    intro i a1 p hi hpar
    obtain ⟨a, ha, hpa⟩ := hp i a1 hi
    exact hr i a p ha (by rw [← hpa]; exact hpar)

theorem Sound.keep_movie {g : Graph} (h : Sound g) {j : Nat} {mv : Movie}
    (hj : g.movieHeap[j]? = some mv) :
    Sound { g with movieHeap := g.movieHeap.set j { mv with is_visited := 1 } } :=
  h.of_same_parents (Evolves.mark_movie hj) (fun _ a1 hi => ⟨a1, hi, rfl⟩)

theorem Sound.mark_start {g : Graph} (h : Sound g) {i : Nat} {s : Actor}
    (hi : g.actorHeap[i]? = some s) :
    Sound { g with actorHeap := g.actorHeap.set i { s with is_visited := 1 } } := by
  refine h.of_same_parents (Evolves.set_actor hi rfl rfl
    (fun _ => (by decide : (1 : Int) ≠ 0)) (fun _ => ⟨rfl, rfl⟩)) ?_
  intro k a1 hk
  by_cases hik : i = k
  · subst hik
    have h1 : (g.actorHeap.set i { s with is_visited := 1 })[i]? = some a1 := hk
    rw [List.getElem?_set_self (List.getElem?_eq_some.1 hi).1] at h1
    simp only [Option.some.injEq] at h1
    exact ⟨s, hi, by rw [← h1]⟩
  · have h1 : (g.actorHeap.set i { s with is_visited := 1 })[k]? = some a1 := hk
    rw [List.getElem?_set_ne hik] at h1
    exact ⟨a1, h1, rfl⟩

theorem Sound.link_parent {g : Graph} (h : Sound g) {i cu : Nat} {ta : Actor} (M : Str)
    (hi : g.actorHeap[i]? = some ta) (hv : ta.is_visited = 0) (hp : ta.parent = none)
    (hcu : Seen g cu) :
    Sound { g with actorHeap := g.actorHeap.set i { ta with parent := some cu, parent_movie_name := M } } := by
  have hev : Evolves g { g with actorHeap := g.actorHeap.set i { ta with parent := some cu, parent_movie_name := M } } := by
    refine Evolves.set_actor hi rfl rfl (fun hc => absurd hv hc) ?_
    rintro (hc | hc)
    · exact absurd hv hc
    · exact absurd hp hc
  have hnot : ¬ Seen g i := by
    rintro ⟨a, ha, hc⟩
    rw [hi] at ha
    cases ha
    rcases hc with hc | hc
    · exact hc hv
    · exact hc hp
  have hcell : ∀ (k : Nat) (a1 : Actor),
      (g.actorHeap.set i { ta with parent := some cu, parent_movie_name := M })[k]? = some a1 →
      (k = i ∧ a1.parent = some cu) ∨ (k ≠ i ∧ g.actorHeap[k]? = some a1) := by
    intro k a1 hk
    by_cases hik : i = k
    · subst hik
      rw [List.getElem?_set_self (List.getElem?_eq_some.1 hi).1] at hk
      simp only [Option.some.injEq] at hk
      exact Or.inl ⟨rfl, by rw [← hk]⟩
    · rw [List.getElem?_set_ne hik] at hk
      exact Or.inr ⟨fun hc => hik hc.symm, hk⟩
  refine ⟨h.actors_ok, ?_, ?_, ?_⟩
  · intro s e hs
    obtain ⟨a, ha, hn, hm⟩ := h.lookup s e hs
    obtain ⟨a1, e1, n1, c1, _, _⟩ := hev.actor_cell _ a ha
    refine ⟨a1, e1, by rw [n1]; exact hn, ?_⟩
    intro M1 hM
    rw [c1] at hM
    exact hev.movieOk (hm M1 hM)
  · intro k a1 p hk hpar
    rcases hcell k a1 hk with ⟨_, hc⟩ | ⟨_, hc⟩
    · rw [hc] at hpar
      have hpc : cu = p := Option.some.inj hpar
      rw [← hpc]
      exact hev.seen hcu
    · exact hev.seen (h.parent_seen k a1 p hc hpar)
  · obtain ⟨rank, hr⟩ := h.ranked
    refine ⟨fun k => if k = i then rank cu + 1 else rank k, ?_⟩
    intro k a1 p hk hpar
    rcases hcell k a1 hk with ⟨hki, hc⟩ | ⟨hki, hc⟩
    · rw [hc] at hpar
      have hpc : cu = p := Option.some.inj hpar
      rw [← hpc]
      have hne : cu ≠ i := fun hc2 => hnot (hc2 ▸ hcu)
      simp only [hki, if_true, hne, if_false]
      omega
    · have hne : p ≠ i := fun hc2 => hnot (hc2 ▸ h.parent_seen k a1 p hc hpar)
      simp only [hki, hne, if_false]
      exact hr k a1 p hc hpar

theorem pendingCasts_set : ∀ (heap : List Movie) (j : Nat) (mv : Movie), heap[j]? = some mv →
    mv.is_visited = 0 →
    pendingCasts (heap.set j { mv with is_visited := 1 }) + mv.actors.length =
      pendingCasts heap := by
  intro heap
  induction heap with
  | nil =>
      intro j mv h
      cases h
  | cons x xs ih =>
      intro j mv h hv
      cases j with
      | zero =>
          simp only [List.getElem?_cons_zero, Option.some.injEq] at h
          subst h
          simp [pendingCasts, List.filter_cons, hv]
          omega
      | succ j =>
          simp only [List.getElem?_cons_succ] at h
          have h1 := ih j mv h hv
          simp only [pendingCasts, List.set_cons_succ, List.filter_cons] at h1 ⊢
          split
          · simp only [List.map_cons, List.sum_cons]
            omega
          · exact h1

theorem enqueue_front (q : Queue) (v : Str) :
    (enqueue q v).front = [{ value := v }] ∨ (enqueue q v).front = q.front ++ [{ value := v }] := by
  unfold enqueue
  cases q.rear with
  | none => exact Or.inl rfl
  | some _ => exact Or.inr rfl

theorem enqueue_length (q : Queue) (v : Str) :
    (enqueue q v).front.length ≤ q.front.length + 1 := by
  rcases enqueue_front q v with h | h <;> rw [h] <;> simp

theorem QueueOk.snoc {g : Graph} {q : Queue} (hq : QueueOk g q) {v : Str} {e : MapEntry}
    (hs : search g.actors (hash v) = .ok (some e)) (hseen : Seen g e.value) :
    QueueOk g (enqueue q v) := by
  intro node hn
  rcases enqueue_front q v with h | h
  · rw [h] at hn
    have : node = { value := v } := by simpa using hn
    subst this
    exact ⟨e, hs, hseen⟩
  · rw [h] at hn
    rcases List.mem_append.1 hn with hn | hn
    · exact hq node hn
    · have : node = { value := v } := by simpa using hn
      subst this
      exact ⟨e, hs, hseen⟩

theorem castScan_cons_eq {cu : Nat} {mv : Movie} {a : Str} {rest : List Str} {g : Graph}
    {q : Queue} {e : MapEntry} {ta : Actor} (hs : search g.actors (hash a) = .ok (some e))
    (hd : g.actorHeap[e.value]? = some ta) :
    castScan cu mv (a :: rest) g q =
      if ta.is_visited = 0 then
        castScan cu mv rest
          (if ta.parent = none then
            { g with actorHeap := g.actorHeap.set e.value { ta with parent := some cu, parent_movie_name := mv.name } }
          else g) (enqueue q ta.name)
      else castScan cu mv rest g q := by
  simp only [castScan, hs, deref, hd]

theorem castScan_sound (cu : Nat) (mv : Movie) : ∀ (cast : List Str) (g : Graph) (q : Queue),
    Sound g → Seen g cu → (∀ c ∈ cast, ∃ e, search g.actors (hash c) = .ok (some e)) →
    QueueOk g q →
    ∃ g1 q1, castScan cu mv cast g q = .ok (g1, q1) ∧ Sound g1 ∧ QueueOk g1 q1 ∧
      q1.front.length ≤ q.front.length + cast.length := by
  intro cast
  induction cast with
  | nil =>
      intro g q hg _ _ hq
      exact ⟨g, q, rfl, hg, hq, by simp⟩
  | cons a rest ih =>
      intro g q hg hcu hcast hq
      obtain ⟨e, hs⟩ := hcast a (List.mem_cons_self _ _)
      obtain ⟨ta, hd, hself, _⟩ := hg.lookup a e hs
      have hrest : ∀ c ∈ rest, ∃ e, search g.actors (hash c) = .ok (some e) :=
        fun c hc => hcast c (List.mem_cons_of_mem _ hc)
      rw [castScan_cons_eq hs hd]
      by_cases hv : ta.is_visited = 0
      · rw [if_pos hv]
        by_cases hp : ta.parent = none
        · rw [if_pos hp]
          have hev : Evolves g { g with actorHeap := g.actorHeap.set e.value { ta with parent := some cu, parent_movie_name := mv.name } } := by
            refine Evolves.set_actor hd rfl rfl (fun hc => absurd hv hc) ?_
            rintro (hc | hc)
            · exact absurd hv hc
            · exact absurd hp hc
          have hseen : Seen { g with actorHeap := g.actorHeap.set e.value { ta with parent := some cu, parent_movie_name := mv.name } } e.value :=
            ⟨_, List.getElem?_set_self (List.getElem?_eq_some.1 hd).1, Or.inr (by simp)⟩
          obtain ⟨g1, q1, h1, h2, h3, h4⟩ := ih _ (enqueue q ta.name)
            (hg.link_parent mv.name hd hv hp hcu) (hev.seen hcu) hrest
            ((hev.queueOk hq).snoc hself hseen)
          refine ⟨g1, q1, h1, h2, h3, ?_⟩
          have := enqueue_length q ta.name
          simp only [List.length_cons]
          omega
        · rw [if_neg hp]
          obtain ⟨g1, q1, h1, h2, h3, h4⟩ := ih g (enqueue q ta.name) hg hcu hrest
            (hq.snoc hself ⟨ta, hd, Or.inr hp⟩)
          refine ⟨g1, q1, h1, h2, h3, ?_⟩
          have := enqueue_length q ta.name
          simp only [List.length_cons]
          omega
      · rw [if_neg hv]
        obtain ⟨g1, q1, h1, h2, h3, h4⟩ := ih g q hg hcu hrest hq
        refine ⟨g1, q1, h1, h2, h3, ?_⟩
        simp only [List.length_cons]
        omega

theorem movieScan_sound (cu : Nat) : ∀ (names : List Str) (g : Graph) (q : Queue),
    Sound g → Seen g cu → (∀ M ∈ names, MovieOk g M) → QueueOk g q →
    ∃ g1 q1, movieScan cu names g q = .ok (g1, q1) ∧ Sound g1 ∧ QueueOk g1 q1 ∧
      q1.front.length + pendingCasts g1.movieHeap ≤
        q.front.length + pendingCasts g.movieHeap := by
  intro names
  induction names with
  | nil =>
      intro g q hg _ _ hq
      exact ⟨g, q, rfl, hg, hq, le_refl _⟩
  | cons name rest ih =>
      intro g q hg hcu hnames hq
      obtain ⟨e, mv, hs, hd, hcast⟩ := hnames name (List.mem_cons_self _ _)
      have hrest : ∀ M ∈ rest, MovieOk g M := fun M hM => hnames M (List.mem_cons_of_mem _ hM)
      by_cases hv : mv.is_visited = 0
      · have hev := Evolves.mark_movie (g := g) hd
        obtain ⟨g1, q1, c1, c2, c3, c4⟩ := castScan_sound cu { mv with is_visited := 1 }
          mv.actors { g with movieHeap := g.movieHeap.set e.value { mv with is_visited := 1 } } q
          (hg.keep_movie hd) (hev.seen hcu) hcast (hev.queueOk hq)
        obtain ⟨d1, d2⟩ := castScan_evolves _ _ _ _ _ _ _ c1
        have hev1 := hev.trans d1
        obtain ⟨g2, q2, f1, f2, f3, f4⟩ := ih g1 q1 c2 (hev1.seen hcu)
          (fun M hM => hev1.movieOk (hrest M hM)) c3
        refine ⟨g2, q2, ?_, f2, f3, ?_⟩
        · rw [← f1]
          simp only [movieScan, hs, deref, hd, hv, if_true, c1]
        · have hp := pendingCasts_set g.movieHeap e.value mv hd hv
          rw [d2] at f4
          have : pendingCasts ({ g with movieHeap := g.movieHeap.set e.value { mv with is_visited := 1 } } : Graph).movieHeap = pendingCasts (g.movieHeap.set e.value { mv with is_visited := 1 }) := rfl
          omega
      · obtain ⟨g2, q2, f1, f2, f3, f4⟩ := ih g q hg hcu hrest hq
        refine ⟨g2, q2, ?_, f2, f3, f4⟩
        rw [← f1]
        simp only [movieScan, hs, deref, hd, hv, if_false]

theorem dequeue_cons {q : Queue} {node : QueueNode} {rest : List QueueNode}
    (h : q.front = node :: rest) :
    dequeue q = (some node, { front := rest, rear := if rest = [] then none else q.rear }) := by
  simp only [dequeue, h]

theorem bfsLoop_sound (end_ : Str) : ∀ (fuel : Nat) (g : Graph) (q : Queue), Sound g →
    QueueOk g q → q.front.length + pendingCasts g.movieHeap ≤ fuel →
    ∃ g1, Sound g1 ∧
      ((∀ walk, bfsLoop end_ walk fuel g q = .ok (-1, [], g1)) ∨
       ∃ v e, search g1.actors (hash v) = .ok (some e) ∧
         ∀ walk, bfsLoop end_ walk fuel g q = foundEnd walk v g1) := by
  intro fuel
  induction fuel with
  | zero =>
      intro g q hg _ hm
      have hq : q.front = [] := List.length_eq_zero.1 (by omega)
      exact ⟨g, hg, Or.inl (fun walk => bfsLoop_empty _ _ _ _ hq)⟩
  | succ k ih =>
      intro g q hg hqok hm
      cases hf : q.front with
      | nil => exact ⟨g, hg, Or.inl (fun walk => bfsLoop_empty _ _ _ _ hf)⟩
      | cons node rest =>
          have hq : q.front ≠ [] := by rw [hf]; exact List.cons_ne_nil _ _
          have hdq := dequeue_cons hf
          obtain ⟨e, hs, hseen⟩ := hqok node (by rw [hf]; exact List.mem_cons_self _ _)
          by_cases hv : node.value = end_
          · exact ⟨g, hg, Or.inr ⟨node.value, e, hs, fun walk => bfsLoop_found hq hdq hv⟩⟩
          · obtain ⟨ca, hd, _, hmov⟩ := hg.lookup _ e hs
            have hq1 : QueueOk g { front := rest, rear := if rest = [] then none else q.rear } :=
              fun n hn => hqok n (by rw [hf]; exact List.mem_cons_of_mem _ hn)
            obtain ⟨g1, q2, m1, m2, m3, m4⟩ := movieScan_sound e.value ca.movies g _ hg hseen
              hmov hq1
            have hlen : q.front.length = rest.length + 1 := by rw [hf]; rfl
            obtain ⟨g2, s2, hres⟩ := ih g1 q2 m2 m3 (by simp only at m4; omega)
            refine ⟨g2, s2, ?_⟩
            rcases hres with hres | ⟨v, e2, hs2, hres⟩
            · left
              intro walk
              rw [bfsLoop_step hq hdq hv hs hd m1]
              exact hres walk
            · right
              refine ⟨v, e2, hs2, ?_⟩
              intro walk
              rw [bfsLoop_step hq hdq hv hs hd m1]
              exact hres walk

theorem backtrack_total (g : Graph) (rank : Nat → Nat)
    (hrank : ∀ (i : Nat) (a : Actor) (p : Nat), g.actorHeap[i]? = some a → a.parent = some p →
      rank p < rank i)
    (hseen : ∀ (i : Nat) (a : Actor) (p : Nat), g.actorHeap[i]? = some a → a.parent = some p →
      Seen g p) :
    ∀ (n c : Nat) (a : Actor), g.actorHeap[c]? = some a → rank c ≤ n →
    ∀ walk, n + 1 ≤ walk → ∀ (num : Int) (out : List Line),
    ∃ r, backtrack g walk (some c) a.parent num out = .ok r := by
  intro n
  induction n with
  | zero =>
      intro c a hc hr walk hw num out
      obtain ⟨w, rfl⟩ : ∃ w, walk = w + 1 := ⟨walk - 1, by omega⟩
      cases hp : a.parent with
      | none =>
          refine ⟨(num + 1, out), ?_⟩
          simp only [backtrack, deref, hc, hp]
      | some p =>
          have := hrank c a p hc hp
          omega
  | succ n ih =>
      intro c a hc hr walk hw num out
      obtain ⟨w, rfl⟩ : ∃ w, walk = w + 1 := ⟨walk - 1, by omega⟩
      cases hp : a.parent with
      | none =>
          refine ⟨(num + 1, out), ?_⟩
          simp only [backtrack, deref, hc, hp]
      | some p =>
          obtain ⟨b, hb, _⟩ := hseen c a p hc hp
          have hlt := hrank c a p hc hp
          obtain ⟨r, hr1⟩ := ih p b hb (by omega) w (by omega) (num + 1)
            (out ++ [Line.hop a.name b.name a.parent_movie_name])
          refine ⟨r, ?_⟩
          rw [← hr1]
          simp only [backtrack, deref, hc, hp, hb]

theorem foundEnd_total {g : Graph} (hg : Sound g) {v : Str} {e : MapEntry}
    (hs : search g.actors (hash v) = .ok (some e)) :
    ∃ W, ∀ walk, W ≤ walk → ∃ r out, foundEnd walk v g = .ok (r, out, g) := by
  obtain ⟨a, hd, _, _⟩ := hg.lookup v e hs
  obtain ⟨rank, hrank⟩ := hg.ranked
  refine ⟨rank e.value + 1, ?_⟩
  intro walk hw
  obtain ⟨r, hr⟩ := backtrack_total g rank hrank hg.parent_seen (rank e.value) e.value a hd
    (le_refl _) walk hw 0 []
  refine ⟨r.1 - 1, r.2, ?_⟩
  simp only [foundEnd, hs, deref, hd, hr]

theorem mem_of_getElem?_some {α : Type} {l : List α} {i : Nat} {a : α} (h : l[i]? = some a) :
    a ∈ l := by
  obtain ⟨hl, rfl⟩ := List.getElem?_eq_some.1 h
  exact List.getElem_mem hl

theorem find_distance_total {g : Graph} (hg : Sound g) (a b : Str) :
    ∃ F, ∀ fuel, F ≤ fuel →
      ∃ r out g1, find_distance fuel a b g = .ok (r, out, g1) ∧ Sound g1 := by
  obtain ⟨ra, hra⟩ := search_total hg.actors_ok a
  obtain ⟨rb, hrb⟩ := search_total hg.actors_ok b
  cases ra with
  | none =>
      refine ⟨0, fun fuel _ => ⟨-1, [Line.notFound], g, ?_, hg⟩⟩
      simp only [find_distance, hra]
  | some e =>
      cases rb with
      | none =>
          refine ⟨0, fun fuel _ => ⟨-1, [Line.notFound], g, ?_, hg⟩⟩
          simp only [find_distance, hra, hrb]
      | some e2 =>
          obtain ⟨s, hd, _, _⟩ := hg.lookup a e hra
          have hfd : ∀ fuel, find_distance fuel a b g = bfsLoop b fuel fuel
              { g with actorHeap := g.actorHeap.set e.value { s with is_visited := 1 } }
              (enqueue create_queue a) := by
            intro fuel
            simp only [find_distance, hra, hrb, deref, hd]
          have hg0 := hg.mark_start hd
          have hq0 : QueueOk
              { g with actorHeap := g.actorHeap.set e.value { s with is_visited := 1 } }
              (enqueue create_queue a) := by
            intro node hn
            have : node = { value := a } := by
              simpa [enqueue, create_queue] using hn
            subst this
            exact ⟨e, hra, _, List.getElem?_set_self (List.getElem?_eq_some.1 hd).1,
              Or.inl (by decide : (1 : Int) ≠ 0)⟩
          obtain ⟨g1, hg1, hres⟩ := bfsLoop_sound b
            ((enqueue create_queue a).front.length + pendingCasts g.movieHeap)
            { g with actorHeap := g.actorHeap.set e.value { s with is_visited := 1 } }
            (enqueue create_queue a) hg0 hq0 (le_refl _)
          rcases hres with hres | ⟨v, e3, hs3, hres⟩
          · refine ⟨(enqueue create_queue a).front.length + pendingCasts g.movieHeap, ?_⟩
            intro fuel hf
            refine ⟨-1, [], g1, ?_, hg1⟩
            rw [hfd, bfsLoop_mono b (le_refl fuel) _ fuel _ _ hf
              (by rw [hres fuel]; exact fun hc => by cases hc)]
            exact hres fuel
          · obtain ⟨W, hW⟩ := foundEnd_total hg1 hs3
            refine ⟨max ((enqueue create_queue a).front.length + pendingCasts g.movieHeap) W,
              ?_⟩
            intro fuel hf
            obtain ⟨r, out, hfe⟩ := hW fuel (le_trans (le_max_right _ _) hf)
            refine ⟨r, out, g1, ?_, hg1⟩
            rw [hfd, bfsLoop_mono b (le_refl fuel) _ fuel _ _ (le_trans (le_max_left _ _) hf)
              (by rw [hres fuel, hfe]; exact fun hc => by cases hc)]
            rw [hres fuel, hfe]

theorem find_distance_sound {g g1 : Graph} (hg : Sound g) {fuel : Nat} {a b : Str} {r : Int}
    {out : List Line} (h : find_distance fuel a b g = .ok (r, out, g1)) : Sound g1 := by
  obtain ⟨F, hF⟩ := find_distance_total hg a b
  obtain ⟨r2, out2, g2, h2, hs2⟩ := hF (max fuel F) (le_max_right _ _)
  rw [find_distance_mono a b g (le_max_left fuel F) (by rw [h]; exact fun hc => by cases hc),
    h] at h2
  simp only [Res.ok.injEq, Prod.mk.injEq] at h2
  rw [h2.2.2]
  exact hs2

theorem actorLoop_parents (movie : Movie) : ∀ (cast : List Str) (g g1 : Graph),
    actorLoop movie cast g = .ok g1 → (∀ a ∈ g.actorHeap, a.parent = none) →
    ∀ a ∈ g1.actorHeap, a.parent = none := by
  intro cast
  induction cast with
  | nil =>
      intro g g1 h hp
      simp only [actorLoop, Res.ok.injEq] at h
      rw [← h]
      exact hp
  | cons c rest ih =>
      intro g g1 h hp
      cases hs : search g.actors (hash c) with
      | fault => simp [actorLoop, hs] at h
      | timeout => simp [actorLoop, hs] at h
      | ok o =>
          cases o with
          | none =>
              cases hi : insert g.actors (hash (create_actor c).name) g.actorHeap.length with
              | fault => simp [actorLoop, hs, hi] at h
              | timeout => simp [actorLoop, hs, hi] at h
              | ok tbl =>
                  have hlen := actorLoop_fits movie h (List.cons_ne_nil _ _)
                  simp only [actorLoop, hs, hi, hlen, if_true] at h
                  refine ih _ _ h ?_
                  intro a ha
                  rcases List.mem_append.1 ha with ha | ha
                  · exact hp a ha
                  · have : a = _ := List.mem_singleton.1 ha
                    rw [this]
                    rfl
          | some result =>
              cases hd : g.actorHeap[result.value]? with
              | none => simp [actorLoop, hs, deref, hd] at h
              | some actor =>
                  have hlen := actorLoop_fits movie h (List.cons_ne_nil _ _)
                  simp only [actorLoop, hs, deref, hd, hlen, if_true] at h
                  refine ih _ _ h ?_
                  intro a ha
                  rcases List.mem_or_eq_of_mem_set ha with ha | ha
                  · exact hp a ha
                  · rw [ha]
                    exact hp actor (mem_of_getElem?_some hd)

theorem build_hash_tables_parents : ∀ (lines : List (List Str)) (g g1 : Graph),
    build_hash_tables lines g = .ok g1 → (∀ a ∈ g.actorHeap, a.parent = none) →
    ∀ a ∈ g1.actorHeap, a.parent = none := by
  intro lines
  induction lines with
  | nil =>
      intro g g1 h hp
      simp only [build_hash_tables, Res.ok.injEq] at h
      rw [← h]
      exact hp
  | cons line lines ih =>
      intro g g1 h hp
      cases line with
      | nil => exact ih g g1 (by simpa only [build_hash_tables] using h) hp
      | cons name cast =>
          cases hb : buildLine name cast g with
          | fault => simp [build_hash_tables, hb] at h
          | timeout => simp [build_hash_tables, hb] at h
          | ok g2 =>
              simp only [build_hash_tables, hb] at h
              refine ih g2 g1 h ?_
              unfold buildLine at hb
              cases hc : castLoop cast 1 (create_movie name).actors with
              | fault => simp [hc] at hb
              | timeout => simp [hc] at hb
              | ok actors =>
                  simp only [hc] at hb
                  cases hi : insert g.movies (hash (create_movie name).name)
                      g.movieHeap.length with
                  | fault => simp [hi] at hb
                  | timeout => simp [hi] at hb
                  | ok tbl =>
                      simp only [hi] at hb
                      exact actorLoop_parents _ _ _ _ hb hp

theorem freshGraph_parents {m : Nat} {lines : List (List Str)} {g : Graph}
    (h : freshGraph m lines = .ok g) : ∀ a ∈ g.actorHeap, a.parent = none := by
  unfold freshGraph at h
  cases hc : create_hash_table m with
  | fault => simp [hc] at h
  | timeout => simp [hc] at h
  | ok tbl =>
      simp only [hc] at h
      exact build_hash_tables_parents _ _ _ h (fun a ha => by cases ha)

theorem Built.is_sound {m : Nat} {recs : List (Str × List Str)} {g : Graph} (h : Built m recs g)
    (hp : ∀ a ∈ g.actorHeap, a.parent = none) : Sound g := by
  have hmovie : ∀ (c M : Str), (c, M) ∈ occurrences recs → MovieOk g M := by
    intro c M hmem
    obtain ⟨cast, hr, _⟩ := mem_occurrences.1 hmem
    have hs := h.movies_spec M
    cases hf : recs.reverse.find? (fun r => decide (hashKey r.1 = hashKey M)) with
    | none =>
        have := List.find?_eq_none.1 hf (M, cast) (List.mem_reverse.2 hr)
        simp at this
    | some r =>
        rw [hf] at hs
        obtain ⟨i, h1, h2⟩ := hs
        refine ⟨_, _, h1, h2, ?_⟩
        intro c2 hc2
        have hr2 : r ∈ recs := List.mem_reverse.1 (List.mem_of_find?_eq_some hf)
        obtain ⟨o, j, _, h3, _⟩ := h.actor_present ⟨r, hr2, hc2⟩
        exact ⟨_, h3⟩
  refine ⟨h.actors_ok, ?_, ?_, ?_⟩
  · intro s e hs
    have hsp := h.actors_spec s
    cases hf : (occurrences recs).find? (fun o => decide (hashKey o.1 = hashKey s)) with
    | none =>
        rw [hf, hs] at hsp
        cases hsp
    | some o =>
        rw [hf, hs] at hsp
        obtain ⟨i, h1, h2⟩ := hsp
        simp only [Res.ok.injEq, Option.some.injEq] at h1
        subst h1
        obtain ⟨hom, hok⟩ := find?_key_mem hf
        refine ⟨_, h2, ?_, ?_⟩
        · rw [← hs]
          exact search_hash_congr _ hok
        · intro M hM
          simp only [builtActor, List.mem_map, List.mem_filter] at hM
          obtain ⟨o2, ⟨ho2, _⟩, rfl⟩ := hM
          exact hmovie o2.1 o2.2 ho2
  · intro i a p hi hpar
    rw [hp a (mem_of_getElem?_some hi)] at hpar
    cases hpar
  · refine ⟨fun _ => 0, ?_⟩
    intro i a p hi hpar
    rw [hp a (mem_of_getElem?_some hi)] at hpar
    cases hpar

theorem Reachable.stays_sound {m : Nat} {lines : List (List Str)} {g : Graph}
    (h : Reachable m lines g) : Sound g := by
  induction h with
  | built hg => exact (freshGraph_built hg).is_sound (freshGraph_parents hg)
  | call _ hrun ih => exact find_distance_sound ih hrun

/-- C11: `find_distance` terminates on every reachable state.  For every memory reached from a
graph built by `build_hash_tables` by any finite number of earlier `find_distance` calls, the
parent links form no cycle (a rank decreases along every link), and for every pair of names
the call returns: for every budget from some bound on, the search loop and the backtracking
loop both end within the budget and the call returns a value, in a memory that is reachable
again. -/
theorem find_distance_terminates (m : Nat) (lines : List (List Str)) (g : Graph) (a b : Str)
    (hg : Reachable m lines g) :
    (∃ rank : Nat → Nat, ∀ (i : Nat) (x : Actor) (p : Nat), g.actorHeap[i]? = some x →
      x.parent = some p → rank p < rank i) ∧
    ∃ F, ∀ fuel, F ≤ fuel →
      ∃ r out g1, find_distance fuel a b g = .ok (r, out, g1) ∧ Reachable m lines g1 := by
  have hs := hg.stays_sound
  refine ⟨hs.ranked, ?_⟩
  obtain ⟨F, hF⟩ := find_distance_total hs a b
  refine ⟨F, ?_⟩
  intro fuel hf
  obtain ⟨r, out, g1, h1, _⟩ := hF fuel hf
  exact ⟨r, out, g1, h1, Reachable.call hg h1⟩

theorem find_distance_terminates_witness :
    ∃ g, find_distance 4 (cstr "A") (cstr "C") chainGraph =
        .ok (2, [Line.hop (cstr "C") (cstr "B") (cstr "M2"),
                 Line.hop (cstr "B") (cstr "A") (cstr "M1")], g) ∧
      Reachable 2 chainLines g ∧
      ((∃ rank : Nat → Nat, ∀ (i : Nat) (x : Actor) (p : Nat), g.actorHeap[i]? = some x →
        x.parent = some p → rank p < rank i) ∧
      ∃ F, ∀ fuel, F ≤ fuel →
        ∃ r out g1, find_distance fuel (cstr "C") (cstr "B") g = .ok (r, out, g1) ∧
          Reachable 2 chainLines g1) := by
  have h3 : answer (find_distance 4 (cstr "A") (cstr "C") chainGraph) =
      some (2, [Line.hop (cstr "C") (cstr "B") (cstr "M2"),
                Line.hop (cstr "B") (cstr "A") (cstr "M1")]) := by
    decide!
  obtain ⟨g, hg⟩ := answer_eq_some h3
  have hr : Reachable 2 chainLines g := Reachable.call (Reachable.built freshGraph_chainLines) hg
  exact ⟨g, hg, hr, find_distance_terminates 2 chainLines g (cstr "C") (cstr "B") hr⟩

/-! ## The queue -/

theorem QueueRep.enq {q : Queue} {pending : List Str} (h : QueueRep q pending) (v : Str) :
    QueueRep (enqueue q v) (pending ++ [v]) := by
  obtain ⟨h1, h2⟩ := h
  cases pending with
  | nil =>
      simp only [List.getLast?_nil, Option.map_none'] at h2
      simp [QueueRep, enqueue, h2]
  | cons x xs =>
      have hr : ∃ n, q.rear = some n := by
        rw [h2]
        cases hl : (x :: xs).getLast? with
        | none => simp at hl
        | some y => exact ⟨_, rfl⟩
      obtain ⟨n, hn⟩ := hr
      have hl : ((x :: xs) ++ [v]).getLast? = some v := List.getLast?_concat _
      refine ⟨?_, ?_⟩
      · simp [enqueue, hn, h1]
      · rw [hl]
        simp [enqueue, hn]

theorem QueueRep.deq_nil {q : Queue} (h : QueueRep q []) :
    dequeue q = (none, q) ∧ q = { front := [], rear := none } := by
  obtain ⟨h1, h2⟩ := h
  simp only [List.map_nil] at h1
  simp only [List.getLast?_nil, Option.map_none'] at h2
  have hq : q = { front := [], rear := none } := by
    cases q
    simp only at h1 h2
    rw [h1, h2]
  exact ⟨by simp only [dequeue, h1], hq⟩

theorem QueueRep.deq_cons {q : Queue} {v : Str} {pending : List Str}
    (h : QueueRep q (v :: pending)) :
    (dequeue q).1 = some { value := v } ∧ QueueRep (dequeue q).2 pending := by
  obtain ⟨h1, h2⟩ := h
  simp only [List.map_cons] at h1
  refine ⟨by simp only [dequeue, h1], ?_⟩
  simp only [dequeue, h1, QueueRep, true_and]
  cases pending with
  | nil => simp
  | cons x xs => simp [h2, List.getLast?_cons_cons]

theorem runQueue_fifo : ∀ (ops : List QueueOp) (q : Queue) (pending : List Str),
    QueueRep q pending →
    (runQueue ops q).1 = (fifoRun ops pending).1.map (Option.map QueueNode.mk) ∧
      QueueRep (runQueue ops q).2 (fifoRun ops pending).2 := by
  intro ops
  induction ops with
  | nil =>
      intro q pending h
      exact ⟨rfl, h⟩
  | cons op ops ih =>
      intro q pending h
      cases op with
      | enq v => exact ih _ _ (h.enq v)
      | deq =>
          cases pending with
          | nil =>
              obtain ⟨h1, h2⟩ := h.deq_nil
              have h3 := ih q [] h
              simp only [runQueue, fifoRun, h1, List.map_cons, Option.map_none']
              exact ⟨by rw [h3.1], h3.2⟩
          | cons v pending =>
              obtain ⟨h1, h2⟩ := h.deq_cons
              have h3 := ih _ _ h2
              simp only [runQueue, fifoRun, h1, List.map_cons, Option.map_some']
              exact ⟨by rw [h3.1], h3.2⟩

theorem fifoRun_order : ∀ (ops : List QueueOp) (pending : List Str),
    (fifoRun ops pending).1.reduceOption ++ (fifoRun ops pending).2 =
      pending ++ enqueuedValues ops := by
  intro ops
  induction ops with
  | nil =>
      intro pending
      simp [fifoRun, enqueuedValues]
  | cons op ops ih =>
      intro pending
      cases op with
      | enq v =>
          simp only [fifoRun, enqueuedValues]
          rw [ih]
          simp
      | deq =>
          cases pending with
          | nil =>
              simp only [fifoRun, enqueuedValues, List.reduceOption_cons_of_none]
              exact ih []
          | cons v pending =>
              simp only [fifoRun, enqueuedValues, List.reduceOption_cons_of_some,
                List.cons_append]
              rw [ih]

/-- C21: the queue is FIFO.  For every sequence of `enqueue` and `dequeue` calls on a queue
from `create_queue`, the pointers returned by the `dequeue` calls are those of the FIFO of the
specification (the node of the oldest value not yet dequeued, or `NULL` when nothing is
pending), the queue afterwards holds the pending values in order with `rear` at the newest; the
values dequeued followed by the pending ones are the values enqueued, in the order of the
enqueues; and `dequeue` on the queue when it is empty returns `NULL` and leaves it with
`front = rear = NULL`. -/
theorem queue_fifo (ops : List QueueOp) :
    (runQueue ops create_queue).1 = (fifoRun ops []).1.map (Option.map QueueNode.mk) ∧
    (runQueue ops create_queue).2.front = (fifoRun ops []).2.map QueueNode.mk ∧
    (runQueue ops create_queue).2.rear = (fifoRun ops []).2.getLast?.map QueueNode.mk ∧
    (fifoRun ops []).1.reduceOption ++ (fifoRun ops []).2 = enqueuedValues ops ∧
    ((runQueue ops create_queue).2.front = [] →
      dequeue (runQueue ops create_queue).2 = (none, { front := [], rear := none })) := by
  have h0 : QueueRep create_queue [] := ⟨rfl, rfl⟩
  obtain ⟨h1, h2, h3⟩ := runQueue_fifo ops create_queue [] h0
  refine ⟨h1, h2, h3, by simpa using fifoRun_order ops [], ?_⟩
  intro hf
  have hp : (fifoRun ops []).2 = [] := by
    rw [h2] at hf
    exact List.map_eq_nil_iff.1 hf
  have hrep : QueueRep (runQueue ops create_queue).2 [] := by
    rw [← hp]
    exact ⟨h2, h3⟩
  obtain ⟨e1, e2⟩ := hrep.deq_nil
  rw [e1, e2]

theorem find_distance_no_fault {g : Graph} (hg : Sound g) (a b : Str) (fuel : Nat) :
    find_distance fuel a b g ≠ .fault := by
  intro hc
  obtain ⟨F, hF⟩ := find_distance_total hg a b
  obtain ⟨r, out, g1, h1, _⟩ := hF (max fuel F) (le_max_right _ _)
  rw [find_distance_mono a b g (le_max_left fuel F) (by rw [hc]; exact fun h => by cases h),
    hc] at h1
  cases h1

/-- C22: lookups inside the traversal never fail.  For every record sequence within the
capacity of the name buffers (`RecordsFit`: every copied name has fewer than `MAX_INPUT` = 255
bytes) and table size `m ≥ 1`, `build_hash_tables` produces a graph, and in it every entry of the actor index leads
to an Actor, every entry of that Actor's filmography is found in the movie index and leads to
a Movie, and every entry of that Movie's cast is found in the actor index; so for every pair
of names the run of `find_distance` never takes a not-found branch or an invalid pointer (it
never faults, whatever the budget) and returns from some budget on; the same holds on every
memory reached by earlier calls. -/
theorem lookups_never_fail (m : Nat) (lines : List (List Str)) (a b : Str) (hm : 0 < m)
    (hfit : RecordsFit (records lines)) :
    ∃ g, freshGraph m lines = .ok g ∧
      (∀ (s : Str) (e : MapEntry), search g.actors (hash s) = .ok (some e) →
        ∃ x, g.actorHeap[e.value]? = some x ∧
          search g.actors (hash x.name) = .ok (some e) ∧
          ∀ M ∈ x.movies, ∃ e2 mv, search g.movies (hash M) = .ok (some e2) ∧
            g.movieHeap[e2.value]? = some mv ∧
            ∀ c ∈ mv.actors, ∃ e3, search g.actors (hash c) = .ok (some e3)) ∧
      (∀ fuel, find_distance fuel a b g ≠ .fault) ∧
      (∃ F, ∀ fuel, F ≤ fuel → ∃ r out g1, find_distance fuel a b g = .ok (r, out, g1)) ∧
      ∀ g1, Reachable m lines g1 → ∀ fuel, find_distance fuel a b g1 ≠ .fault := by
  obtain ⟨g, hg, _⟩ := freshGraph_spec hm lines hfit
  have hs : Sound g := (Reachable.built hg).stays_sound
  refine ⟨g, hg, hs.lookup, find_distance_no_fault hs a b, ?_, ?_⟩
  · obtain ⟨F, hF⟩ := find_distance_total hs a b
    refine ⟨F, fun fuel hf => ?_⟩
    obtain ⟨r, out, g1, h1, _⟩ := hF fuel hf
    exact ⟨r, out, g1, h1⟩
  · intro g1 hg1 fuel
    exact find_distance_no_fault hg1.stays_sound a b fuel

theorem lookups_never_fail_witness :
    0 < 2 ∧ RecordsFit (records chainLines) ∧
    ∃ g, freshGraph 2 chainLines = .ok g ∧
      (∀ (s : Str) (e : MapEntry), search g.actors (hash s) = .ok (some e) →
        ∃ x, g.actorHeap[e.value]? = some x ∧
          search g.actors (hash x.name) = .ok (some e) ∧
          ∀ M ∈ x.movies, ∃ e2 mv, search g.movies (hash M) = .ok (some e2) ∧
            g.movieHeap[e2.value]? = some mv ∧
            ∀ c ∈ mv.actors, ∃ e3, search g.actors (hash c) = .ok (some e3)) ∧
      (∀ fuel, find_distance fuel (cstr "A") (cstr "C") g ≠ .fault) ∧
      (∃ F, ∀ fuel, F ≤ fuel →
        ∃ r out g1, find_distance fuel (cstr "A") (cstr "C") g = .ok (r, out, g1)) ∧
      ∀ g1, Reachable 2 chainLines g1 →
        ∀ fuel, find_distance fuel (cstr "A") (cstr "C") g1 ≠ .fault :=
  ⟨by decide, chainLines_fit,
    lookups_never_fail 2 chainLines (cstr "A") (cstr "C") (by decide) chainLines_fit⟩

/-! ## Parent links -/

theorem Evolves.discovered {g g1 : Graph} (h : Evolves g g1) {i cu : Nat} {M : Str}
    (hd : DiscoveredFrom g i cu M) : DiscoveredFrom g1 i cu M := by
  obtain ⟨ca, M1, e2, mv, c, e, h1, h2, h3, h4, h5, h6, h7, h8, h9⟩ := hd
  obtain ⟨ca1, a1, _, a3, _, _⟩ := h.actor_cell _ ca h1
  obtain ⟨mv1, m1, m2, m3, m4⟩ := h.movie_cell _ mv h4
  exact ⟨ca1, M1, e2, mv1, c, e, a1, by rw [a3]; exact h2, by rw [h.movies_eq]; exact h3, m1,
    m2.trans h5, m4 h6, by rw [m3]; exact h7, by rw [h.actors_eq]; exact h8, h9⟩

theorem Linked.start (g : Graph) : Linked g g :=
  fun _ x hx => ⟨x, hx, rfl, Or.inl ⟨rfl, rfl⟩⟩

theorem Linked.same_actors {g0 g g1 : Graph} (h : Linked g0 g) (hev : Evolves g g1)
    (hsame : g1.actorHeap = g.actorHeap) : Linked g0 g1 := by
  intro i x hx
  rw [hsame] at hx
  obtain ⟨x0, h1, h2, h3⟩ := h i x hx
  refine ⟨x0, h1, h2, ?_⟩
  rcases h3 with h3 | ⟨h3, h4, cu, h5, h6⟩
  · exact Or.inl h3
  · exact Or.inr ⟨h3, h4, cu, h5, hev.discovered h6⟩

theorem Linked.link {g0 g : Graph} (h : Linked g0 g) {i cu : Nat} {ta : Actor} {M : Str}
    (hi : g.actorHeap[i]? = some ta) (hv : ta.is_visited = 0) (hp : ta.parent = none)
    (hd : DiscoveredFrom g i cu M) :
    Linked g0 { g with actorHeap := g.actorHeap.set i { ta with parent := some cu, parent_movie_name := M } } := by
  have hev : Evolves g { g with actorHeap := g.actorHeap.set i { ta with parent := some cu, parent_movie_name := M } } := by
    refine Evolves.set_actor hi rfl rfl (fun hc => absurd hv hc) ?_
    rintro (hc | hc)
    · exact absurd hv hc
    · exact absurd hp hc
  intro k x hx
  have hx1 : (g.actorHeap.set i { ta with parent := some cu, parent_movie_name := M })[k]? =
      some x := hx
  by_cases hik : i = k
  · subst hik
    rw [List.getElem?_set_self (List.getElem?_eq_some.1 hi).1] at hx1
    simp only [Option.some.injEq] at hx1
    obtain ⟨x0, h1, h2, h3⟩ := h i ta hi
    have hx0v : x0.is_visited = 0 := by rw [← h2]; exact hv
    have hx0p : x0.parent = none := by
      rcases h3 with h3 | ⟨_, h4, _⟩
      · rw [← h3.1]; exact hp
      · exact h4
    refine ⟨x0, h1, by rw [← hx1]; exact h2, Or.inr ⟨hx0v, hx0p, cu, by rw [← hx1], ?_⟩⟩
    rw [← hx1]
    exact hev.discovered hd
  · rw [List.getElem?_set_ne hik] at hx1
    obtain ⟨x0, h1, h2, h3⟩ := h k x hx1
    refine ⟨x0, h1, h2, ?_⟩
    rcases h3 with h3 | ⟨h3, h4, cu1, h5, h6⟩
    · exact Or.inl h3
    · exact Or.inr ⟨h3, h4, cu1, h5, hev.discovered h6⟩

theorem castScan_linked (g0 : Graph) (cu : Nat) (mv : Movie) : ∀ (cast : List Str) (g : Graph)
    (q : Queue) (g1 : Graph) (q1 : Queue), castScan cu mv cast g q = .ok (g1, q1) →
    (∀ c ∈ cast, ∀ e, search g.actors (hash c) = .ok (some e) →
      DiscoveredFrom g e.value cu mv.name) →
    Linked g0 g → Linked g0 g1 := by
  intro cast
  induction cast with
  | nil =>
      intro g q g1 q1 h _ hl
      simp only [castScan, Res.ok.injEq, Prod.mk.injEq] at h
      rw [← h.1]
      exact hl
  | cons a rest ih =>
      intro g q g1 q1 h hctx hl
      obtain ⟨e, ta, hs, hd, heq⟩ := castScan_cons_inv h
      rw [heq] at h
      have hrest : ∀ c ∈ rest, ∀ e, search g.actors (hash c) = .ok (some e) →
          DiscoveredFrom g e.value cu mv.name :=
        fun c hc => hctx c (List.mem_cons_of_mem _ hc)
      by_cases hv : ta.is_visited = 0
      · rw [if_pos hv] at h
        by_cases hp : ta.parent = none
        · rw [if_pos hp] at h
          have hev : Evolves g { g with actorHeap := g.actorHeap.set e.value { ta with parent := some cu, parent_movie_name := mv.name } } := by
            refine Evolves.set_actor hd rfl rfl (fun hc => absurd hv hc) ?_
            rintro (hc | hc)
            · exact absurd hv hc
            · exact absurd hp hc
          refine ih _ _ _ _ h ?_
            (hl.link hd hv hp (hctx a (List.mem_cons_self _ _) e hs))
          intro c hc e1 hs1
          exact hev.discovered (hrest c hc e1 hs1)
        · rw [if_neg hp] at h
          exact ih _ _ _ _ h hrest hl
      · rw [if_neg hv] at h
        exact ih _ _ _ _ h hrest hl

theorem movieScan_linked (g0 : Graph) (cu : Nat) : ∀ (names : List Str) (g : Graph)
    (q : Queue) (g1 : Graph) (q1 : Queue), movieScan cu names g q = .ok (g1, q1) →
    (∃ ca, g.actorHeap[cu]? = some ca ∧ ∀ M ∈ names, M ∈ ca.movies) →
    Linked g0 g → Linked g0 g1 := by
  intro names
  induction names with
  | nil =>
      intro g q g1 q1 h _ hl
      simp only [movieScan, Res.ok.injEq, Prod.mk.injEq] at h
      rw [← h.1]
      exact hl
  | cons name rest ih =>
      intro g q g1 q1 h hctx hl
      obtain ⟨ca, hca, hsub⟩ := hctx
      obtain ⟨e, mv, hs, hd, hcase⟩ := movieScan_cons_inv h
      rcases hcase with ⟨hv, heq⟩ | ⟨hv, g2, q2, hc, heq⟩
      · rw [heq] at h
        exact ih _ _ _ _ h ⟨ca, hca, fun M hM => hsub M (List.mem_cons_of_mem _ hM)⟩ hl
      · rw [heq] at h
        have hev := Evolves.mark_movie (g := g) hd
        obtain ⟨c1, c2⟩ := castScan_evolves _ _ _ _ _ _ _ hc
        have hl2 : Linked g0 g2 := by
          refine castScan_linked g0 cu _ _ _ _ _ _ hc ?_ (hl.same_actors hev rfl)
          intro c hcm e1 hs1
          exact ⟨ca, name, e, { mv with is_visited := 1 }, c, e1, hca,
            hsub name (List.mem_cons_self _ _), hs,
            List.getElem?_set_self (List.getElem?_eq_some.1 hd).1, rfl,
            (by decide : (1 : Int) ≠ 0), hcm, hs1, rfl⟩
        obtain ⟨ca2, a1, _, a3, _, _⟩ := (hev.trans c1).actor_cell _ ca hca
        refine ih _ _ _ _ h ⟨ca2, a1, ?_⟩ hl2
        intro M hM
        rw [a3]
        exact hsub M (List.mem_cons_of_mem _ hM)

theorem bfsLoop_linked (g0 : Graph) (end_ : Str) (walk : Nat) : ∀ (fuel : Nat) (g : Graph)
    (q : Queue) (r : Int) (out : List Line) (g1 : Graph),
    bfsLoop end_ walk fuel g q = .ok (r, out, g1) → Linked g0 g → Linked g0 g1 := by
  intro fuel
  induction fuel with
  | zero =>
      intro g q r out g1 h hl
      rcases bfsLoop_inv h with ⟨_, he⟩ | ⟨k, _, _, hk, _⟩
      · simp only [Prod.mk.injEq] at he
        rw [he.2.2]
        exact hl
      · cases hk
  | succ n ih =>
      intro g q r out g1 h hl
      rcases bfsLoop_inv h with ⟨_, he⟩ | ⟨k, node, q1, hk, _, _, hcase⟩
      · simp only [Prod.mk.injEq] at he
        rw [he.2.2]
        exact hl
      · cases hk
        rcases hcase with ⟨_, hf⟩ | ⟨_, e, ca, g2, q2, _, hd, hm, hrest⟩
        · rw [foundEnd_graph hf]
          exact hl
        · exact ih _ _ _ _ _ hrest
            (movieScan_linked g0 _ _ _ _ _ _ hm ⟨ca, hd, fun M hM => hM⟩ hl)

theorem castScan_write_once (cu : Nat) (mv : Movie) : ∀ (cast : List Str) (g : Graph)
    (q : Queue) (g1 : Graph) (q1 : Queue), castScan cu mv cast g q = .ok (g1, q1) →
    ∀ (i : Nat) (x : Actor), g.actorHeap[i]? = some x →
    ∃ x1, g1.actorHeap[i]? = some x1 ∧
      (x1 = x ∨ (x.is_visited = 0 ∧ x.parent = none ∧
        x1 = { x with parent := some cu, parent_movie_name := mv.name })) := by
  intro cast
  induction cast with
  | nil =>
      intro g q g1 q1 h i x hx
      simp only [castScan, Res.ok.injEq, Prod.mk.injEq] at h
      rw [← h.1]
      exact ⟨x, hx, Or.inl rfl⟩
  | cons a rest ih =>
      intro g q g1 q1 h i x hx
      obtain ⟨e, ta, hs, hd, heq⟩ := castScan_cons_inv h
      rw [heq] at h
      by_cases hv : ta.is_visited = 0
      · rw [if_pos hv] at h
        by_cases hp : ta.parent = none
        · rw [if_pos hp] at h
          by_cases hik : e.value = i
          · rw [hik] at hd h
            have hxt : ta = x := Option.some.inj (hd.symm.trans hx)
            subst hxt
            obtain ⟨x1, h1, h2⟩ := ih _ _ _ _ h i
              { ta with parent := some cu, parent_movie_name := mv.name }
              (List.getElem?_set_self (List.getElem?_eq_some.1 hd).1)
            refine ⟨x1, h1, Or.inr ⟨hv, hp, ?_⟩⟩
            rcases h2 with h2 | ⟨_, h3, _⟩
            · exact h2
            · cases h3
          · exact ih _ _ _ _ h i x (by
              show (g.actorHeap.set e.value _)[i]? = some x
              rw [List.getElem?_set_ne hik]
              exact hx)
        · rw [if_neg hp] at h
          exact ih _ _ _ _ h i x hx
      · rw [if_neg hv] at h
        exact ih _ _ _ _ h i x hx

theorem castScan_assigns (cu : Nat) (mv : Movie) : ∀ (cast : List Str) (g : Graph)
    (q : Queue) (g1 : Graph) (q1 : Queue), castScan cu mv cast g q = .ok (g1, q1) →
    ∀ c ∈ cast, ∀ e, search g.actors (hash c) = .ok (some e) → Seen g1 e.value := by
  intro cast
  induction cast with
  | nil =>
      intro g q g1 q1 _ c hc
      cases hc
  | cons a rest ih =>
      intro g q g1 q1 h c hc e1 hs1
      obtain ⟨e, ta, hs, hd, heq⟩ := castScan_cons_inv h
      have hall := castScan_evolves _ _ _ _ _ _ _ h
      rw [heq] at h
      by_cases hv : ta.is_visited = 0
      · rw [if_pos hv] at h
        by_cases hp : ta.parent = none
        · rw [if_pos hp] at h
          rcases List.mem_cons.1 hc with rfl | hc
          · rw [hs] at hs1
            simp only [Res.ok.injEq, Option.some.injEq] at hs1
            subst hs1
            exact (castScan_evolves _ _ _ _ _ _ _ h).1.seen
              ⟨_, List.getElem?_set_self (List.getElem?_eq_some.1 hd).1, Or.inr (by simp)⟩
          · exact ih _ _ _ _ h c hc e1 hs1
        · rw [if_neg hp] at h
          rcases List.mem_cons.1 hc with rfl | hc
          · rw [hs] at hs1
            simp only [Res.ok.injEq, Option.some.injEq] at hs1
            subst hs1
            exact hall.1.seen ⟨ta, hd, Or.inr hp⟩
          · exact ih _ _ _ _ h c hc e1 hs1
      · rw [if_neg hv] at h
        rcases List.mem_cons.1 hc with rfl | hc
        · rw [hs] at hs1
          simp only [Res.ok.injEq, Option.some.injEq] at hs1
          subst hs1
          exact hall.1.seen ⟨ta, hd, Or.inl hv⟩
        · exact ih _ _ _ _ h c hc e1 hs1

/-- C23: parent links are write-once and first-discovery wins.  For a call of `find_distance`
that returns on a freshly built graph: every Actor had `parent = NULL` before the call, and at
the return it either still has `parent = NULL` and its parent movie untouched, or its parent
and parent movie are those of a discovery (it is a cast member of a visited movie with that
name, listed in the filmography of the parent); the source Actor has `parent = NULL`.  In
every scan of a cast, an Actor is either left as it is or, being unvisited and without parent,
gets the Actor being expanded as parent and the name of the movie being scanned as parent
movie; after the scan every cast member is visited or has a parent, so the first discovery
assigns; and a parent link that is set is never changed by the rest of the traversal. -/
theorem parent_links_write_once (m : Nat) (lines : List (List Str)) (a b : Str) (fuel : Nat)
    (r : Int) (out : List Line) (g g1 : Graph) (hg : freshGraph m lines = .ok g)
    (hrun : find_distance fuel a b g = .ok (r, out, g1)) :
    (∀ (i : Nat) (x1 : Actor), g1.actorHeap[i]? = some x1 →
      ∃ x, g.actorHeap[i]? = some x ∧ x.parent = none ∧
        ((x1.parent = none ∧ x1.parent_movie_name = x.parent_movie_name) ∨
         ∃ cu, x1.parent = some cu ∧ DiscoveredFrom g1 i cu x1.parent_movie_name)) ∧
    (∀ (e : MapEntry) (s1 : Actor), search g.actors (hash a) = .ok (some e) →
      g1.actorHeap[e.value]? = some s1 → s1.parent = none) ∧
    (∀ (cu : Nat) (mv : Movie) (cast : List Str) (h h1 : Graph) (q q1 : Queue),
      castScan cu mv cast h q = .ok (h1, q1) →
      ∀ (i : Nat) (x : Actor), h.actorHeap[i]? = some x →
        ∃ x1, h1.actorHeap[i]? = some x1 ∧
          (x1 = x ∨ (x.is_visited = 0 ∧ x.parent = none ∧
            x1 = { x with parent := some cu, parent_movie_name := mv.name }))) ∧
    (∀ (cu : Nat) (mv : Movie) (cast : List Str) (h h1 : Graph) (q q1 : Queue),
      castScan cu mv cast h q = .ok (h1, q1) →
      ∀ c ∈ cast, ∀ e, search h.actors (hash c) = .ok (some e) →
        ∃ x1, h1.actorHeap[e.value]? = some x1 ∧ (x1.is_visited ≠ 0 ∨ x1.parent ≠ none)) ∧
    ∀ (walk k : Nat) (h : Graph) (q : Queue) (res : Int × List Line × Graph),
      bfsLoop b walk k h q = .ok res →
      ∀ (i : Nat) (x : Actor), h.actorHeap[i]? = some x → x.parent ≠ none →
        ∃ x1, res.2.2.actorHeap[i]? = some x1 ∧ x1.parent = x.parent ∧
          x1.parent_movie_name = x.parent_movie_name := by
  have hfresh := freshGraph_parents hg
  have hbuilt := freshGraph_built hg
  have hfinal : ∀ (i : Nat) (x1 : Actor), g1.actorHeap[i]? = some x1 →
      ∃ x, g.actorHeap[i]? = some x ∧ x.parent = none ∧
        ((x1.parent = none ∧ x1.parent_movie_name = x.parent_movie_name) ∨
         ∃ cu, x1.parent = some cu ∧ DiscoveredFrom g1 i cu x1.parent_movie_name) := by
    obtain ⟨ra, hra⟩ := search_total hbuilt.actors_ok a
    obtain ⟨rb, hrb⟩ := search_total hbuilt.actors_ok b
    have hsame : g1 = g → ∀ (i : Nat) (x1 : Actor), g1.actorHeap[i]? = some x1 →
        ∃ x, g.actorHeap[i]? = some x ∧ x.parent = none ∧
          ((x1.parent = none ∧ x1.parent_movie_name = x.parent_movie_name) ∨
           ∃ cu, x1.parent = some cu ∧ DiscoveredFrom g1 i cu x1.parent_movie_name) := by
      intro he i x1 hx
      rw [he] at hx
      have hp := hfresh x1 (mem_of_getElem?_some hx)
      exact ⟨x1, hx, hp, Or.inl ⟨hp, rfl⟩⟩
    cases ra with
    | none =>
        simp only [find_distance, hra, Res.ok.injEq, Prod.mk.injEq] at hrun
        exact hsame hrun.2.2.symm
    | some e =>
        cases rb with
        | none =>
            simp only [find_distance, hra, hrb, Res.ok.injEq, Prod.mk.injEq] at hrun
            exact hsame hrun.2.2.symm
        | some e2 =>
            obtain ⟨s, hs, hloop⟩ := find_distance_inv hra ⟨e2, hrb⟩ hrun
            have hl := bfsLoop_linked _ _ _ _ _ _ _ _ _ hloop (Linked.start _)
            intro i x1 hx
            obtain ⟨x0, h1, _, h3⟩ := hl i x1 hx
            have h1s : (g.actorHeap.set e.value { s with is_visited := 1 })[i]? = some x0 := h1
            have hcell : ∃ x, g.actorHeap[i]? = some x ∧ x0.parent = x.parent ∧
                x0.parent_movie_name = x.parent_movie_name := by
              by_cases hik : e.value = i
              · rw [hik] at hs h1s
                rw [List.getElem?_set_self (List.getElem?_eq_some.1 hs).1] at h1s
                simp only [Option.some.injEq] at h1s
                exact ⟨s, hs, by rw [← h1s], by rw [← h1s]⟩
              · rw [List.getElem?_set_ne hik] at h1s
                exact ⟨x0, h1s, rfl, rfl⟩
            obtain ⟨x, c1, c2, c3⟩ := hcell
            have hp := hfresh x (mem_of_getElem?_some c1)
            refine ⟨x, c1, hp, ?_⟩
            rcases h3 with ⟨h3, h4⟩ | ⟨_, _, cu, h5, h6⟩
            · exact Or.inl ⟨by rw [h3, c2, hp], by rw [h4, c3]⟩
            · exact Or.inr ⟨cu, h5, h6⟩
  refine ⟨hfinal, ?_, ?_, ?_, ?_⟩
  · intro e s1 hra hs1
    obtain ⟨rb, hrb⟩ := search_total hbuilt.actors_ok b
    cases rb with
    | none =>
        simp only [find_distance, hra, hrb, Res.ok.injEq, Prod.mk.injEq] at hrun
        rw [← hrun.2.2] at hs1
        exact hfresh s1 (mem_of_getElem?_some hs1)
    | some e2 =>
        obtain ⟨s, hs, hloop⟩ := find_distance_inv hra ⟨e2, hrb⟩ hrun
        have hev := bfsLoop_evolves _ _ _ _ _ _ _ _ hloop
        obtain ⟨s2, d1, _, _, _, d5⟩ := hev.actor_cell e.value { s with is_visited := 1 }
          (List.getElem?_set_self (List.getElem?_eq_some.1 hs).1)
        rw [hs1] at d1
        simp only [Option.some.injEq] at d1
        rw [d1, (d5 (Or.inl (by decide : (1 : Int) ≠ 0))).1]
        exact hfresh s (mem_of_getElem?_some hs)
  · intro cu mv cast h h1 q q1 hc
    exact castScan_write_once cu mv cast h q h1 q1 hc
  · intro cu mv cast h h1 q q1 hc c hcm e hs
    exact castScan_assigns cu mv cast h q h1 q1 hc c hcm e hs
  · intro walk k h q res hres i x hx hp
    obtain ⟨r1, out1, h1⟩ := res
    obtain ⟨x1, d1, _, _, _, d5⟩ := (bfsLoop_evolves _ _ _ _ _ _ _ _ hres).actor_cell i x hx
    exact ⟨x1, d1, d5 (Or.inr hp)⟩

theorem parent_links_write_once_witness :
    freshGraph 2 chainLines = .ok chainGraph ∧
    ∃ g1, find_distance 4 (cstr "A") (cstr "C") chainGraph =
        .ok (2, [Line.hop (cstr "C") (cstr "B") (cstr "M2"),
                 Line.hop (cstr "B") (cstr "A") (cstr "M1")], g1) ∧
    ((∀ (i : Nat) (x1 : Actor), g1.actorHeap[i]? = some x1 →
      ∃ x, chainGraph.actorHeap[i]? = some x ∧ x.parent = none ∧
        ((x1.parent = none ∧ x1.parent_movie_name = x.parent_movie_name) ∨
         ∃ cu, x1.parent = some cu ∧ DiscoveredFrom g1 i cu x1.parent_movie_name)) ∧
    (∀ (e : MapEntry) (s1 : Actor), search chainGraph.actors (hash (cstr "A")) = .ok (some e) →
      g1.actorHeap[e.value]? = some s1 → s1.parent = none) ∧
    (∀ (cu : Nat) (mv : Movie) (cast : List Str) (h h1 : Graph) (q q1 : Queue),
      castScan cu mv cast h q = .ok (h1, q1) →
      ∀ (i : Nat) (x : Actor), h.actorHeap[i]? = some x →
        ∃ x1, h1.actorHeap[i]? = some x1 ∧
          (x1 = x ∨ (x.is_visited = 0 ∧ x.parent = none ∧
            x1 = { x with parent := some cu, parent_movie_name := mv.name }))) ∧
    (∀ (cu : Nat) (mv : Movie) (cast : List Str) (h h1 : Graph) (q q1 : Queue),
      castScan cu mv cast h q = .ok (h1, q1) →
      ∀ c ∈ cast, ∀ e, search h.actors (hash c) = .ok (some e) →
        ∃ x1, h1.actorHeap[e.value]? = some x1 ∧ (x1.is_visited ≠ 0 ∨ x1.parent ≠ none)) ∧
    ∀ (walk k : Nat) (h : Graph) (q : Queue) (res : Int × List Line × Graph),
      bfsLoop (cstr "C") walk k h q = .ok res →
      ∀ (i : Nat) (x : Actor), h.actorHeap[i]? = some x → x.parent ≠ none →
        ∃ x1, res.2.2.actorHeap[i]? = some x1 ∧ x1.parent = x.parent ∧
          x1.parent_movie_name = x.parent_movie_name) := by
  have h3 : answer (find_distance 4 (cstr "A") (cstr "C") chainGraph) =
      some (2, [Line.hop (cstr "C") (cstr "B") (cstr "M2"),
                Line.hop (cstr "B") (cstr "A") (cstr "M1")]) := by
    decide!
  obtain ⟨g1, hg1⟩ := answer_eq_some h3
  exact ⟨freshGraph_chainLines, g1, hg1,
    parent_links_write_once 2 chainLines (cstr "A") (cstr "C") 4 2 _ chainGraph g1
      freshGraph_chainLines hg1⟩

/-! ## The capacity of the name buffers -/

theorem castLoop_overflow (current : Str) (rest : List Str) (j : Nat) (actors : List Str)
    (h : MAX_INPUT ≤ current.length) : castLoop (current :: rest) j actors = .fault := by
  have h2 : ¬ current.length < MAX_INPUT := by omega
  by_cases h1 : j - 1 < actors.length
  · simp only [castLoop, h1, h2, if_true, if_false]
  · simp only [castLoop, h1, if_false]

theorem buildLine_overflow (name : Str) (cast : List Str) (g : Graph)
    (h : (∃ c ∈ cast, MAX_INPUT ≤ c.length) ∨ (cast ≠ [] ∧ MAX_INPUT ≤ name.length)) :
    ∀ g1, buildLine name cast g ≠ .ok g1 := by
  intro g1 hc
  obtain ⟨h1, h2⟩ := buildLine_fits hc
  rcases h with ⟨c, hcm, hl⟩ | ⟨hne, hl⟩
  · have := h1 c hcm
    omega
  · have := h2 hne
    omega

theorem freshGraph_overflow_cast :
    freshGraph 2 [[cstr "M", List.replicate 255 65]] = .fault := by decide!

theorem freshGraph_overflow_movie :
    freshGraph 2 [[List.replicate 255 77, cstr "A"]] = .fault := by decide!

theorem freshGraph_at_capacity :
    ∃ g, freshGraph 2 [[List.replicate 254 77, List.replicate 254 65]] = .ok g := by
  have hrec : records [[List.replicate 254 77, List.replicate 254 65]] =
      [(List.replicate 254 77, [List.replicate 254 65])] := rfl
  have hfit : RecordsFit (records [[List.replicate 254 77, List.replicate 254 65]]) := by
    rw [hrec]
    intro r hr
    rw [List.mem_singleton.1 hr]
    refine ⟨?_, fun _ => ?_⟩
    · intro c hc
      rw [List.mem_singleton.1 hc, List.length_replicate]
      decide
    · show (List.replicate 254 77).length < MAX_INPUT
      rw [List.length_replicate]
      decide
  obtain ⟨g, hg, _⟩ := freshGraph_spec (show 0 < 2 by decide) _ hfit
  exact ⟨g, hg⟩

end BaconNumber
